import Mathlib

set_option maxRecDepth 10000

/-!
Verification development for the in-memory information-retrieval engine
(text pipeline, Porter stemmer, lemmatizer, inverted index, TF-IDF ranker,
Boolean query engine, LZW codec).

Strings of the C++ source (TString) are byte strings; they are embedded as
lists of natural numbers (each byte a value below 256).  Machine integers
(size_t) are embedded as Nat, with explicit reduction modulo 2 ^ 64 at the
points where the C++ arithmetic wraps (the FNV and mixing hash functions).
Hash containers of the source implement finite maps with insert-overwrite
semantics; except where iteration order is observable (the TF-IDF candidate
set, the lemmatizer dictionary), they are embedded as association lists.
C++ while loops that are not structurally recursive are embedded with an
explicit fuel argument that strictly dominates the number of iterations the
C++ loop can perform on any input, so the fuel branch is never taken.
-/

/-- Byte strings: the embedding of NTypes::TString. -/
abbrev Str := List Nat

/-- Convert a Lean string literal to its byte-list embedding (ASCII). -/
def ofStr (s : String) : Str := s.data.map Char.toNat

/-- Character-level lower-casing, as TTokenizer::ToLowerChar and the
stemmer ToLower body: bytes 65..90 are shifted by 32. -/
def toLowerChar (c : Nat) : Nat :=
  if 65 ≤ c ∧ c ≤ 90 then c + 32 else c

/-- String-level lower-casing (TTokenizer::ToLower, TPorterStemmer::ToLower,
TLemmatizer::ToLower all perform this same fold). -/
def toLowerStr (s : Str) : Str := s.map toLowerChar

namespace TPorterStemmer

/-- TPorterStemmer::EndsWith: byte-wise suffix test. -/
def EndsWith (s suf : Str) : Bool :=
  decide (suf.length ≤ s.length) && (s.drop (s.length - suf.length) == suf)

/-- TPorterStemmer::RemoveSuffix: drop the last len bytes (empty result when
the string is not longer than the suffix). -/
def RemoveSuffix (s : Str) (len : Nat) : Str :=
  if s.length ≤ len then [] else s.take (s.length - len)

/-- TPorterStemmer::ReplaceSuffix: RemoveSuffix then append the replacement. -/
def ReplaceSuffix (s : Str) (removeLen : Nat) (add : Str) : Str :=
  RemoveSuffix s removeLen ++ add

/-- TPorterStemmer::IsConsonant: a e i o u are vowels, y is a consonant iff
at index 0 or preceded by a vowel, everything else is a consonant.
The recursion on the index mirrors the recursive call on i - 1. -/
def IsConsonant (s : Str) : Nat → Bool
  | 0 =>
      let c := s.getD 0 0
      if c = 97 ∨ c = 101 ∨ c = 105 ∨ c = 111 ∨ c = 117 then false
      else true
  | i + 1 =>
      let c := s.getD (i + 1) 0
      if c = 97 ∨ c = 101 ∨ c = 105 ∨ c = 111 ∨ c = 117 then false
      else if c = 121 then !(IsConsonant s i)
      else true

/-- The inner `while (i < len && IsConsonant(str, i)) ++i;` of MeasureM:
advance the index past a consonant cluster.  The fuel starts at
s.length - i + 1 and strictly exceeds the possible number of iterations,
since every iteration increments i and stops at i = length. -/
def skipConsonants (s : Str) (fuel i : Nat) : Nat :=
  match fuel with
  | 0 => i
  | fuel + 1 =>
      if i < s.length ∧ IsConsonant s i then skipConsonants s fuel (i + 1) else i

/-- The inner `while (i < len && !IsConsonant(str, i)) ++i;` of MeasureM. -/
def skipVowels (s : Str) (fuel i : Nat) : Nat :=
  match fuel with
  | 0 => i
  | fuel + 1 =>
      if i < s.length ∧ ¬IsConsonant s i then skipVowels s fuel (i + 1) else i

/-- The outer loop of TPorterStemmer::MeasureM.  Each iteration advances the
index by at least one, so s.length + 1 units of fuel dominate the C++ loop. -/
def measureLoop (s : Str) (fuel i n : Nat) : Nat :=
  match fuel with
  | 0 => n
  | fuel + 1 =>
      if i < s.length then
        let i1 := skipConsonants s (s.length + 1) i
        if i1 < s.length then
          measureLoop s fuel (skipVowels s (s.length + 1) i1) (n + 1)
        else n
      else n

/-- TPorterStemmer::MeasureM: the measure used by the guard conditions.
Note: it counts consonant clusters that are followed by a vowel (an initial
vowel run is skipped first), which differs from the canonical Porter measure
on words ending in a consonant cluster. -/
def MeasureM (s : Str) : Nat :=
  measureLoop s (s.length + 1) (skipVowels s (s.length + 1) 0) 0

/-- TPorterStemmer::HasVowel. -/
def HasVowel (s : Str) : Bool :=
  decide (∃ i < s.length, ¬IsConsonant s i)

/-- TPorterStemmer::EndsWithDoubleConsonant. -/
def EndsWithDoubleConsonant (s : Str) : Bool :=
  if 2 ≤ s.length then
    (s.getD (s.length - 1) 0 == s.getD (s.length - 2) 0)
      && IsConsonant s (s.length - 1)
  else false

/-- TPorterStemmer::EndsCVC: consonant - vowel - consonant at the end, with
the last consonant not w, x or y. -/
def EndsCVC (s : Str) : Bool :=
  if 3 ≤ s.length then
    let c := s.getD (s.length - 1) 0
    IsConsonant s (s.length - 1) && !IsConsonant s (s.length - 2)
      && IsConsonant s (s.length - 3)
      && !(c == 119 || c == 120 || c == 121)
  else false

/-- TPorterStemmer::Step1a. -/
def Step1a (s : Str) : Str :=
  if EndsWith s (ofStr "sses") then ReplaceSuffix s 4 (ofStr "ss")
  else if EndsWith s (ofStr "ies") then ReplaceSuffix s 3 (ofStr "i")
  else if EndsWith s (ofStr "ss") then s
  else if EndsWith s (ofStr "s") then RemoveSuffix s 1
  else s

/-- TPorterStemmer::Step1b. -/
def Step1b (s : Str) : Str :=
  if EndsWith s (ofStr "eed") then
    if MeasureM (RemoveSuffix s 3) > 0 then ReplaceSuffix s 3 (ofStr "ee") else s
  else
    let fired :=
      if EndsWith s (ofStr "ed") then
        if HasVowel (RemoveSuffix s 2) then some (RemoveSuffix s 2) else none
      else if EndsWith s (ofStr "ing") then
        if HasVowel (RemoveSuffix s 3) then some (RemoveSuffix s 3) else none
      else none
    match fired with
    | none => s
    | some result =>
        if EndsWith result (ofStr "at") then ReplaceSuffix result 2 (ofStr "ate")
        else if EndsWith result (ofStr "bl") then ReplaceSuffix result 2 (ofStr "ble")
        else if EndsWith result (ofStr "iz") then ReplaceSuffix result 2 (ofStr "ize")
        else if EndsWithDoubleConsonant result
            ∧ ¬(result.getD (result.length - 1) 0 = 108
                 ∨ result.getD (result.length - 1) 0 = 115
                 ∨ result.getD (result.length - 1) 0 = 122) then
          RemoveSuffix result 1
        else if MeasureM result = 1 ∧ EndsCVC result then result ++ [101]
        else result

/-- TPorterStemmer::Step1c. -/
def Step1c (s : Str) : Str :=
  if EndsWith s (ofStr "y") then
    if HasVowel (RemoveSuffix s 1) then ReplaceSuffix s 1 (ofStr "i") else s
  else s

/-- The NStep2::SUFFIXES table: (From, To, Len). -/
def step2Suffixes : List (Str × Str × Nat) :=
  [(ofStr "ational", ofStr "ate", 7), (ofStr "tional", ofStr "tion", 6),
   (ofStr "enci", ofStr "ence", 4), (ofStr "anci", ofStr "ance", 4),
   (ofStr "izer", ofStr "ize", 4), (ofStr "abli", ofStr "able", 4),
   (ofStr "alli", ofStr "al", 4), (ofStr "entli", ofStr "ent", 5),
   (ofStr "eli", ofStr "e", 3), (ofStr "ousli", ofStr "ous", 5),
   (ofStr "ization", ofStr "ize", 7), (ofStr "ation", ofStr "ate", 5),
   (ofStr "ator", ofStr "ate", 4), (ofStr "alism", ofStr "al", 5),
   (ofStr "iveness", ofStr "ive", 7), (ofStr "fulness", ofStr "ful", 7),
   (ofStr "ousness", ofStr "ous", 7), (ofStr "aliti", ofStr "al", 5),
   (ofStr "iviti", ofStr "ive", 5), (ofStr "biliti", ofStr "ble", 6),
   (ofStr "logi", ofStr "log", 4), (ofStr "fulli", ofStr "ful", 5),
   (ofStr "lessli", ofStr "less", 6)]

/-- The NStep3::SUFFIXES table. -/
def step3Suffixes : List (Str × Str × Nat) :=
  [(ofStr "icate", ofStr "ic", 5), (ofStr "ative", ofStr "", 5),
   (ofStr "alize", ofStr "al", 5), (ofStr "iciti", ofStr "ic", 5),
   (ofStr "ical", ofStr "ic", 4), (ofStr "ful", ofStr "", 3),
   (ofStr "ness", ofStr "", 4)]

/-- Shared loop body of Step2 and Step3: scan the rule table; at the first
suffix that matches, rewrite if the guard MeasureM(stem) > 0 holds and
otherwise return the input unchanged (early exit either way). -/
def stepTableScan (rules : List (Str × Str × Nat)) (s : Str) : Str :=
  match rules with
  | [] => s
  | (frm, tgt, len) :: rest =>
      if EndsWith s frm then
        if MeasureM (RemoveSuffix s len) > 0 then ReplaceSuffix s len tgt else s
      else stepTableScan rest s

/-- TPorterStemmer::Step2. -/
def Step2 (s : Str) : Str := stepTableScan step2Suffixes s

/-- TPorterStemmer::Step3. -/
def Step3 (s : Str) : Str := stepTableScan step3Suffixes s

/-- The NStep4::SUFFIXES table, in source order (ion sits between ent and
ism and is the special-cased entry). -/
def step4Suffixes : List Str :=
  [ofStr "ement", ofStr "ance", ofStr "ence", ofStr "able", ofStr "ible",
   ofStr "ment", ofStr "ant", ofStr "ent", ofStr "ion", ofStr "ism",
   ofStr "ate", ofStr "iti", ofStr "ous", ofStr "ive", ofStr "ize",
   ofStr "al", ofStr "er", ofStr "ic", ofStr "ou"]

/-- The guard of the special-cased ion suffix in Step4: nonempty stem whose
last byte is s or t, and MeasureM(stem) > 1. -/
def step4IonGuard (stem : Str) : Prop :=
  0 < stem.length
    ∧ (stem.getD (stem.length - 1) 0 = 115 ∨ stem.getD (stem.length - 1) 0 = 116)
    ∧ MeasureM stem > 1

instance (stem : Str) : Decidable (step4IonGuard stem) := by
  unfold step4IonGuard; infer_instance

/-- The loop body of TPorterStemmer::Step4.  Unlike Step2 and Step3 there is
no early exit when a matching suffix fails its guard: the scan continues
with the remaining (shorter) suffixes. -/
def step4Scan (suffixes : List Str) (s : Str) : Str :=
  match suffixes with
  | [] => s
  | suffix :: rest =>
      if EndsWith s suffix then
        let stem := RemoveSuffix s suffix.length
        if suffix = ofStr "ion" then
          if step4IonGuard stem then stem
          else step4Scan rest s
        else
          if MeasureM stem > 1 then stem else step4Scan rest s
      else step4Scan rest s

/-- TPorterStemmer::Step4. -/
def Step4 (s : Str) : Str := step4Scan step4Suffixes s

/-- TPorterStemmer::Step5a. -/
def Step5a (s : Str) : Str :=
  if EndsWith s (ofStr "e") then
    let stem := RemoveSuffix s 1
    if MeasureM stem > 1 then stem
    else if MeasureM stem = 1 ∧ ¬EndsCVC stem then stem
    else s
  else s

/-- TPorterStemmer::Step5b. -/
def Step5b (s : Str) : Str :=
  if MeasureM s > 1 ∧ EndsWithDoubleConsonant s ∧ EndsWith s (ofStr "l") then
    RemoveSuffix s 1
  else s

/-- TPorterStemmer::Stem: words shorter than 3 bytes are returned unchanged
(without lower-casing); otherwise lower-case and run the eight steps. -/
def Stem (word : Str) : Str :=
  if word.length < 3 then word
  else
    Step5b (Step5a (Step4 (Step3 (Step2 (Step1c (Step1b (Step1a
      (toLowerStr word))))))))

/-- TPorterStemmer::StemAll. -/
def StemAll (words : List Str) : List Str := words.map Stem

end TPorterStemmer

-- temporary sanity checks (to be removed)
namespace TLemmatizer

/-- The irregular-form tables of stemmer_const.h, concatenated in the
exact order TLemmatizer::InitDictionary inserts them (verb groups, then
adverbs, then nouns, then adjectives).  Each entry is (inflected form,
lemma).  WRING_FORMS_EXT exists in the source but is never inserted. -/
def initWords : List (Str × Str) :=
  [(ofStr "am", ofStr "be"), (ofStr "are", ofStr "be"),
   (ofStr "is", ofStr "be"), (ofStr "was", ofStr "be"),
   (ofStr "were", ofStr "be"), (ofStr "been", ofStr "be"),
   (ofStr "being", ofStr "be"), (ofStr "have", ofStr "have"),
   (ofStr "has", ofStr "have"), (ofStr "had", ofStr "have"),
   (ofStr "having", ofStr "have"), (ofStr "do", ofStr "do"),
   (ofStr "does", ofStr "do"), (ofStr "did", ofStr "do"),
   (ofStr "doing", ofStr "do"), (ofStr "done", ofStr "do"),
   (ofStr "go", ofStr "go"), (ofStr "goes", ofStr "go"),
   (ofStr "went", ofStr "go"), (ofStr "going", ofStr "go"),
   (ofStr "gone", ofStr "go"), (ofStr "undergo", ofStr "undergo"),
   (ofStr "underwent", ofStr "undergo"), (ofStr "undergone", ofStr "undergo"),
   (ofStr "forgo", ofStr "forgo"), (ofStr "forwent", ofStr "forgo"),
   (ofStr "forgone", ofStr "forgo"), (ofStr "ran", ofStr "run"),
   (ofStr "running", ofStr "run"), (ofStr "runs", ofStr "run"),
   (ofStr "overran", ofStr "overrun"), (ofStr "overrun", ofStr "overrun"),
   (ofStr "reran", ofStr "rerun"), (ofStr "rerun", ofStr "rerun"),
   (ofStr "took", ofStr "take"), (ofStr "taken", ofStr "take"),
   (ofStr "taking", ofStr "take"), (ofStr "takes", ofStr "take"),
   (ofStr "undertook", ofStr "undertake"), (ofStr "undertaken", ofStr "undertake"),
   (ofStr "mistook", ofStr "mistake"), (ofStr "mistaken", ofStr "mistake"),
   (ofStr "overtook", ofStr "overtake"), (ofStr "overtaken", ofStr "overtake"),
   (ofStr "retook", ofStr "retake"), (ofStr "retaken", ofStr "retake"),
   (ofStr "gave", ofStr "give"), (ofStr "given", ofStr "give"),
   (ofStr "giving", ofStr "give"), (ofStr "gives", ofStr "give"),
   (ofStr "forgave", ofStr "forgive"), (ofStr "forgiven", ofStr "forgive"),
   (ofStr "saw", ofStr "see"), (ofStr "seen", ofStr "see"),
   (ofStr "seeing", ofStr "see"), (ofStr "sees", ofStr "see"),
   (ofStr "foresee", ofStr "foresee"), (ofStr "foresaw", ofStr "foresee"),
   (ofStr "foreseen", ofStr "foresee"), (ofStr "oversee", ofStr "oversee"),
   (ofStr "oversaw", ofStr "oversee"), (ofStr "overseen", ofStr "oversee"),
   (ofStr "came", ofStr "come"), (ofStr "coming", ofStr "come"),
   (ofStr "comes", ofStr "come"), (ofStr "become", ofStr "become"),
   (ofStr "became", ofStr "become"), (ofStr "overcome", ofStr "overcome"),
   (ofStr "overcame", ofStr "overcome"), (ofStr "knew", ofStr "know"),
   (ofStr "known", ofStr "know"), (ofStr "knowing", ofStr "know"),
   (ofStr "knows", ofStr "know"), (ofStr "made", ofStr "make"),
   (ofStr "making", ofStr "make"), (ofStr "makes", ofStr "make"),
   (ofStr "remake", ofStr "remake"), (ofStr "remade", ofStr "remake"),
   (ofStr "unmake", ofStr "unmake"), (ofStr "unmade", ofStr "unmake"),
   (ofStr "said", ofStr "say"), (ofStr "saying", ofStr "say"),
   (ofStr "says", ofStr "say"), (ofStr "told", ofStr "tell"),
   (ofStr "telling", ofStr "tell"), (ofStr "tells", ofStr "tell"),
   (ofStr "retell", ofStr "retell"), (ofStr "retold", ofStr "retell"),
   (ofStr "foretell", ofStr "foretell"), (ofStr "foretold", ofStr "foretell"),
   (ofStr "thought", ofStr "think"), (ofStr "thinking", ofStr "think"),
   (ofStr "thinks", ofStr "think"), (ofStr "rethought", ofStr "rethink"),
   (ofStr "found", ofStr "find"), (ofStr "finding", ofStr "find"),
   (ofStr "finds", ofStr "find"), (ofStr "got", ofStr "get"),
   (ofStr "gotten", ofStr "get"), (ofStr "getting", ofStr "get"),
   (ofStr "gets", ofStr "get"), (ofStr "forget", ofStr "forget"),
   (ofStr "forgot", ofStr "forget"), (ofStr "forgotten", ofStr "forget"),
   (ofStr "beget", ofStr "beget"), (ofStr "begot", ofStr "beget"),
   (ofStr "begotten", ofStr "beget"), (ofStr "left", ofStr "leave"),
   (ofStr "leaving", ofStr "leave"), (ofStr "leaves", ofStr "leave"),
   (ofStr "felt", ofStr "feel"), (ofStr "feeling", ofStr "feel"),
   (ofStr "feels", ofStr "feel"), (ofStr "brought", ofStr "bring"),
   (ofStr "bringing", ofStr "bring"), (ofStr "brings", ofStr "bring"),
   (ofStr "bought", ofStr "buy"), (ofStr "buying", ofStr "buy"),
   (ofStr "buys", ofStr "buy"), (ofStr "caught", ofStr "catch"),
   (ofStr "catching", ofStr "catch"), (ofStr "catches", ofStr "catch"),
   (ofStr "taught", ofStr "teach"), (ofStr "teaching", ofStr "teach"),
   (ofStr "teaches", ofStr "teach"), (ofStr "sought", ofStr "seek"),
   (ofStr "seeking", ofStr "seek"), (ofStr "seeks", ofStr "seek"),
   (ofStr "wrote", ofStr "write"), (ofStr "written", ofStr "write"),
   (ofStr "writing", ofStr "write"), (ofStr "writes", ofStr "write"),
   (ofStr "rewrite", ofStr "rewrite"), (ofStr "rewrote", ofStr "rewrite"),
   (ofStr "rewritten", ofStr "rewrite"), (ofStr "overwrite", ofStr "overwrite"),
   (ofStr "overwrote", ofStr "overwrite"), (ofStr "overwritten", ofStr "overwrite"),
   (ofStr "spoke", ofStr "speak"), (ofStr "spoken", ofStr "speak"),
   (ofStr "speaking", ofStr "speak"), (ofStr "speaks", ofStr "speak"),
   (ofStr "broke", ofStr "break"), (ofStr "broken", ofStr "break"),
   (ofStr "breaking", ofStr "break"), (ofStr "breaks", ofStr "break"),
   (ofStr "outbreak", ofStr "outbreak"), (ofStr "outbroke", ofStr "outbreak"),
   (ofStr "outbroken", ofStr "outbreak"), (ofStr "chose", ofStr "choose"),
   (ofStr "chosen", ofStr "choose"), (ofStr "choosing", ofStr "choose"),
   (ofStr "chooses", ofStr "choose"), (ofStr "drove", ofStr "drive"),
   (ofStr "driven", ofStr "drive"), (ofStr "driving", ofStr "drive"),
   (ofStr "drives", ofStr "drive"), (ofStr "overdrive", ofStr "overdrive"),
   (ofStr "overdrove", ofStr "overdrive"), (ofStr "overdriven", ofStr "overdrive"),
   (ofStr "rode", ofStr "ride"), (ofStr "ridden", ofStr "ride"),
   (ofStr "riding", ofStr "ride"), (ofStr "rides", ofStr "ride"),
   (ofStr "override", ofStr "override"), (ofStr "overrode", ofStr "override"),
   (ofStr "overridden", ofStr "override"), (ofStr "rose", ofStr "rise"),
   (ofStr "risen", ofStr "rise"), (ofStr "rising", ofStr "rise"),
   (ofStr "rises", ofStr "rise"), (ofStr "arise", ofStr "arise"),
   (ofStr "arose", ofStr "arise"), (ofStr "arisen", ofStr "arise"),
   (ofStr "flew", ofStr "fly"), (ofStr "flown", ofStr "fly"),
   (ofStr "flying", ofStr "fly"), (ofStr "flies", ofStr "fly"),
   (ofStr "overfly", ofStr "overfly"), (ofStr "overflew", ofStr "overfly"),
   (ofStr "overflown", ofStr "overfly"), (ofStr "grew", ofStr "grow"),
   (ofStr "grown", ofStr "grow"), (ofStr "growing", ofStr "grow"),
   (ofStr "grows", ofStr "grow"), (ofStr "outgrow", ofStr "outgrow"),
   (ofStr "outgrew", ofStr "outgrow"), (ofStr "outgrown", ofStr "outgrow"),
   (ofStr "threw", ofStr "throw"), (ofStr "thrown", ofStr "throw"),
   (ofStr "throwing", ofStr "throw"), (ofStr "throws", ofStr "throw"),
   (ofStr "overthrow", ofStr "overthrow"), (ofStr "overthrew", ofStr "overthrow"),
   (ofStr "overthrown", ofStr "overthrow"), (ofStr "drew", ofStr "draw"),
   (ofStr "drawn", ofStr "draw"), (ofStr "drawing", ofStr "draw"),
   (ofStr "draws", ofStr "draw"), (ofStr "withdraw", ofStr "withdraw"),
   (ofStr "withdrew", ofStr "withdraw"), (ofStr "withdrawn", ofStr "withdraw"),
   (ofStr "sang", ofStr "sing"), (ofStr "sung", ofStr "sing"),
   (ofStr "singing", ofStr "sing"), (ofStr "sings", ofStr "sing"),
   (ofStr "swam", ofStr "swim"), (ofStr "swum", ofStr "swim"),
   (ofStr "swimming", ofStr "swim"), (ofStr "swims", ofStr "swim"),
   (ofStr "began", ofStr "begin"), (ofStr "begun", ofStr "begin"),
   (ofStr "beginning", ofStr "begin"), (ofStr "begins", ofStr "begin"),
   (ofStr "drank", ofStr "drink"), (ofStr "drunk", ofStr "drink"),
   (ofStr "drinking", ofStr "drink"), (ofStr "drinks", ofStr "drink"),
   (ofStr "rang", ofStr "ring"), (ofStr "rung", ofStr "ring"),
   (ofStr "ringing", ofStr "ring"), (ofStr "rings", ofStr "ring"),
   (ofStr "sat", ofStr "sit"), (ofStr "sitting", ofStr "sit"),
   (ofStr "sits", ofStr "sit"), (ofStr "babysit", ofStr "babysit"),
   (ofStr "babysat", ofStr "babysit"), (ofStr "stood", ofStr "stand"),
   (ofStr "standing", ofStr "stand"), (ofStr "stands", ofStr "stand"),
   (ofStr "understand", ofStr "understand"), (ofStr "understood", ofStr "understand"),
   (ofStr "withstand", ofStr "withstand"), (ofStr "withstood", ofStr "withstand"),
   (ofStr "held", ofStr "hold"), (ofStr "holding", ofStr "hold"),
   (ofStr "holds", ofStr "hold"), (ofStr "behold", ofStr "behold"),
   (ofStr "beheld", ofStr "behold"), (ofStr "withhold", ofStr "withhold"),
   (ofStr "withheld", ofStr "withhold"), (ofStr "uphold", ofStr "uphold"),
   (ofStr "upheld", ofStr "uphold"), (ofStr "read", ofStr "read"),
   (ofStr "reading", ofStr "read"), (ofStr "reads", ofStr "read"),
   (ofStr "led", ofStr "lead"), (ofStr "leading", ofStr "lead"),
   (ofStr "leads", ofStr "lead"), (ofStr "mislead", ofStr "mislead"),
   (ofStr "misled", ofStr "mislead"), (ofStr "met", ofStr "meet"),
   (ofStr "meeting", ofStr "meet"), (ofStr "meets", ofStr "meet"),
   (ofStr "paid", ofStr "pay"), (ofStr "paying", ofStr "pay"),
   (ofStr "pays", ofStr "pay"), (ofStr "repay", ofStr "repay"),
   (ofStr "repaid", ofStr "repay"), (ofStr "overpay", ofStr "overpay"),
   (ofStr "overpaid", ofStr "overpay"), (ofStr "sent", ofStr "send"),
   (ofStr "sending", ofStr "send"), (ofStr "sends", ofStr "send"),
   (ofStr "spent", ofStr "spend"), (ofStr "spending", ofStr "spend"),
   (ofStr "spends", ofStr "spend"), (ofStr "overspend", ofStr "overspend"),
   (ofStr "overspent", ofStr "overspend"), (ofStr "built", ofStr "build"),
   (ofStr "building", ofStr "build"), (ofStr "builds", ofStr "build"),
   (ofStr "rebuild", ofStr "rebuild"), (ofStr "rebuilt", ofStr "rebuild"),
   (ofStr "lost", ofStr "lose"), (ofStr "losing", ofStr "lose"),
   (ofStr "loses", ofStr "lose"), (ofStr "kept", ofStr "keep"),
   (ofStr "keeping", ofStr "keep"), (ofStr "keeps", ofStr "keep"),
   (ofStr "slept", ofStr "sleep"), (ofStr "sleeping", ofStr "sleep"),
   (ofStr "sleeps", ofStr "sleep"), (ofStr "oversleep", ofStr "oversleep"),
   (ofStr "overslept", ofStr "oversleep"), (ofStr "won", ofStr "win"),
   (ofStr "winning", ofStr "win"), (ofStr "wins", ofStr "win"),
   (ofStr "wore", ofStr "wear"), (ofStr "worn", ofStr "wear"),
   (ofStr "wearing", ofStr "wear"), (ofStr "wears", ofStr "wear"),
   (ofStr "beat", ofStr "beat"), (ofStr "beaten", ofStr "beat"),
   (ofStr "beating", ofStr "beat"), (ofStr "beats", ofStr "beat"),
   (ofStr "bit", ofStr "bite"), (ofStr "bitten", ofStr "bite"),
   (ofStr "biting", ofStr "bite"), (ofStr "bites", ofStr "bite"),
   (ofStr "bound", ofStr "bind"), (ofStr "binding", ofStr "bind"),
   (ofStr "binds", ofStr "bind"), (ofStr "unbind", ofStr "unbind"),
   (ofStr "unbound", ofStr "unbind"), (ofStr "rebind", ofStr "rebind"),
   (ofStr "rebound", ofStr "rebind"), (ofStr "bled", ofStr "bleed"),
   (ofStr "bleeding", ofStr "bleed"), (ofStr "bleeds", ofStr "bleed"),
   (ofStr "blew", ofStr "blow"), (ofStr "blown", ofStr "blow"),
   (ofStr "blowing", ofStr "blow"), (ofStr "blows", ofStr "blow"),
   (ofStr "overblow", ofStr "overblow"), (ofStr "overblew", ofStr "overblow"),
   (ofStr "overblown", ofStr "overblow"), (ofStr "bore", ofStr "bear"),
   (ofStr "born", ofStr "bear"), (ofStr "borne", ofStr "bear"),
   (ofStr "bearing", ofStr "bear"), (ofStr "bears", ofStr "bear"),
   (ofStr "ate", ofStr "eat"), (ofStr "eaten", ofStr "eat"),
   (ofStr "eating", ofStr "eat"), (ofStr "eats", ofStr "eat"),
   (ofStr "overeat", ofStr "overeat"), (ofStr "overate", ofStr "overeat"),
   (ofStr "overeaten", ofStr "overeat"), (ofStr "fell", ofStr "fall"),
   (ofStr "fallen", ofStr "fall"), (ofStr "falling", ofStr "fall"),
   (ofStr "falls", ofStr "fall"), (ofStr "befall", ofStr "befall"),
   (ofStr "befell", ofStr "befall"), (ofStr "befallen", ofStr "befall"),
   (ofStr "hid", ofStr "hide"), (ofStr "hidden", ofStr "hide"),
   (ofStr "hiding", ofStr "hide"), (ofStr "hides", ofStr "hide"),
   (ofStr "shook", ofStr "shake"), (ofStr "shaken", ofStr "shake"),
   (ofStr "shaking", ofStr "shake"), (ofStr "shakes", ofStr "shake"),
   (ofStr "froze", ofStr "freeze"), (ofStr "frozen", ofStr "freeze"),
   (ofStr "freezing", ofStr "freeze"), (ofStr "freezes", ofStr "freeze"),
   (ofStr "stole", ofStr "steal"), (ofStr "stolen", ofStr "steal"),
   (ofStr "stealing", ofStr "steal"), (ofStr "steals", ofStr "steal"),
   (ofStr "tore", ofStr "tear"), (ofStr "torn", ofStr "tear"),
   (ofStr "tearing", ofStr "tear"), (ofStr "tears", ofStr "tear"),
   (ofStr "wove", ofStr "weave"), (ofStr "woven", ofStr "weave"),
   (ofStr "weaving", ofStr "weave"), (ofStr "weaves", ofStr "weave"),
   (ofStr "forbade", ofStr "forbid"), (ofStr "forbidden", ofStr "forbid"),
   (ofStr "forbidding", ofStr "forbid"), (ofStr "forbids", ofStr "forbid"),
   (ofStr "forgave", ofStr "forgive"), (ofStr "forgiven", ofStr "forgive"),
   (ofStr "forgiving", ofStr "forgive"), (ofStr "forgives", ofStr "forgive"),
   (ofStr "lay", ofStr "lie"), (ofStr "lain", ofStr "lie"),
   (ofStr "lying", ofStr "lie"), (ofStr "lies", ofStr "lie"),
   (ofStr "laid", ofStr "lay"), (ofStr "laying", ofStr "lay"),
   (ofStr "lays", ofStr "lay"), (ofStr "shone", ofStr "shine"),
   (ofStr "shined", ofStr "shine"), (ofStr "shining", ofStr "shine"),
   (ofStr "shines", ofStr "shine"), (ofStr "shot", ofStr "shoot"),
   (ofStr "shooting", ofStr "shoot"), (ofStr "shoots", ofStr "shoot"),
   (ofStr "overshoot", ofStr "overshoot"), (ofStr "overshot", ofStr "overshoot"),
   (ofStr "showed", ofStr "show"), (ofStr "shown", ofStr "show"),
   (ofStr "showing", ofStr "show"), (ofStr "shows", ofStr "show"),
   (ofStr "shrank", ofStr "shrink"), (ofStr "shrunk", ofStr "shrink"),
   (ofStr "shrinking", ofStr "shrink"), (ofStr "shrinks", ofStr "shrink"),
   (ofStr "shut", ofStr "shut"), (ofStr "shutting", ofStr "shut"),
   (ofStr "shuts", ofStr "shut"), (ofStr "slew", ofStr "slay"),
   (ofStr "slain", ofStr "slay"), (ofStr "slaying", ofStr "slay"),
   (ofStr "slays", ofStr "slay"), (ofStr "slid", ofStr "slide"),
   (ofStr "sliding", ofStr "slide"), (ofStr "slides", ofStr "slide"),
   (ofStr "slung", ofStr "sling"), (ofStr "slinging", ofStr "sling"),
   (ofStr "slings", ofStr "sling"), (ofStr "slit", ofStr "slit"),
   (ofStr "slitting", ofStr "slit"), (ofStr "slits", ofStr "slit"),
   (ofStr "smote", ofStr "smite"), (ofStr "smitten", ofStr "smite"),
   (ofStr "smiting", ofStr "smite"), (ofStr "smites", ofStr "smite"),
   (ofStr "sowed", ofStr "sow"), (ofStr "sown", ofStr "sow"),
   (ofStr "sowing", ofStr "sow"), (ofStr "sows", ofStr "sow"),
   (ofStr "spun", ofStr "spin"), (ofStr "spinning", ofStr "spin"),
   (ofStr "spins", ofStr "spin"), (ofStr "spat", ofStr "spit"),
   (ofStr "spit", ofStr "spit"), (ofStr "spitting", ofStr "spit"),
   (ofStr "spits", ofStr "spit"), (ofStr "split", ofStr "split"),
   (ofStr "splitting", ofStr "split"), (ofStr "splits", ofStr "split"),
   (ofStr "spread", ofStr "spread"), (ofStr "spreading", ofStr "spread"),
   (ofStr "spreads", ofStr "spread"), (ofStr "sprang", ofStr "spring"),
   (ofStr "sprung", ofStr "spring"), (ofStr "springing", ofStr "spring"),
   (ofStr "springs", ofStr "spring"), (ofStr "stuck", ofStr "stick"),
   (ofStr "sticking", ofStr "stick"), (ofStr "sticks", ofStr "stick"),
   (ofStr "stung", ofStr "sting"), (ofStr "stinging", ofStr "sting"),
   (ofStr "stings", ofStr "sting"), (ofStr "stank", ofStr "stink"),
   (ofStr "stunk", ofStr "stink"), (ofStr "stinking", ofStr "stink"),
   (ofStr "stinks", ofStr "stink"), (ofStr "strode", ofStr "stride"),
   (ofStr "stridden", ofStr "stride"), (ofStr "striding", ofStr "stride"),
   (ofStr "strides", ofStr "stride"), (ofStr "struck", ofStr "strike"),
   (ofStr "stricken", ofStr "strike"), (ofStr "striking", ofStr "strike"),
   (ofStr "strikes", ofStr "strike"), (ofStr "strung", ofStr "string"),
   (ofStr "stringing", ofStr "string"), (ofStr "strings", ofStr "string"),
   (ofStr "strove", ofStr "strive"), (ofStr "striven", ofStr "strive"),
   (ofStr "striving", ofStr "strive"), (ofStr "strives", ofStr "strive"),
   (ofStr "swore", ofStr "swear"), (ofStr "sworn", ofStr "swear"),
   (ofStr "swearing", ofStr "swear"), (ofStr "swears", ofStr "swear"),
   (ofStr "swept", ofStr "sweep"), (ofStr "sweeping", ofStr "sweep"),
   (ofStr "sweeps", ofStr "sweep"), (ofStr "swelled", ofStr "swell"),
   (ofStr "swollen", ofStr "swell"), (ofStr "swelling", ofStr "swell"),
   (ofStr "swells", ofStr "swell"), (ofStr "swung", ofStr "swing"),
   (ofStr "swinging", ofStr "swing"), (ofStr "swings", ofStr "swing"),
   (ofStr "trod", ofStr "tread"), (ofStr "trodden", ofStr "tread"),
   (ofStr "treading", ofStr "tread"), (ofStr "treads", ofStr "tread"),
   (ofStr "woke", ofStr "wake"), (ofStr "woken", ofStr "wake"),
   (ofStr "waking", ofStr "wake"), (ofStr "wakes", ofStr "wake"),
   (ofStr "awake", ofStr "awake"), (ofStr "awoke", ofStr "awake"),
   (ofStr "awoken", ofStr "awake"), (ofStr "wound", ofStr "wind"),
   (ofStr "winding", ofStr "wind"), (ofStr "winds", ofStr "wind"),
   (ofStr "unwind", ofStr "unwind"), (ofStr "unwound", ofStr "unwind"),
   (ofStr "rewind", ofStr "rewind"), (ofStr "rewound", ofStr "rewind"),
   (ofStr "wrung", ofStr "wring"), (ofStr "wringing", ofStr "wring"),
   (ofStr "wrings", ofStr "wring"), (ofStr "lit", ofStr "light"),
   (ofStr "lighted", ofStr "light"), (ofStr "lighting", ofStr "light"),
   (ofStr "lights", ofStr "light"), (ofStr "quit", ofStr "quit"),
   (ofStr "quitting", ofStr "quit"), (ofStr "quits", ofStr "quit"),
   (ofStr "set", ofStr "set"), (ofStr "setting", ofStr "set"),
   (ofStr "sets", ofStr "set"), (ofStr "upset", ofStr "upset"),
   (ofStr "reset", ofStr "reset"), (ofStr "offset", ofStr "offset"),
   (ofStr "cut", ofStr "cut"), (ofStr "cutting", ofStr "cut"),
   (ofStr "cuts", ofStr "cut"), (ofStr "undercut", ofStr "undercut"),
   (ofStr "hit", ofStr "hit"), (ofStr "hitting", ofStr "hit"),
   (ofStr "hits", ofStr "hit"), (ofStr "put", ofStr "put"),
   (ofStr "putting", ofStr "put"), (ofStr "puts", ofStr "put"),
   (ofStr "input", ofStr "input"), (ofStr "output", ofStr "output"),
   (ofStr "let", ofStr "let"), (ofStr "letting", ofStr "let"),
   (ofStr "lets", ofStr "let"), (ofStr "cost", ofStr "cost"),
   (ofStr "costing", ofStr "cost"), (ofStr "costs", ofStr "cost"),
   (ofStr "cast", ofStr "cast"), (ofStr "casting", ofStr "cast"),
   (ofStr "casts", ofStr "cast"), (ofStr "broadcast", ofStr "broadcast"),
   (ofStr "forecast", ofStr "forecast"), (ofStr "overcast", ofStr "overcast"),
   (ofStr "burst", ofStr "burst"), (ofStr "bursting", ofStr "burst"),
   (ofStr "bursts", ofStr "burst"), (ofStr "hurt", ofStr "hurt"),
   (ofStr "hurting", ofStr "hurt"), (ofStr "hurts", ofStr "hurt"),
   (ofStr "bet", ofStr "bet"), (ofStr "betting", ofStr "bet"),
   (ofStr "bets", ofStr "bet"), (ofStr "bent", ofStr "bend"),
   (ofStr "bending", ofStr "bend"), (ofStr "bends", ofStr "bend"),
   (ofStr "lent", ofStr "lend"), (ofStr "lending", ofStr "lend"),
   (ofStr "lends", ofStr "lend"), (ofStr "fed", ofStr "feed"),
   (ofStr "feeding", ofStr "feed"), (ofStr "feeds", ofStr "feed"),
   (ofStr "overfeed", ofStr "overfeed"), (ofStr "overfed", ofStr "overfeed"),
   (ofStr "bred", ofStr "breed"), (ofStr "breeding", ofStr "breed"),
   (ofStr "breeds", ofStr "breed"), (ofStr "crossbreed", ofStr "crossbreed"),
   (ofStr "crossbred", ofStr "crossbreed"), (ofStr "sped", ofStr "speed"),
   (ofStr "speeding", ofStr "speed"), (ofStr "speeds", ofStr "speed"),
   (ofStr "fled", ofStr "flee"), (ofStr "fleeing", ofStr "flee"),
   (ofStr "flees", ofStr "flee"), (ofStr "dealt", ofStr "deal"),
   (ofStr "dealing", ofStr "deal"), (ofStr "deals", ofStr "deal"),
   (ofStr "meant", ofStr "mean"), (ofStr "meaning", ofStr "mean"),
   (ofStr "means", ofStr "mean"), (ofStr "leant", ofStr "lean"),
   (ofStr "leaned", ofStr "lean"), (ofStr "leaning", ofStr "lean"),
   (ofStr "leans", ofStr "lean"), (ofStr "leapt", ofStr "leap"),
   (ofStr "leaped", ofStr "leap"), (ofStr "leaping", ofStr "leap"),
   (ofStr "leaps", ofStr "leap"), (ofStr "overleap", ofStr "overleap"),
   (ofStr "overleapt", ofStr "overleap"), (ofStr "learnt", ofStr "learn"),
   (ofStr "learned", ofStr "learn"), (ofStr "learning", ofStr "learn"),
   (ofStr "learns", ofStr "learn"), (ofStr "burnt", ofStr "burn"),
   (ofStr "burned", ofStr "burn"), (ofStr "burning", ofStr "burn"),
   (ofStr "burns", ofStr "burn"), (ofStr "smelt", ofStr "smell"),
   (ofStr "smelled", ofStr "smell"), (ofStr "smelling", ofStr "smell"),
   (ofStr "smells", ofStr "smell"), (ofStr "spelt", ofStr "spell"),
   (ofStr "spelled", ofStr "spell"), (ofStr "spelling", ofStr "spell"),
   (ofStr "spells", ofStr "spell"), (ofStr "misspell", ofStr "misspell"),
   (ofStr "misspelt", ofStr "misspell"), (ofStr "spilt", ofStr "spill"),
   (ofStr "spilled", ofStr "spill"), (ofStr "spilling", ofStr "spill"),
   (ofStr "spills", ofStr "spill"), (ofStr "spoilt", ofStr "spoil"),
   (ofStr "spoiled", ofStr "spoil"), (ofStr "spoiling", ofStr "spoil"),
   (ofStr "spoils", ofStr "spoil"), (ofStr "dreamt", ofStr "dream"),
   (ofStr "dreamed", ofStr "dream"), (ofStr "dreaming", ofStr "dream"),
   (ofStr "dreams", ofStr "dream"), (ofStr "dwelt", ofStr "dwell"),
   (ofStr "dwelled", ofStr "dwell"), (ofStr "dwelling", ofStr "dwell"),
   (ofStr "dwells", ofStr "dwell"), (ofStr "hung", ofStr "hang"),
   (ofStr "hanged", ofStr "hang"), (ofStr "hanging", ofStr "hang"),
   (ofStr "hangs", ofStr "hang"), (ofStr "overhang", ofStr "overhang"),
   (ofStr "overhung", ofStr "overhang"), (ofStr "dug", ofStr "dig"),
   (ofStr "digging", ofStr "dig"), (ofStr "digs", ofStr "dig"),
   (ofStr "clung", ofStr "cling"), (ofStr "clinging", ofStr "cling"),
   (ofStr "clings", ofStr "cling"), (ofStr "flung", ofStr "fling"),
   (ofStr "flinging", ofStr "fling"), (ofStr "flings", ofStr "fling"),
   (ofStr "worse", ofStr "badly"), (ofStr "worst", ofStr "badly"),
   (ofStr "better", ofStr "well"), (ofStr "best", ofStr "well"),
   (ofStr "more", ofStr "much"), (ofStr "most", ofStr "much"),
   (ofStr "less", ofStr "little"), (ofStr "least", ofStr "little"),
   (ofStr "farther", ofStr "far"), (ofStr "farthest", ofStr "far"),
   (ofStr "further", ofStr "far"), (ofStr "furthest", ofStr "far"),
   (ofStr "children", ofStr "child"), (ofStr "men", ofStr "man"),
   (ofStr "women", ofStr "woman"), (ofStr "feet", ofStr "foot"),
   (ofStr "teeth", ofStr "tooth"), (ofStr "mice", ofStr "mouse"),
   (ofStr "geese", ofStr "goose"), (ofStr "people", ofStr "person"),
   (ofStr "lice", ofStr "louse"), (ofStr "oxen", ofStr "ox"),
   (ofStr "deer", ofStr "deer"), (ofStr "sheep", ofStr "sheep"),
   (ofStr "fish", ofStr "fish"), (ofStr "moose", ofStr "moose"),
   (ofStr "series", ofStr "series"), (ofStr "species", ofStr "species"),
   (ofStr "aircraft", ofStr "aircraft"), (ofStr "spacecraft", ofStr "spacecraft"),
   (ofStr "salmon", ofStr "salmon"), (ofStr "trout", ofStr "trout"),
   (ofStr "swine", ofStr "swine"), (ofStr "bison", ofStr "bison"),
   (ofStr "buffalo", ofStr "buffalo"), (ofStr "shrimp", ofStr "shrimp"),
   (ofStr "cod", ofStr "cod"), (ofStr "squid", ofStr "squid"),
   (ofStr "cacti", ofStr "cactus"), (ofStr "cactuses", ofStr "cactus"),
   (ofStr "fungi", ofStr "fungus"), (ofStr "funguses", ofStr "fungus"),
   (ofStr "nuclei", ofStr "nucleus"), (ofStr "syllabi", ofStr "syllabus"),
   (ofStr "syllabuses", ofStr "syllabus"), (ofStr "alumni", ofStr "alumnus"),
   (ofStr "foci", ofStr "focus"), (ofStr "focuses", ofStr "focus"),
   (ofStr "radii", ofStr "radius"), (ofStr "stimuli", ofStr "stimulus"),
   (ofStr "termini", ofStr "terminus"), (ofStr "terminuses", ofStr "terminus"),
   (ofStr "cacti", ofStr "cactus"), (ofStr "analyses", ofStr "analysis"),
   (ofStr "axes", ofStr "axis"), (ofStr "bases", ofStr "basis"),
   (ofStr "crises", ofStr "crisis"), (ofStr "diagnoses", ofStr "diagnosis"),
   (ofStr "ellipses", ofStr "ellipsis"), (ofStr "hypotheses", ofStr "hypothesis"),
   (ofStr "oases", ofStr "oasis"), (ofStr "parentheses", ofStr "parenthesis"),
   (ofStr "synopses", ofStr "synopsis"), (ofStr "syntheses", ofStr "synthesis"),
   (ofStr "theses", ofStr "thesis"), (ofStr "phenomena", ofStr "phenomenon"),
   (ofStr "criteria", ofStr "criterion"), (ofStr "data", ofStr "datum"),
   (ofStr "errata", ofStr "erratum"), (ofStr "strata", ofStr "stratum"),
   (ofStr "addenda", ofStr "addendum"), (ofStr "bacteria", ofStr "bacterium"),
   (ofStr "curricula", ofStr "curriculum"), (ofStr "memoranda", ofStr "memorandum"),
   (ofStr "media", ofStr "medium"), (ofStr "millennia", ofStr "millennium"),
   (ofStr "ova", ofStr "ovum"), (ofStr "spectra", ofStr "spectrum"),
   (ofStr "symposia", ofStr "symposium"), (ofStr "algae", ofStr "alga"),
   (ofStr "antennae", ofStr "antenna"), (ofStr "antennas", ofStr "antenna"),
   (ofStr "formulae", ofStr "formula"), (ofStr "formulas", ofStr "formula"),
   (ofStr "larvae", ofStr "larva"), (ofStr "nebulae", ofStr "nebula"),
   (ofStr "vertebrae", ofStr "vertebra"), (ofStr "vitae", ofStr "vita"),
   (ofStr "appendices", ofStr "appendix"), (ofStr "appendixes", ofStr "appendix"),
   (ofStr "codices", ofStr "codex"), (ofStr "indices", ofStr "index"),
   (ofStr "indexes", ofStr "index"), (ofStr "matrices", ofStr "matrix"),
   (ofStr "matrixes", ofStr "matrix"), (ofStr "vertices", ofStr "vertex"),
   (ofStr "vortices", ofStr "vortex"), (ofStr "vortexes", ofStr "vortex"),
   (ofStr "apices", ofStr "apex"), (ofStr "apexes", ofStr "apex"),
   (ofStr "cortices", ofStr "cortex"), (ofStr "helices", ofStr "helix"),
   (ofStr "loci", ofStr "locus"), (ofStr "fungi", ofStr "fungus"),
   (ofStr "octopi", ofStr "octopus"), (ofStr "octopuses", ofStr "octopus"),
   (ofStr "platypuses", ofStr "platypus"), (ofStr "platypi", ofStr "platypus"),
   (ofStr "cacti", ofStr "cactus"), (ofStr "genii", ofStr "genius"),
   (ofStr "geniuses", ofStr "genius"), (ofStr "styli", ofStr "stylus"),
   (ofStr "styluses", ofStr "stylus"), (ofStr "abscissae", ofStr "abscissa"),
   (ofStr "amoebae", ofStr "amoeba"), (ofStr "amoebas", ofStr "amoeba"),
   (ofStr "antitheses", ofStr "antithesis"), (ofStr "aphides", ofStr "aphis"),
   (ofStr "apices", ofStr "apex"), (ofStr "automata", ofStr "automaton"),
   (ofStr "automatons", ofStr "automaton"), (ofStr "cervices", ofStr "cervix"),
   (ofStr "crania", ofStr "cranium"), (ofStr "equilibria", ofStr "equilibrium"),
   (ofStr "ganglia", ofStr "ganglion"), (ofStr "genera", ofStr "genus"),
   (ofStr "gymnasia", ofStr "gymnasium"), (ofStr "loci", ofStr "locus"),
   (ofStr "penumbrae", ofStr "penumbra"), (ofStr "phyla", ofStr "phylum"),
   (ofStr "quanta", ofStr "quantum"), (ofStr "rostra", ofStr "rostrum"),
   (ofStr "septa", ofStr "septum"), (ofStr "solaria", ofStr "solarium"),
   (ofStr "stamina", ofStr "stamen"), (ofStr "thoraces", ofStr "thorax"),
   (ofStr "ultimata", ofStr "ultimatum"), (ofStr "umbrae", ofStr "umbra"),
   (ofStr "uteri", ofStr "uterus"), (ofStr "viscera", ofStr "viscus"),
   (ofStr "aquaria", ofStr "aquarium"), (ofStr "aquariums", ofStr "aquarium"),
   (ofStr "consortia", ofStr "consortium"), (ofStr "crania", ofStr "cranium"),
   (ofStr "craniums", ofStr "cranium"), (ofStr "emporium", ofStr "emporium"),
   (ofStr "emporia", ofStr "emporium"), (ofStr "equilibria", ofStr "equilibrium"),
   (ofStr "equilibriums", ofStr "equilibrium"), (ofStr "ganglia", ofStr "ganglion"),
   (ofStr "ganglions", ofStr "ganglion"), (ofStr "gymnasia", ofStr "gymnasium"),
   (ofStr "gymnasiums", ofStr "gymnasium"), (ofStr "honoraria", ofStr "honorarium"),
   (ofStr "honorariums", ofStr "honorarium"), (ofStr "mausolea", ofStr "mausoleum"),
   (ofStr "mausoleums", ofStr "mausoleum"), (ofStr "moratorium", ofStr "moratorium"),
   (ofStr "moratoria", ofStr "moratorium"), (ofStr "planetaria", ofStr "planetarium"),
   (ofStr "planetariums", ofStr "planetarium"), (ofStr "podiums", ofStr "podium"),
   (ofStr "podia", ofStr "podium"), (ofStr "referenda", ofStr "referendum"),
   (ofStr "referendums", ofStr "referendum"), (ofStr "rostra", ofStr "rostrum"),
   (ofStr "rostrums", ofStr "rostrum"), (ofStr "sanatoriums", ofStr "sanatorium"),
   (ofStr "sanatoria", ofStr "sanatorium"), (ofStr "stadiums", ofStr "stadium"),
   (ofStr "stadia", ofStr "stadium"), (ofStr "symposiums", ofStr "symposium"),
   (ofStr "symposia", ofStr "symposium"), (ofStr "terrariums", ofStr "terrarium"),
   (ofStr "terraria", ofStr "terrarium"), (ofStr "ultimatums", ofStr "ultimatum"),
   (ofStr "ultimata", ofStr "ultimatum"), (ofStr "vivariums", ofStr "vivarium"),
   (ofStr "vivaria", ofStr "vivarium"), (ofStr "atria", ofStr "atrium"),
   (ofStr "bacilli", ofStr "bacillus"), (ofStr "bronchi", ofStr "bronchus"),
   (ofStr "cilia", ofStr "cilium"), (ofStr "flagella", ofStr "flagellum"),
   (ofStr "ganglia", ofStr "ganglion"), (ofStr "mitochondria", ofStr "mitochondrion"),
   (ofStr "mycelia", ofStr "mycelium"), (ofStr "ova", ofStr "ovum"),
   (ofStr "protozoa", ofStr "protozoan"), (ofStr "septa", ofStr "septum"),
   (ofStr "spermatozoa", ofStr "spermatozoon"), (ofStr "venae", ofStr "vena"),
   (ofStr "abscissae", ofStr "abscissa"), (ofStr "abscissas", ofStr "abscissa"),
   (ofStr "apices", ofStr "apex"), (ofStr "asymptotes", ofStr "asymptote"),
   (ofStr "axes", ofStr "axis"), (ofStr "binomials", ofStr "binomial"),
   (ofStr "corollaries", ofStr "corollary"), (ofStr "loci", ofStr "locus"),
   (ofStr "maxima", ofStr "maximum"), (ofStr "maximums", ofStr "maximum"),
   (ofStr "minima", ofStr "minimum"), (ofStr "minimums", ofStr "minimum"),
   (ofStr "optima", ofStr "optimum"), (ofStr "optimums", ofStr "optimum"),
   (ofStr "polyhedra", ofStr "polyhedron"), (ofStr "polyhedrons", ofStr "polyhedron"),
   (ofStr "quanta", ofStr "quantum"), (ofStr "radices", ofStr "radix"),
   (ofStr "simplices", ofStr "simplex"), (ofStr "vertices", ofStr "vertex"),
   (ofStr "corpora", ofStr "corpus"), (ofStr "genera", ofStr "genus"),
   (ofStr "lemmas", ofStr "lemma"), (ofStr "lemmata", ofStr "lemma"),
   (ofStr "lexica", ofStr "lexicon"), (ofStr "lexicons", ofStr "lexicon"),
   (ofStr "parentheses", ofStr "parenthesis"), (ofStr "schemata", ofStr "schema"),
   (ofStr "schemas", ofStr "schema"), (ofStr "amoebae", ofStr "amoeba"),
   (ofStr "antennae", ofStr "antenna"), (ofStr "larvae", ofStr "larva"),
   (ofStr "pupae", ofStr "pupa"), (ofStr "chrysalises", ofStr "chrysalis"),
   (ofStr "chrysalides", ofStr "chrysalis"), (ofStr "addenda", ofStr "addendum"),
   (ofStr "addendums", ofStr "addendum"), (ofStr "agenda", ofStr "agendum"),
   (ofStr "algae", ofStr "alga"), (ofStr "alumni", ofStr "alumnus"),
   (ofStr "alumnae", ofStr "alumna"), (ofStr "automata", ofStr "automaton"),
   (ofStr "automatons", ofStr "automaton"), (ofStr "candelabra", ofStr "candelabrum"),
   (ofStr "corrigenda", ofStr "corrigendum"), (ofStr "desiderata", ofStr "desideratum"),
   (ofStr "dicta", ofStr "dictum"), (ofStr "effluvia", ofStr "effluvium"),
   (ofStr "errata", ofStr "erratum"), (ofStr "insignia", ofStr "insigne"),
   (ofStr "memoranda", ofStr "memorandum"), (ofStr "millennia", ofStr "millennium"),
   (ofStr "millenniums", ofStr "millennium"), (ofStr "minima", ofStr "minimum"),
   (ofStr "phyla", ofStr "phylum"), (ofStr "quanta", ofStr "quantum"),
   (ofStr "spectra", ofStr "spectrum"), (ofStr "spectrums", ofStr "spectrum"),
   (ofStr "strata", ofStr "stratum"), (ofStr "symposia", ofStr "symposium"),
   (ofStr "vaccinia", ofStr "vaccinium"), (ofStr "better", ofStr "good"),
   (ofStr "best", ofStr "good"), (ofStr "worse", ofStr "bad"),
   (ofStr "worst", ofStr "bad"), (ofStr "more", ofStr "much"),
   (ofStr "most", ofStr "much"), (ofStr "less", ofStr "little"),
   (ofStr "least", ofStr "little"), (ofStr "farther", ofStr "far"),
   (ofStr "farthest", ofStr "far"), (ofStr "further", ofStr "far"),
   (ofStr "furthest", ofStr "far"), (ofStr "older", ofStr "old"),
   (ofStr "oldest", ofStr "old"), (ofStr "elder", ofStr "old"),
   (ofStr "eldest", ofStr "old")]

/-- TString::Hash: 64-bit FNV-1a over the bytes, with wrap-around
multiplication embedded as reduction modulo 2 ^ 64. -/
def fnvHash (s : Str) : Nat :=
  s.foldl (fun h c => ((h ^^^ (c % 256)) * 1099511628211) % (2 ^ 64))
    14695981039346656037

/-- The dictionary after InitDictionary: TLemmatizer::AddWord keys each entry
by fnvHash of its lower-cased form, and TUnorderedMap::Insert overwrites the
value on an existing key, so the surviving value for a hash is the last
inserted one.  Lookup therefore scans the reversed insertion sequence. -/
def dictEntries : List (Nat × Str) :=
  initWords.map (fun p => (fnvHash (toLowerStr p.1), p.2))

/-- Hash lookup in the dictionary (last insertion wins). -/
def dictFind (h : Nat) : Option Str :=
  List.lookup h dictEntries.reverse

/-- TLemmatizer::Lemmatize: lower-case the word; on a dictionary (hash) hit
return the stored lemma, otherwise return the Porter stem of the lower-cased
form.  (GetLemma repeats the Find and returns the stored value.) -/
def Lemmatize (word : Str) : Str :=
  let lower := toLowerStr word
  match dictFind (fnvHash lower) with
  | some base => base
  | none => TPorterStemmer.Stem lower

/-- TLemmatizer::LemmatizeAll. -/
def LemmatizeAll (words : List Str) : List Str := words.map Lemmatize

end TLemmatizer

namespace TTokenizer

/-- TTokenizer::TOptions with its defaults. -/
structure TOptions where
  LowerCase : Bool := true
  SkipWhitespace : Bool := true
  SkipPunctuation : Bool := true
  SkipNumbers : Bool := true
  MinTokenLength : Nat := 1
  MaxTokenLength : Nat := 1000

/-- TToken: token text plus its start offset and consumed length. -/
structure TToken where
  Text : Str
  Position : Nat
  Length : Nat
deriving DecidableEq

/-- TTokenizer::IsAlpha. -/
def IsAlpha (c : Nat) : Bool :=
  (97 ≤ c && c ≤ 122) || (65 ≤ c && c ≤ 90)

/-- TTokenizer::IsDigit. -/
def IsDigit (c : Nat) : Bool := 48 ≤ c && c ≤ 57

/-- TTokenizer::IsWhitespace: space, tab, LF, CR. -/
def IsWhitespace (c : Nat) : Bool :=
  c == 32 || c == 9 || c == 10 || c == 13

/-- The character classes of TTokenizer::GetCharType. -/
inductive ETokenType where
  | Word
  | Number
  | Punctuation
deriving DecidableEq

/-- TTokenizer::GetCharType (anything not alpha, digit or whitespace is
punctuation; the whitespace case never reaches GetCharType in the loop). -/
def GetCharType (c : Nat) : ETokenType :=
  if IsAlpha c then .Word
  else if IsDigit c then .Number
  else .Punctuation

/-- The inner scan `while pos < len && p text[pos]` of Tokenize: returns the
first position at or after pos whose byte fails p.  Fuel dominates the loop
because every iteration advances pos. -/
def scanWhile (text : Str) (p : Nat → Bool) (fuel pos : Nat) : Nat :=
  match fuel with
  | 0 => pos
  | fuel + 1 =>
      if pos < text.length ∧ p (text.getD pos 0) then
        scanWhile text p fuel (pos + 1)
      else pos

/-- Byte extraction text.SubStr(start, n). -/
def SubStr (text : Str) (start n : Nat) : Str := (text.drop start).take n

/-- One outer iteration step plus recursion: the embedding of the
`while (pos < len)` loop of TTokenizer::Tokenize.  Each outer iteration
advances pos by at least one byte, so text.length + 1 units of fuel strictly
dominate the C++ loop. -/
def tokenizeLoop (opts : TOptions) (text : Str) (fuel pos : Nat)
    (acc : List TToken) : List TToken :=
  match fuel with
  | 0 => acc.reverse
  | fuel + 1 =>
      if pos < text.length then
        if IsWhitespace (text.getD pos 0) then
          if opts.SkipWhitespace then
            tokenizeLoop opts text fuel (pos + 1) acc
          else
            let stop := scanWhile text IsWhitespace (text.length + 1) pos
            tokenizeLoop opts text fuel stop
              (⟨SubStr text pos (stop - pos), pos, stop - pos⟩ :: acc)
        else
          let start := pos
          match GetCharType (text.getD pos 0) with
          | .Word =>
              let stop := scanWhile text
                (fun c => IsAlpha c || IsDigit c || c == 95 || c == 45)
                (text.length + 1) pos
              let raw := SubStr text start (stop - start)
              let tokenText := if opts.LowerCase then toLowerStr raw else raw
              if opts.MinTokenLength ≤ tokenText.length
                  ∧ tokenText.length ≤ opts.MaxTokenLength then
                tokenizeLoop opts text fuel stop
                  (⟨tokenText, start, stop - start⟩ :: acc)
              else tokenizeLoop opts text fuel stop acc
          | .Number =>
              let stop := scanWhile text
                (fun c => IsDigit c || c == 46 || c == 44) (text.length + 1) pos
              if opts.SkipNumbers then tokenizeLoop opts text fuel stop acc
              else
                tokenizeLoop opts text fuel stop
                  (⟨SubStr text start (stop - start), start, stop - start⟩ :: acc)
          | .Punctuation =>
              if opts.SkipPunctuation then tokenizeLoop opts text fuel (pos + 1) acc
              else
                tokenizeLoop opts text fuel (pos + 1)
                  (⟨SubStr text start 1, start, 1⟩ :: acc)
      else acc.reverse

/-- TTokenizer::Tokenize. -/
def Tokenize (opts : TOptions) (text : Str) : List TToken :=
  tokenizeLoop opts text (text.length + 1) 0 []

/-- TTokenizer::TokenizeToStrings. -/
def TokenizeToStrings (opts : TOptions) (text : Str) : List Str :=
  (Tokenize opts text).map TToken.Text

end TTokenizer

namespace TTextPipeline

/-- TTextPipeline::TOptions with its defaults (note MinTokenLength 2, unlike
the tokenizer default of 1). -/
structure TOptions where
  LowerCase : Bool := true
  UseStemming : Bool := true
  UseLemmatization : Bool := false
  SkipPunctuation : Bool := true
  SkipNumbers : Bool := true
  MinTokenLength : Nat := 2
  MaxTokenLength : Nat := 100

/-- The tokenizer options TTextPipeline::Process builds (SkipWhitespace is
left at the tokenizer default, true). -/
def tokOpts (opts : TOptions) : TTokenizer.TOptions :=
  { LowerCase := opts.LowerCase
    SkipWhitespace := true
    SkipPunctuation := opts.SkipPunctuation
    SkipNumbers := opts.SkipNumbers
    MinTokenLength := opts.MinTokenLength
    MaxTokenLength := opts.MaxTokenLength }

/-- TTextPipeline::Process: tokenize, then lemmatize all (if enabled), else
stem all (if enabled), else return the tokens. -/
def Process (opts : TOptions) (text : Str) : List Str :=
  let tokens := TTokenizer.TokenizeToStrings (tokOpts opts) text
  if opts.UseLemmatization then TLemmatizer.LemmatizeAll tokens
  else if opts.UseStemming then TPorterStemmer.StemAll tokens
  else tokens

/-- TTextPipeline::NormalizeTerm: optional lower-casing, then lemmatizer or
stemmer or nothing. -/
def NormalizeTerm (opts : TOptions) (term : Str) : Str :=
  let result := if opts.LowerCase then toLowerStr term else term
  if opts.UseLemmatization then TLemmatizer.Lemmatize result
  else if opts.UseStemming then TPorterStemmer.Stem result
  else result

/-- TTextPipeline::NormalizeTerms. -/
def NormalizeTerms (opts : TOptions) (terms : List Str) : List Str :=
  terms.map (NormalizeTerm opts)

end TTextPipeline

/-- The option record with lemmatization enabled (stemming flag left at its
default; the lemmatizer branch takes precedence in the source). -/
def lemmaOpts : TTextPipeline.TOptions := { UseLemmatization := true }

section AssocList

variable {α β : Type} [DecidableEq α]

/-- Association-list lookup: the embedding of TUnorderedMap::Find for the
maps whose iteration order is not observable.  Keys are kept distinct, so
the position of an entry is immaterial. -/
def afind (k : α) : List (α × β) → Option β
  | [] => none
  | (k', v) :: rest => if k' = k then some v else afind k rest

/-- Association-list insert with overwrite, the embedding of
TUnorderedMap::Insert: an existing key has its value replaced in place, a
new key is appended. -/
def ainsert (k : α) (v : β) : List (α × β) → List (α × β)
  | [] => [(k, v)]
  | (k', v') :: rest =>
      if k' = k then (k, v) :: rest else (k', v') :: ainsert k v rest

end AssocList

namespace TInvertedIndex

/-- The state of NIndex::TInvertedIndex. -/
structure State where
  Index : List (Str × List Nat)
  Documents : List (Nat × Str)
  TermFrequencies : List (Nat × List (Str × Nat))
  DocTermCounts : List (Nat × Nat)
  NextDocId : Nat

/-- A freshly constructed index. -/
def empty : State := ⟨[], [], [], [], 0⟩

/-- TInvertedIndex::AddTermToIndex: append docId to the posting list of term
unless the list already ends with docId; create the list if absent. -/
def AddTermToIndex (idx : List (Str × List Nat)) (term : Str) (docId : Nat) :
    List (Str × List Nat) :=
  match afind term idx with
  | some list =>
      if list = [] ∨ list.getLast? ≠ some docId then
        ainsert term (list ++ [docId]) idx
      else idx
  | none => ainsert term [docId] idx

/-- TInvertedIndex::IncrementTermFrequency. -/
def IncrementTermFrequency (tfs : List (Nat × List (Str × Nat)))
    (docId : Nat) (term : Str) : List (Nat × List (Str × Nat)) :=
  match afind docId tfs with
  | none => ainsert docId [(term, 1)] tfs
  | some termMap =>
      match afind term termMap with
      | none => ainsert docId (ainsert term 1 termMap) tfs
      | some c => ainsert docId (ainsert term (c + 1) termMap) tfs

/-- The per-term loop body of TInvertedIndex::AddDocument: index update and
frequency update for one term. -/
def addTermStep (docId : Nat)
    (p : List (Str × List Nat) × List (Nat × List (Str × Nat))) (term : Str) :
    List (Str × List Nat) × List (Nat × List (Str × Nat)) :=
  (AddTermToIndex p.1 term docId, IncrementTermFrequency p.2 docId term)

/-- TInvertedIndex::AddDocument (iterator overload, no raw content): assign
the next id, process each term in order, record the term count. -/
def AddDocument (s : State) (terms : List Str) : State :=
  let docId := s.NextDocId
  let p := terms.foldl (addTermStep docId) (s.Index, s.TermFrequencies)
  { Index := p.1
    Documents := s.Documents
    TermFrequencies := p.2
    DocTermCounts := ainsert docId terms.length s.DocTermCounts
    NextDocId := docId + 1 }

/-- TInvertedIndex::GetPostingList (empty list when the term is unknown). -/
def GetPostingList (s : State) (term : Str) : List Nat :=
  (afind term s.Index).getD []

/-- TInvertedIndex::GetDocumentFrequency. -/
def GetDocumentFrequency (s : State) (term : Str) : Nat :=
  match afind term s.Index with
  | some l => l.length
  | none => 0

/-- TInvertedIndex::GetTermFrequency (zero when either lookup misses). -/
def GetTermFrequency (s : State) (docId : Nat) (term : Str) : Nat :=
  match afind docId s.TermFrequencies with
  | none => 0
  | some termMap => (afind term termMap).getD 0

/-- TInvertedIndex::GetDocumentLength. -/
def GetDocumentLength (s : State) (docId : Nat) : Nat :=
  (afind docId s.DocTermCounts).getD 0

/-- TInvertedIndex::GetDocumentCount. -/
def GetDocumentCount (s : State) : Nat := s.NextDocId

/-- TInvertedIndex::GetTermCount. -/
def GetTermCount (s : State) : Nat := s.Index.length

/-- TInvertedIndex::GetDocument (empty string when absent). -/
def GetDocument (s : State) (docId : Nat) : Str :=
  (afind docId s.Documents).getD []

/-- TInvertedIndex::Clear: drop everything, reset the id counter. -/
def Clear (_ : State) : State := empty

/-- The sum of the stored per-document term frequencies of docId: every term
with a positive frequency for docId has exactly one entry in the per-document
map, and every other term has frequency zero, so this is the sum of
GetTermFrequency docId t over all terms t. -/
def docTermSum (s : State) (docId : Nat) : Nat :=
  (((afind docId s.TermFrequencies).getD []).map Prod.snd).sum

/-- Index states reachable by AddDocument calls on a fresh or cleared
index (Clear rebuilds the fresh state). -/
inductive Reachable : State → Prop where
  | empty : Reachable empty
  | add (s : State) (terms : List Str) :
      Reachable s → Reachable (AddDocument s terms)
  | clear (s : State) : Reachable s → Reachable (Clear s)

end TInvertedIndex

namespace NCollections

/-- THash for size_t keys (Fibonacci-style mixing), with the 64-bit
wrap-around multiplications embedded as reduction modulo 2 ^ 64. -/
def mixHash (n : Nat) : Nat :=
  let M := 2 ^ 64
  let h0 := n % M
  let h1 := h0 ^^^ (h0 >>> 33)
  let h2 := (h1 * 0xff51afd7ed558ccd) % M
  let h3 := h2 ^^^ (h2 >>> 33)
  let h4 := (h3 * 0xc4ceb9fe1a85ec53) % M
  h4 ^^^ (h4 >>> 33)

/-- TUnorderedMap::RoundUpToPowerOf2 (bit smearing on the 64-bit value). -/
def roundUpToPowerOf2 (n : Nat) : Nat :=
  if n = 0 then 1
  else
    let n0 := n - 1
    let n1 := n0 ||| (n0 >>> 1)
    let n2 := n1 ||| (n1 >>> 2)
    let n3 := n2 ||| (n2 >>> 4)
    let n4 := n3 ||| (n3 >>> 8)
    let n5 := n4 ||| (n4 >>> 16)
    let n6 := n5 ||| (n5 >>> 32)
    n6 + 1

/-- The hash set of document ids used by TTfIdf::Search (TUnorderedSet of
size_t backed by TUnorderedMap with THash mixing and Robin Hood probing).
A slot is none when Empty and some (key, probeDistance) when Occupied; the
Deleted state only arises from Erase, which the search path never calls.
The slot list length is the capacity, a power of two. -/
structure HashSet where
  Slots : List (Option (Nat × Nat))
  Size : Nat

/-- Empty slots for a given capacity. -/
def emptySlots (capacity : Nat) : List (Option (Nat × Nat)) :=
  List.replicate capacity none

/-- A fresh TUnorderedSet: DEFAULT_CAPACITY = 16 empty slots. -/
def HashSet.mkEmpty : HashSet := ⟨emptySlots 16, 0⟩

/-- TUnorderedMap::ShouldRehash: (Size + 1) / Capacity > 0.75, compared with
exact rationals (the float division is exact for the power-of-two capacities
that arise). -/
def shouldRehash (size capacity : Nat) : Bool :=
  4 * (size + 1) > 3 * capacity

/-- The `while (probeDistance <= MAX_PROBE_DISTANCE)` loop of
TUnorderedMap::InsertInternal, with Robin Hood displacement.  Returns the
updated slots and whether a new key was placed (false on overwrite of an
existing key); none when the probe limit is exceeded (the C++ then rehashes
and retries).  The fuel dominates the loop: displacement chains terminate at
an empty slot, and 4096 exceeds every chain length possible below the load
limit at the capacities arising here. -/
def insertProbe (slots : List (Option (Nat × Nat))) (mask : Nat) :
    Nat → Nat → Nat → Nat → Option (List (Option (Nat × Nat)) × Bool)
  | 0, _, _, _ => none
  | fuel + 1, idx, key, probe =>
      if probe ≤ 128 then
        match slots.getD idx none with
        | none => some (slots.set idx (some (key, probe)), true)
        | some (k, d) =>
            if k = key then some (slots, false)
            else if probe > d then
              match insertProbe (slots.set idx (some (key, probe))) mask fuel
                  ((idx + 1) &&& mask) k (d + 1) with
              | some (slots', _) => some (slots', true)
              | none => none
            else
              insertProbe slots mask fuel ((idx + 1) &&& mask) key (probe + 1)
      else none

/-- TUnorderedMap::Rehash reinsertion: insert each key of the old table (in
slot order) into the fresh table; a probe-limit failure doubles the capacity
and restarts, bounded by the attempt fuel (never reached at these sizes). -/
def rehashInsertAll : Nat → List (Option (Nat × Nat)) → List Nat →
    List (Option (Nat × Nat))
  | 0, slots, _ => slots
  | _, slots, [] => slots
  | attempts + 1, slots, key :: rest =>
      let mask := slots.length - 1
      let idx := mixHash key &&& mask
      match insertProbe slots mask 4096 idx key 0 with
      | some (slots', _) => rehashInsertAll (attempts + 1) slots' rest
      | none =>
          let bigger := emptySlots (roundUpToPowerOf2 (2 * slots.length))
          rehashInsertAll attempts
            (rehashInsertAll attempts bigger ((slots.filterMap id).map Prod.fst))
            (key :: rest)

/-- TUnorderedMap::Rehash at a requested capacity (no-op when the rounded
capacity does not grow and the load factor is still below the limit). -/
def HashSet.rehash (h : HashSet) (newCapacity : Nat) : HashSet :=
  let cap := roundUpToPowerOf2 newCapacity
  if cap ≤ h.Slots.length ∧ 4 * h.Size < 3 * h.Slots.length then h
  else ⟨rehashInsertAll 64 (emptySlots cap) ((h.Slots.filterMap id).map Prod.fst),
        h.Size⟩

/-- One insert attempt (probe, and on probe-limit failure rehash at double
capacity and retry), the recursion of TUnorderedMap::InsertInternal. -/
def insertAttempt (key : Nat) : Nat → HashSet → HashSet
  | 0, h => h
  | fuel + 1, h =>
      let mask := h.Slots.length - 1
      let idx := mixHash key &&& mask
      match insertProbe h.Slots mask 4096 idx key 0 with
      | some (slots', grew) =>
          if grew then ⟨slots', h.Size + 1⟩ else ⟨slots', h.Size⟩
      | none => insertAttempt key fuel (h.rehash (2 * h.Slots.length))

/-- TUnorderedSet::Insert via TUnorderedMap::Insert: optional growth rehash,
then the probe loop. -/
def HashSet.insert (h : HashSet) (key : Nat) : HashSet :=
  let h := if shouldRehash h.Size h.Slots.length
    then h.rehash (2 * h.Slots.length) else h
  insertAttempt key 8 h

/-- Iteration order of TUnorderedSet: ascending slot index over the occupied
slots. -/
def HashSet.toList (h : HashSet) : List Nat :=
  (h.Slots.filterMap id).map Prod.fst

end NCollections

/-- Exact rational arithmetic used to embed the double-valued TF-IDF
computations: a numerator-denominator pair of integers, without
normalization (which would not matter for any observable comparison).
Comparisons and equality are by cross multiplication, which agrees with the
rational order whenever the denominators are nonzero, and every Q built by
the ranker has a nonzero denominator. -/
structure Q where
  num : Int
  den : Int
deriving DecidableEq

namespace Q

/-- Embed a natural number. -/
def ofNat (n : Nat) : Q := ⟨n, 1⟩

/-- The rational zero. -/
def zero : Q := ofNat 0

/-- Addition. -/
def add (a b : Q) : Q := ⟨a.num * b.den + b.num * a.den, a.den * b.den⟩

/-- Subtraction. -/
def sub (a b : Q) : Q := ⟨a.num * b.den - b.num * a.den, a.den * b.den⟩

/-- Multiplication. -/
def mul (a b : Q) : Q := ⟨a.num * b.num, a.den * b.den⟩

/-- Division. -/
def div (a b : Q) : Q := ⟨a.num * b.den, a.den * b.num⟩

/-- Strict order a < b by cross multiplication (correct for nonzero
denominators). -/
def blt (a b : Q) : Bool :=
  decide (0 < (b.num * a.den - a.num * b.den) * (a.den * b.den))

/-- Semantic equality a = b by cross multiplication (correct for nonzero
denominators). -/
def beq (a b : Q) : Bool := a.num * b.den == b.num * a.den

/-- A well-formed rational: nonzero denominator.  Every score produced by
the ranker satisfies this. -/
def good (a : Q) : Prop := a.den ≠ 0

end Q

namespace TTfIdf

open TInvertedIndex

/-- The constant 2.718281828 of TTfIdf::Log. -/
def eApprox : Q := ⟨2718281828, 1000000000⟩

/-- The constant 0.367879441 of TTfIdf::Log. -/
def eInvApprox : Q := ⟨367879441, 1000000000⟩

/-- The first range-reduction loop of TTfIdf::Log: divide by e while the
argument exceeds it, counting the divisions.  Fuel 256 dominates the
iteration count for every argument the ranker can produce. -/
def logShrink : Nat → Q → Q × Q
  | 0, x => (x, Q.zero)
  | fuel + 1, x =>
      if Q.blt eApprox x then
        let p := logShrink fuel (x.div eApprox)
        (p.1, p.2.add (Q.ofNat 1))
      else (x, Q.zero)

/-- The second range-reduction loop of TTfIdf::Log: multiply by e while the
argument is below 1/e, counting (negatively). -/
def logGrow : Nat → Q → Q × Q
  | 0, x => (x, Q.zero)
  | fuel + 1, x =>
      if Q.blt x eInvApprox then
        let p := logGrow fuel (x.mul eApprox)
        (p.1, p.2.sub (Q.ofNat 1))
      else (x, Q.zero)

/-- TTfIdf::Log, the reimplemented natural logarithm of the source, embedded
over exact rationals (the double rounding of the C++ is immaterial to every
property checked here). -/
def Log (x : Q) : Q :=
  if Q.blt Q.zero x then
    let p1 := logShrink 256 x
    let p2 := logGrow 256 p1.1
    let x' := p2.1
    let y := (x'.sub (Q.ofNat 1)).div (x'.add (Q.ofNat 1))
    let y2 := y.mul y
    ((p1.2.add p2.2).add
      (((Q.ofNat 2).mul y).mul
        ((((Q.ofNat 1).add (y2.div (Q.ofNat 3))).add
            ((y2.mul y2).div (Q.ofNat 5))).add
          (((y2.mul y2).mul y2).div (Q.ofNat 7)))))
  else Q.zero

/-- TTfIdf::TSearchResult. -/
structure TSearchResult where
  DocId : Nat
  Score : Q
deriving DecidableEq

/-- TTfIdf::ComputeTF: relative frequency, zero for an empty document. -/
def ComputeTF (s : State) (docId : Nat) (term : Str) : Q :=
  let tf := GetTermFrequency s docId term
  let docLen := GetDocumentLength s docId
  if docLen = 0 then Q.zero else (Q.ofNat tf).div (Q.ofNat docLen)

/-- TTfIdf::ComputeIDF: smoothed inverse document frequency, zero when the
index is empty or the term unseen. -/
def ComputeIDF (s : State) (term : Str) : Q :=
  let N := GetDocumentCount s
  let df := GetDocumentFrequency s term
  if N = 0 ∨ df = 0 then Q.zero
  else (Log ((Q.ofNat (N + 1)).div (Q.ofNat (df + 1)))).add (Q.ofNat 1)

/-- TTfIdf::ComputeTfIdf. -/
def ComputeTfIdf (s : State) (docId : Nat) (term : Str) : Q :=
  (ComputeTF s docId term).mul (ComputeIDF s term)

/-- TTfIdf::ComputeDocumentScore: left-to-right accumulation over the query
terms (multiplicity counts). -/
def ComputeDocumentScore (s : State) (docId : Nat) (queryTerms : List Str) : Q :=
  queryTerms.foldl (fun score term => score.add (ComputeTfIdf s docId term))
    Q.zero

/-- The candidate-set construction of TTfIdf::Search: insert every document
of every query term posting list into the TUnorderedSet. -/
def candidateSet (s : State) (queryTerms : List Str) : NCollections.HashSet :=
  queryTerms.foldl
    (fun h term => (GetPostingList s term).foldl NCollections.HashSet.insert h)
    NCollections.HashSet.mkEmpty

/-- The inner loop of TTfIdf::SortResults for a fixed outer index: scan the
suffix left to right and swap whenever a strictly larger score is found.
Returns the final value at the outer position and the modified suffix. -/
def sortInner (cur : TSearchResult) :
    List TSearchResult → TSearchResult × List TSearchResult
  | [] => (cur, [])
  | x :: xs =>
      if Q.blt cur.Score x.Score then
        let p := sortInner x xs
        (p.1, cur :: p.2)
      else
        let p := sortInner cur xs
        (p.1, x :: p.2)

/-- The outer loop of TTfIdf::SortResults.  The fuel is the number of outer
iterations still to run; SortResults passes the list length, and sortInner
preserves the length of the suffix, so the loop runs to completion. -/
def sortLoop : Nat → List TSearchResult → List TSearchResult
  | 0, l => l
  | fuel + 1, l =>
      match l with
      | [] => []
      | x :: xs =>
          let p := sortInner x xs
          p.1 :: sortLoop fuel p.2

/-- TTfIdf::SortResults: selection-style swap sort by strictly descending
score (results with equal scores are never swapped). -/
def SortResults (results : List TSearchResult) : List TSearchResult :=
  sortLoop results.length results

/-- TTfIdf::Search: collect candidates, score them in candidate-set
iteration order, keep strictly positive scores, sort, truncate to topK. -/
def Search (s : State) (queryTerms : List Str) (topK : Nat) :
    List TSearchResult :=
  let cands := (candidateSet s queryTerms).toList
  let results := cands.filterMap (fun docId =>
    let score := ComputeDocumentScore s docId queryTerms
    if Q.blt Q.zero score then some ⟨docId, score⟩ else none)
  let sorted := SortResults results
  if sorted.length > topK then sorted.take topK else sorted

end TTfIdf

/-- The three-document index of the tie-order scenario: document 0 holds
term x, documents 1 and 2 each hold term t once. -/
def tieState : TInvertedIndex.State :=
  TInvertedIndex.AddDocument
    (TInvertedIndex.AddDocument
      (TInvertedIndex.AddDocument TInvertedIndex.empty [ofStr "x"])
      [ofStr "t"]) [ofStr "t"]

namespace TLzw

/-- The default TLzw::TOptions: MaxCode 4095, EndCode 4095, FirstFreeCode
256, CodeBits 12. -/
def EndCode : Nat := 4095

/-- The initial encoder dictionary: each single byte maps to its own value.
The hash map is embedded as an association list (keys stay distinct, so
lookup position is immaterial). -/
def initialDict : List (Str × Nat) := (List.range 256).map (fun i => ([i], i))

/-- The byte-consuming loop of TLzw::Compress.  State: dictionary, next free
code, current prefix w.  Emitted codes are returned in order. -/
def compressLoop (dict : List (Str × Nat)) (nextCode : Nat) (w : Str) :
    Str → List Nat
  | [] =>
      if w ≠ [] then
        match afind w dict with
        | some cw => [cw]
        | none => []
      else []
  | c :: rest =>
      if w = [] then compressLoop dict nextCode [c] rest
      else
        let wc := w ++ [c]
        match afind wc dict with
        | some _ => compressLoop dict nextCode wc rest
        | none =>
            let emitted :=
              match afind w dict with
              | some cw => [cw]
              | none => []
            if nextCode < EndCode then
              emitted ++ compressLoop (ainsert wc nextCode dict) (nextCode + 1)
                [c] rest
            else emitted ++ compressLoop dict nextCode [c] rest

/-- The code sequence TLzw::Compress produces (before bit packing): the loop
output followed by the END marker. -/
def compressCodes (input : Str) : List Nat :=
  compressLoop initialDict 256 [] input ++ [EndCode]

/-- The `while (bits >= 8)` drain of TLzw::PackCodes: emit low bytes while
at least 8 bits are buffered.  The buffer is an unsigned int in the source;
its value never exceeds 2 ^ 20 here, so Nat is exact.  The first argument is
fuel bounding the iteration count (one iteration consumes 8 bits, so a fuel
equal to the bit count always suffices). -/
def packDrain : Nat → Nat → Nat → List Nat × Nat × Nat
  | 0, buffer, bits => ([], buffer, bits)
  | fuel + 1, buffer, bits =>
      if 8 ≤ bits then
        let p := packDrain fuel (buffer >>> 8) (bits - 8)
        ((buffer &&& 255) :: p.1, p.2)
      else ([], buffer, bits)

/-- The code loop of TLzw::PackCodes: mask each code to 12 bits, append it
to the bit buffer (little-endian), drain whole bytes. -/
def packLoop : List Nat → Nat → Nat → List Nat
  | [], buffer, bits => if bits > 0 then [buffer &&& 255] else []
  | code :: rest, buffer, bits =>
      let buffer := buffer ||| ((code &&& 4095) <<< bits)
      let p := packDrain (bits + 12) buffer (bits + 12)
      p.1 ++ packLoop rest p.2.1 p.2.2

/-- TLzw::PackCodes. -/
def PackCodes (codes : List Nat) : List Nat := packLoop codes 0 0

/-- The `while (bits >= CodeBits)` drain of TLzw::UnpackCodes, fueled the
same way (one iteration consumes 12 bits). -/
def unpackDrain : Nat → Nat → Nat → List Nat × Nat × Nat
  | 0, buffer, bits => ([], buffer, bits)
  | fuel + 1, buffer, bits =>
      if 12 ≤ bits then
        let p := unpackDrain fuel (buffer >>> 12) (bits - 12)
        ((buffer &&& 4095) :: p.1, p.2)
      else ([], buffer, bits)

/-- The byte loop of TLzw::UnpackCodes. -/
def unpackLoop : List Nat → Nat → Nat → List Nat
  | [], _, _ => []
  | byte :: rest, buffer, bits =>
      let buffer := buffer ||| ((byte % 256) <<< bits)
      let p := unpackDrain (bits + 8) buffer (bits + 8)
      p.1 ++ unpackLoop rest p.2.1 p.2.2

/-- TLzw::UnpackCodes. -/
def UnpackCodes (data : List Nat) : List Nat := unpackLoop data 0 0

/-- TLzw::Compress: emit the codes and pack them 12 bits at a time. -/
def Compress (input : Str) : List Nat := PackCodes (compressCodes input)

/-- The initial decoder dictionary: the 256 single-byte strings. -/
def initialDecDict : List Str := (List.range 256).map (fun i => [i])

/-- The code-consuming loop of TLzw::Decompress.  State: indexed dictionary,
next free code, previous entry w.  Returns none on a malformed stream (the
C++ then returns the empty string, discarding prior output), otherwise the
bytes produced by the remaining codes. -/
def decompressLoop (dict : List Str) (nextCode : Nat) (w : Str) :
    List Nat → Option Str
  | [] => some []
  | k :: rest =>
      if k = EndCode then some []
      else
        let entryOpt :=
          if k < dict.length then some (dict.getD k [])
          else if k = nextCode ∧ w ≠ [] then some (w ++ [w.getD 0 0])
          else none
        match entryOpt with
        | none => none
        | some entry =>
            let grow := nextCode < EndCode ∧ w ≠ [] ∧ entry ≠ []
            let dict' := if grow then dict ++ [w ++ [entry.getD 0 0]] else dict
            let nextCode' := if grow then nextCode + 1 else nextCode
            match decompressLoop dict' nextCode' entry rest with
            | none => none
            | some out => some (entry ++ out)

/-- The body of TLzw::Decompress after unpacking: an empty code list yields
the empty string; the first code must be an initial single-byte alias and is
emitted directly; the loop handles the rest; any malformed step discards
everything. -/
def decompressCodes (codes : List Nat) : Str :=
  match codes with
  | [] => []
  | firstCode :: rest =>
      if firstCode = EndCode then []
      else if firstCode < initialDecDict.length then
        let w := initialDecDict.getD firstCode []
        match decompressLoop initialDecDict 256 w rest with
        | none => []
        | some out => w ++ out
      else []

/-- TLzw::Decompress. -/
def Decompress (data : List Nat) : Str := decompressCodes (UnpackCodes data)

end TLzw

namespace TSearchDatabase

/-- TSearchDatabase::TOptions. -/
structure TOptions where
  Pipeline : TTextPipeline.TOptions := {}
  StoreDocuments : Bool := true
  CompressDocuments : Bool := true
  StoreTitles : Bool := true

/-- The state of TSearchDatabase (the engine state is its inverted index;
the pipeline is determined by the options). -/
structure State where
  Options : TOptions
  Index : TInvertedIndex.State
  RawDocs : List (Nat × Str)
  CompressedDocs : List (Nat × List Nat)
  Titles : List (Nat × Str)

/-- A freshly constructed database with the given options. -/
def mkState (options : TOptions) : State := ⟨options, TInvertedIndex.empty, [], [], []⟩

/-- TSearchDatabase::StoreDoc: compress into CompressedDocs_ or store raw. -/
def StoreDoc (s : State) (docId : Nat) (content : Str) : State :=
  if s.Options.CompressDocuments then
    { s with CompressedDocs := ainsert docId (TLzw.Compress content) s.CompressedDocs }
  else { s with RawDocs := ainsert docId content s.RawDocs }

/-- TSearchDatabase::AddDocument(content, title): process the content
through the pipeline, append the terms to the index, optionally store the
original text and a nonempty title. -/
def AddDocument (s : State) (content title : Str) : State :=
  let terms := TTextPipeline.Process s.Options.Pipeline content
  let docId := s.Index.NextDocId
  let s := { s with Index := TInvertedIndex.AddDocument s.Index terms }
  let s := if s.Options.StoreDocuments then StoreDoc s docId content else s
  if s.Options.StoreTitles ∧ title ≠ [] then
    { s with Titles := ainsert docId title s.Titles }
  else s

/-- TSearchDatabase::GetDocument: empty string when storage is disabled or
the id is unknown; otherwise the stored raw text, or the decompressed
stored bytes when compression is on. -/
def GetDocument (s : State) (docId : Nat) : Str :=
  if ¬s.Options.StoreDocuments then []
  else if s.Options.CompressDocuments then
    match afind docId s.CompressedDocs with
    | none => []
    | some bytes => TLzw.Decompress bytes
  else
    match afind docId s.RawDocs with
    | none => []
    | some doc => doc

/-- TSearchDatabase::GetTitle: empty string when title storage is disabled
or no title is stored for the id. -/
def GetTitle (s : State) (docId : Nat) : Str :=
  if ¬s.Options.StoreTitles then []
  else
    match afind docId s.Titles with
    | none => []
    | some title => title

/-- TSearchDatabase::IsWs. -/
def IsWs (c : Nat) : Bool := c == 32 || c == 9 || c == 10 || c == 13

/-- TSearchDatabase::IsParen. -/
def IsParen (c : Nat) : Bool := c == 40 || c == 41

/-- The character loop of TSearchDatabase::TokenizeBooleanQuery: split on
whitespace, make each parenthesis its own token. -/
def tokenizeBoolLoop : Str → Str → List Str → List Str
  | [], cur, tokens => if cur ≠ [] then tokens ++ [cur] else tokens
  | c :: rest, cur, tokens =>
      if IsWs c then
        tokenizeBoolLoop rest [] (if cur ≠ [] then tokens ++ [cur] else tokens)
      else if IsParen c then
        tokenizeBoolLoop rest []
          ((if cur ≠ [] then tokens ++ [cur] else tokens) ++ [[c]])
      else tokenizeBoolLoop rest (cur ++ [c]) tokens

/-- TSearchDatabase::TokenizeBooleanQuery. -/
def TokenizeBooleanQuery (query : Str) : List Str :=
  tokenizeBoolLoop query [] []

/-- TSearchDatabase::IsOp: exactly the six spellings and, or, not, AND, OR,
NOT (matched byte for byte). -/
def IsOp (t : Str) : Bool :=
  t == ofStr "and" || t == ofStr "or" || t == ofStr "not"
    || t == ofStr "AND" || t == ofStr "OR" || t == ofStr "NOT"

/-- TSearchDatabase::Prec. -/
def Prec (t : Str) : Nat :=
  if t = ofStr "not" ∨ t = ofStr "NOT" then 3
  else if t = ofStr "and" ∨ t = ofStr "AND" then 2
  else if t = ofStr "or" ∨ t = ofStr "OR" then 1
  else 0

/-- TSearchDatabase::IsLeftAssoc. -/
def IsLeftAssoc (t : Str) : Bool :=
  !(t == ofStr "not" || t == ofStr "NOT")

/-- The operator-popping loop of ToRpn for an incoming operator token
(pop while the stack top is an operator of higher precedence, or of equal
precedence when the incoming token is left-associative).  The operator
stack keeps its top at the head. -/
def rpnPopOps (tok : Str) : List Str → List Str → List Str × List Str
  | out, [] => (out, [])
  | out, top :: ops =>
      if IsOp top then
        if Prec top > Prec tok ∨ (Prec top = Prec tok ∧ IsLeftAssoc tok) then
          rpnPopOps tok (out ++ [top]) ops
        else (out, top :: ops)
      else (out, top :: ops)

/-- The closing-parenthesis loop of ToRpn: pop to the output until an
opening parenthesis, which is discarded. -/
def rpnCloseParen : List Str → List Str → List Str × List Str
  | out, [] => (out, [])
  | out, top :: ops =>
      if top ≠ ofStr "(" then rpnCloseParen (out ++ [top]) ops
      else (out, ops)

/-- The token loop of TSearchDatabase::ToRpn (shunting yard).  Every
non-operator, non-parenthesis token is passed through
TTextPipeline::NormalizeTerm before it is emitted. -/
def rpnLoop (pOpts : TTextPipeline.TOptions) : List Str → List Str →
    List Str → List Str × List Str
  | [], out, ops => (out, ops)
  | tok :: rest, out, ops =>
      if tok = ofStr "(" then rpnLoop pOpts rest out (tok :: ops)
      else if tok = ofStr ")" then
        let p := rpnCloseParen out ops
        rpnLoop pOpts rest p.1 p.2
      else if IsOp tok then
        let p := rpnPopOps tok out ops
        rpnLoop pOpts rest p.1 (tok :: p.2)
      else rpnLoop pOpts rest (out ++ [TTextPipeline.NormalizeTerm pOpts tok]) ops

/-- The final drain of ToRpn: flush the operator stack to the output,
skipping any leftover parentheses. -/
def rpnDrain : List Str → List Str → List Str
  | out, [] => out
  | out, top :: ops =>
      if top ≠ ofStr "(" ∧ top ≠ ofStr ")" then rpnDrain (out ++ [top]) ops
      else rpnDrain out ops

/-- TSearchDatabase::ToRpn. -/
def ToRpn (pOpts : TTextPipeline.TOptions) (tokens : List Str) : List Str :=
  let p := rpnLoop pOpts tokens [] []
  rpnDrain p.1 p.2

/-- The two-pointer loop of TSearchDatabase::Intersect.  Each iteration
advances at least one pointer, so the summed length is enough fuel. -/
def intersectLoop : Nat → List Nat → List Nat → List Nat
  | 0, _, _ => []
  | _ + 1, [], _ => []
  | _ + 1, _ :: _, [] => []
  | fuel + 1, a :: as', b :: bs =>
      if a = b then a :: intersectLoop fuel as' bs
      else if a < b then intersectLoop fuel as' (b :: bs)
      else intersectLoop fuel (a :: as') bs

/-- TSearchDatabase::Intersect: two-pointer merge of sorted lists. -/
def Intersect (a b : List Nat) : List Nat :=
  intersectLoop (a.length + b.length) a b

/-- The two-pointer loop of TSearchDatabase::Union, fueled the same way
(the drain phases are the first two cases). -/
def unionLoop : Nat → List Nat → List Nat → List Nat
  | 0, _, _ => []
  | _ + 1, [], b => b
  | _ + 1, a :: as', [] => a :: as'
  | fuel + 1, a :: as', b :: bs =>
      if a = b then a :: unionLoop fuel as' bs
      else if a < b then a :: unionLoop fuel as' (b :: bs)
      else b :: unionLoop fuel (a :: as') bs

/-- TSearchDatabase::Union: two-pointer merge of sorted lists. -/
def Union (a b : List Nat) : List Nat :=
  unionLoop (a.length + b.length) a b

/-- TSearchDatabase::NotList: walk doc ids 0 .. N-1 with a pointer into the
operand list, keeping ids the pointer does not match. -/
def NotList (s : State) (a : List Nat) : List Nat :=
  ((List.range (TInvertedIndex.GetDocumentCount s.Index)).foldl
    (fun (p : Nat × List Nat) doc =>
      if p.1 < a.length ∧ a.getD p.1 0 = doc then (p.1 + 1, p.2)
      else (p.1, p.2 ++ [doc]))
    (0, [])).2

/-- The token loop of TSearchDatabase::EvalRpn over a stack of posting lists
(top at the head): operands push their posting list, not pops one list,
and / or pop two; an underflow aborts with the empty list. -/
def evalRpnLoop (s : State) : List Str → List (List Nat) → List Nat
  | [], st =>
      match st with
      | [] => []
      | top :: _ => top
  | tok :: rest, st =>
      if IsOp tok then
        if tok = ofStr "not" ∨ tok = ofStr "NOT" then
          match st with
          | [] => []
          | a :: st' => evalRpnLoop s rest (NotList s a :: st')
        else
          match st with
          | b :: a :: st' =>
              if tok = ofStr "and" ∨ tok = ofStr "AND" then
                evalRpnLoop s rest (Intersect a b :: st')
              else evalRpnLoop s rest (Union a b :: st')
          | _ => []
      else
        evalRpnLoop s rest (TInvertedIndex.GetPostingList s.Index tok :: st)

/-- TSearchDatabase::EvalRpn. -/
def EvalRpn (s : State) (rpn : List Str) : List Nat :=
  evalRpnLoop s rpn []

/-- TSearchDatabase::BooleanQuery: tokenize, convert to RPN, evaluate. -/
def BooleanQuery (s : State) (query : Str) : List Nat :=
  EvalRpn s (ToRpn s.Options.Pipeline (TokenizeBooleanQuery query))

/-- TSearchDatabase::BooleanQuery is a const method: it computes a result
from the state without modifying it.  The pair form makes that observable
in the embedding. -/
def BooleanQueryStep (s : State) (query : Str) : List Nat × State :=
  (BooleanQuery s query, s)

/-- TSearchDatabase::Search delegates to the ranker over the pipeline-processed
query. -/
def Search (s : State) (query : Str) (topK : Nat) : List TTfIdf.TSearchResult :=
  TTfIdf.Search s.Index (TTextPipeline.Process s.Options.Pipeline query) topK

/-- TLzw::Decompress is likewise const; the pair form exposes that no state
is modified by a decompression call. -/
def DecompressStep (s : State) (data : List Nat) : Str × State :=
  (TLzw.Decompress data, s)

end TSearchDatabase

/-- The two-document database of the mixed-case operator scenario. -/
def catDogDb : TSearchDatabase.State :=
  TSearchDatabase.AddDocument
    (TSearchDatabase.AddDocument (TSearchDatabase.mkState {}) (ofStr "cat") [])
    (ofStr "dog") []

namespace TPorterStemmer

/-- Whether one Step-4 suffix both matches the word and passes its guard
(the special ion guard or the plain MeasureM(stem) > 1 guard).  Used to
characterize the Step4 scan. -/
def step4Fires (s suffix : Str) : Bool :=
  EndsWith s suffix &&
    (let stem := RemoveSuffix s suffix.length
     if suffix = ofStr "ion" then decide (step4IonGuard stem)
     else decide (MeasureM stem > 1))

end TPorterStemmer

namespace TSearchDatabase

/-- Whether evaluating an RPN token sequence underflows the operand stack,
tracked on the stack size alone (operands push one list, not needs one,
and / or need two and leave one). -/
def rpnUnderflows (stackSize : Nat) : List Str → Bool
  | [] => false
  | tok :: rest =>
      if IsOp tok then
        if tok = ofStr "not" ∨ tok = ofStr "NOT" then
          if stackSize = 0 then true else rpnUnderflows stackSize rest
        else if stackSize < 2 then true
        else rpnUnderflows (stackSize - 1) rest
      else rpnUnderflows (stackSize + 1) rest

end TSearchDatabase

namespace TLzw

/-- Whether the decompression loop hits the malformed-stream branch (a code
that is neither END, nor in the dictionary, nor the KwKwK next code). -/
def loopAborts (dict : List Str) (nextCode : Nat) (w : Str) :
    List Nat → Bool
  | [] => false
  | k :: rest =>
      if k = EndCode then false
      else
        let entryOpt :=
          if k < dict.length then some (dict.getD k [])
          else if k = nextCode ∧ w ≠ [] then some (w ++ [w.getD 0 0])
          else none
        match entryOpt with
        | none => true
        | some entry =>
            let grow := nextCode < EndCode ∧ w ≠ [] ∧ entry ≠ []
            let dict' := if grow then dict ++ [w ++ [entry.getD 0 0]] else dict
            let nextCode' := if grow then nextCode + 1 else nextCode
            loopAborts dict' nextCode' entry rest

/-- Whether TLzw::Decompress takes a malformed-stream exit: a first code
that is not an initial alias, or a later impossible code. -/
def decompressAborts (data : List Nat) : Bool :=
  match UnpackCodes data with
  | [] => false
  | firstCode :: rest =>
      if firstCode = EndCode then false
      else if firstCode < initialDecDict.length then
        loopAborts initialDecDict 256 (initialDecDict.getD firstCode []) rest
      else true

end TLzw

namespace TInvertedIndex

/-- The stored frequency of term t for document d, on the raw frequency
table (agrees definitionally with GetTermFrequency). -/
def tfOf (tfs : List (Nat × List (Str × Nat))) (docId : Nat) (term : Str) : Nat :=
  match afind docId tfs with
  | none => 0
  | some termMap => (afind term termMap).getD 0

/-- The sum of the stored frequencies of one document, on the raw table. -/
def sumOf (tfs : List (Nat × List (Str × Nat))) (docId : Nat) : Nat :=
  (((afind docId tfs).getD []).map Prod.snd).sum

/-- Mid-ingest invariant of the posting-list table while document d is
being processed: distinct keys, and each posting list nonempty, strictly
increasing and bounded by d (d itself may already appear at the end). -/
def MidIndexInv (d : Nat) (idx : List (Str × List Nat)) : Prop :=
  (idx.map Prod.fst).Nodup
  ∧ ∀ t l, afind t idx = some l →
      l ≠ [] ∧ List.Chain' (· < ·) l ∧ ∀ e ∈ l, e ≤ d

/-- Mid-ingest invariant of the frequency table while document d is being
processed: distinct keys bounded by d, inner maps with distinct keys and
positive counts. -/
def MidTfInv (d : Nat) (tfs : List (Nat × List (Str × Nat))) : Prop :=
  (tfs.map Prod.fst).Nodup
  ∧ ∀ d' m, afind d' tfs = some m →
      d' ≤ d ∧ (m.map Prod.fst).Nodup ∧ ∀ t c, afind t m = some c → 0 < c

/-- The frequency-membership correspondence: a document has a positive
stored frequency for a term exactly when it is on the posting list. -/
def MidLink (idx : List (Str × List Nat))
    (tfs : List (Nat × List (Str × Nat))) : Prop :=
  ∀ d' t, 0 < tfOf tfs d' t ↔ d' ∈ (afind t idx).getD []

/-- The structural well-formedness of a TInvertedIndex state that every
reachable state enjoys: distinct map keys, nonempty strictly increasing
posting lists over assigned ids, positive stored frequencies, and the
claimed correspondences between frequencies, posting lists and lengths. -/
def WellFormed (s : State) : Prop :=
  (s.Index.map Prod.fst).Nodup
  ∧ (s.TermFrequencies.map Prod.fst).Nodup
  ∧ (s.DocTermCounts.map Prod.fst).Nodup
  ∧ (∀ t l, afind t s.Index = some l →
      l ≠ [] ∧ List.Chain' (· < ·) l ∧ ∀ e ∈ l, e < s.NextDocId)
  ∧ (∀ d m, afind d s.TermFrequencies = some m →
      d < s.NextDocId ∧ (m.map Prod.fst).Nodup ∧ ∀ t c, afind t m = some c → 0 < c)
  ∧ (∀ d c, afind d s.DocTermCounts = some c → d < s.NextDocId)
  ∧ MidLink s.Index s.TermFrequencies
  ∧ (∀ d, sumOf s.TermFrequencies d = GetDocumentLength s d)

end TInvertedIndex

namespace TLzw

/-- Position of a string in a phrase list (first occurrence). -/
def posOf (w : Str) : List Str → Option Nat
  | [] => none
  | x :: rest => if x = w then some 0 else (posOf w rest).map (· + 1)

/-- The encoder dictionary represents a phrase table: looking up any string
yields exactly its position in the table. -/
def DictRepr (dictE : List (Str × Nat)) (phrases : List Str) : Prop :=
  ∀ w : Str, afind w dictE = posOf w phrases

end TLzw

namespace TLzw

/-- The simulation invariant between the compression loop state and the
decompression loop state at a code boundary: the encoder dictionary
represents the phrase table, the decoder holds either the whole phrase
table (frozen regime) or all but the pending entry, whose final byte is
the head of the phrase the encoder is currently building. -/
def SimInv (dictE : List (Str × Nat)) (nextCode : Nat) (w : Str)
    (phrases dictD : List Str) (nextD : Nat) (wD : Str) : Prop :=
  DictRepr dictE phrases
  ∧ phrases.length = nextCode
  ∧ nextCode ≤ EndCode
  ∧ (∃ extra, phrases = initialDecDict ++ extra)
  ∧ (∀ p ∈ phrases, p ≠ [])
  ∧ w ≠ []
  ∧ w ∈ phrases
  ∧ wD ≠ []
  ∧ ((dictD = phrases ∧ nextD = nextCode ∧ nextCode = EndCode)
     ∨ (phrases = dictD ++ [wD ++ [w.getD 0 0]] ∧ nextD = dictD.length
        ∧ nextCode = nextD + 1))

end TLzw

section AssocLemmas

variable {α β : Type} [DecidableEq α]

/-- Looking up the freshly inserted key. -/
theorem afind_ainsert_self (k : α) (v : β) (m : List (α × β)) :
    afind k (ainsert k v m) = some v := by
  induction m with
  | nil => simp [ainsert, afind]
  | cons p rest ih =>
      obtain ⟨k', v'⟩ := p
      by_cases h : k' = k
      · subst h; simp [ainsert, afind]
      · simp [ainsert, afind, h, ih]

/-- Looking up another key after an insert. -/
theorem afind_ainsert_ne {k' k : α} (h : k' ≠ k) (v : β) (m : List (α × β)) :
    afind k' (ainsert k v m) = afind k' m := by
  have hk : ¬ k = k' := fun hk => h hk.symm
  induction m with
  | nil => simp [ainsert, afind, hk]
  | cons p rest ih =>
      obtain ⟨k'', v''⟩ := p
      by_cases h2 : k'' = k
      · subst h2
        simp [ainsert, afind, hk]
      · simp [ainsert, afind, h2, ih]

/-- A failed lookup is exactly key absence. -/
theorem afind_eq_none_iff (k : α) (m : List (α × β)) :
    afind k m = none ↔ k ∉ m.map Prod.fst := by
  induction m with
  | nil => simp [afind]
  | cons p rest ih =>
      obtain ⟨k', v'⟩ := p
      by_cases h : k' = k
      · subst h; simp [afind]
      · have hk : ¬ k = k' := fun hk => h hk.symm
        simp only [afind, h, if_false, List.map_cons, ih]
        constructor
        · intro hnone hmem
          rcases List.mem_cons.mp hmem with heq | hmem'
          · exact hk heq
          · exact hnone hmem'
        · intro hnot hmem
          exact hnot (List.mem_cons_of_mem _ hmem)

/-- Inserting an existing key keeps the key sequence. -/
theorem keys_ainsert_mem {k : α} {m : List (α × β)} (v : β)
    (h : afind k m ≠ none) :
    (ainsert k v m).map Prod.fst = m.map Prod.fst := by
  induction m with
  | nil => simp [afind] at h
  | cons p rest ih =>
      obtain ⟨k', v'⟩ := p
      by_cases h2 : k' = k
      · subst h2; simp [ainsert]
      · simp only [afind, h2, if_false] at h
        simp [ainsert, h2, ih h]

/-- Inserting a new key appends it to the key sequence. -/
theorem keys_ainsert_new {k : α} {m : List (α × β)} (v : β)
    (h : afind k m = none) :
    (ainsert k v m).map Prod.fst = m.map Prod.fst ++ [k] := by
  induction m with
  | nil => simp [ainsert]
  | cons p rest ih =>
      obtain ⟨k', v'⟩ := p
      by_cases h2 : k' = k
      · subst h2; simp [afind] at h
      · simp only [afind, h2, if_false] at h
        simp [ainsert, h2, ih h]

/-- Insertion preserves distinctness of keys. -/
theorem nodup_keys_ainsert (k : α) (v : β) (m : List (α × β))
    (h : (m.map Prod.fst).Nodup) : ((ainsert k v m).map Prod.fst).Nodup := by
  by_cases hf : afind k m = none
  · rw [keys_ainsert_new v hf]
    refine List.nodup_append.mpr ⟨h, by simp, ?_⟩
    intro x hx hx'
    rcases List.mem_singleton.mp hx' with rfl
    exact (afind_eq_none_iff x m).mp hf hx
  · rw [keys_ainsert_mem v hf]; exact h

/-- Value-sum effect of inserting a new key (Nat values). -/
theorem sum_ainsert_new {k : α} {m : List (α × Nat)} (v : Nat)
    (h : afind k m = none) :
    ((ainsert k v m).map Prod.snd).sum = (m.map Prod.snd).sum + v := by
  induction m with
  | nil => simp [ainsert]
  | cons p rest ih =>
      obtain ⟨k', v'⟩ := p
      by_cases h2 : k' = k
      · subst h2; simp [afind] at h
      · simp only [afind, h2, if_false] at h
        simp [ainsert, h2, ih h]
        omega

/-- Value-sum effect of overwriting an existing key (Nat values). -/
theorem sum_ainsert_some {k : α} {m : List (α × Nat)} {c : Nat} (v : Nat)
    (h : afind k m = some c) :
    ((ainsert k v m).map Prod.snd).sum + c = (m.map Prod.snd).sum + v := by
  induction m with
  | nil => simp [afind] at h
  | cons p rest ih =>
      obtain ⟨k', v'⟩ := p
      by_cases h2 : k' = k
      · subst h2
        simp [afind] at h
        subst h
        simp [ainsert]
        omega
      · simp only [afind, h2, if_false] at h
        simp [ainsert, h2]
        have := ih h
        omega

end AssocLemmas

/-- In a strictly increasing list every element is at most the last one. -/
theorem chain_lt_le_getLast :
    ∀ (l : List Nat) (x : Nat), List.Chain' (· < ·) l → l.getLast? = some x →
      ∀ e ∈ l, e ≤ x := by
  intro l
  induction l with
  | nil => intro x _ h _ he; cases he
  | cons a rest ih =>
      intro x hchain hlast e he
      match rest with
      | [] =>
          have hax : a = x := by simpa using hlast
          rcases List.mem_singleton.mp he with rfl
          omega
      | b :: rest' =>
          have h1 : a < b := (List.chain'_cons.mp hchain).1
          have h2 : List.Chain' (· < ·) (b :: rest') := (List.chain'_cons.mp hchain).2
          have hlast' : (b :: rest').getLast? = some x := by
            simpa [List.getLast?_cons_cons] using hlast
          have hb : b ≤ x := ih x h2 hlast' b (by simp)
          rcases List.mem_cons.mp he with rfl | he'
          · omega
          · exact ih x h2 hlast' e he'

/-- The last element of a list is a member. -/
theorem getLast?_mem : ∀ (l : List Nat) (x : Nat), l.getLast? = some x → x ∈ l := by
  intro l
  induction l with
  | nil => intro x h; cases h
  | cons a rest ih =>
      intro x h
      match rest with
      | [] => simp_all
      | b :: rest' =>
          have h' : (b :: rest').getLast? = some x := by
            simpa [List.getLast?_cons_cons] using h
          exact List.mem_cons_of_mem a (ih x h')

namespace TInvertedIndex

/-- AddTermToIndex on an unknown term inserts a singleton posting list. -/
theorem addTerm_eq_new {idx : List (Str × List Nat)} {term : Str} {d : Nat}
    (h : afind term idx = none) :
    AddTermToIndex idx term d = ainsert term [d] idx := by
  unfold AddTermToIndex
  rw [h]

/-- AddTermToIndex on a known term whose list does not already end in the
document appends the document. -/
theorem addTerm_eq_app {idx : List (Str × List Nat)} {term : Str} {d : Nat}
    {l0 : List Nat} (h : afind term idx = some l0)
    (hc : l0 = [] ∨ l0.getLast? ≠ some d) :
    AddTermToIndex idx term d = ainsert term (l0 ++ [d]) idx := by
  unfold AddTermToIndex
  rw [h]
  show (if l0 = [] ∨ l0.getLast? ≠ some d then ainsert term (l0 ++ [d]) idx
        else idx) = ainsert term (l0 ++ [d]) idx
  exact if_pos hc

/-- AddTermToIndex is the identity when the list already ends in the
document. -/
theorem addTerm_eq_same {idx : List (Str × List Nat)} {term : Str} {d : Nat}
    {l0 : List Nat} (h : afind term idx = some l0)
    (hc : ¬(l0 = [] ∨ l0.getLast? ≠ some d)) :
    AddTermToIndex idx term d = idx := by
  unfold AddTermToIndex
  rw [h]
  show (if l0 = [] ∨ l0.getLast? ≠ some d then ainsert term (l0 ++ [d]) idx
        else idx) = idx
  exact if_neg hc

/-- IncrementTermFrequency on a document with no stored map yet. -/
theorem incr_eq_nodoc {tfs : List (Nat × List (Str × Nat))} {d : Nat}
    {term : Str} (h : afind d tfs = none) :
    IncrementTermFrequency tfs d term = ainsert d [(term, 1)] tfs := by
  unfold IncrementTermFrequency
  rw [h]

/-- IncrementTermFrequency on a stored map without the term. -/
theorem incr_eq_noterm {tfs : List (Nat × List (Str × Nat))} {d : Nat}
    {term : Str} {termMap : List (Str × Nat)} (h : afind d tfs = some termMap)
    (h2 : afind term termMap = none) :
    IncrementTermFrequency tfs d term
      = ainsert d (ainsert term 1 termMap) tfs := by
  unfold IncrementTermFrequency
  rw [h]
  show (match afind term termMap with
        | none => ainsert d (ainsert term 1 termMap) tfs
        | some c => ainsert d (ainsert term (c + 1) termMap) tfs)
      = ainsert d (ainsert term 1 termMap) tfs
  rw [h2]

/-- IncrementTermFrequency on a stored map that has the term. -/
theorem incr_eq_hit {tfs : List (Nat × List (Str × Nat))} {d : Nat}
    {term : Str} {termMap : List (Str × Nat)} {c : Nat}
    (h : afind d tfs = some termMap) (h2 : afind term termMap = some c) :
    IncrementTermFrequency tfs d term
      = ainsert d (ainsert term (c + 1) termMap) tfs := by
  unfold IncrementTermFrequency
  rw [h]
  show (match afind term termMap with
        | none => ainsert d (ainsert term 1 termMap) tfs
        | some c => ainsert d (ainsert term (c + 1) termMap) tfs)
      = ainsert d (ainsert term (c + 1) termMap) tfs
  rw [h2]

/-- The stored frequency as nested lookups with defaults. -/
theorem tfOf_def (tfs : List (Nat × List (Str × Nat))) (d : Nat) (t : Str) :
    tfOf tfs d t = (afind t ((afind d tfs).getD [])).getD 0 := by
  unfold tfOf
  cases afind d tfs with
  | none => rfl
  | some m => rfl

/-- AddTermToIndex of the current document preserves the mid-ingest
posting-table invariant. -/
theorem addTerm_index_inv {d : Nat} {idx : List (Str × List Nat)} (term : Str)
    (h : MidIndexInv d idx) : MidIndexInv d (AddTermToIndex idx term d) := by
  obtain ⟨hnd, hl⟩ := h
  cases hfind : afind term idx with
  | none =>
      rw [addTerm_eq_new hfind]
      refine ⟨nodup_keys_ainsert _ _ _ hnd, ?_⟩
      intro t l hf
      by_cases ht : t = term
      · subst ht
        rw [afind_ainsert_self] at hf
        cases hf
        exact ⟨by simp, by simp, by simp⟩
      · rw [afind_ainsert_ne ht] at hf
        exact hl t l hf
  | some l0 =>
      by_cases hc : l0 = [] ∨ l0.getLast? ≠ some d
      · rw [addTerm_eq_app hfind hc]
        obtain ⟨hne, hch, hbd⟩ := hl term l0 hfind
        have hlast : l0.getLast? ≠ some d := by
          rcases hc with hc | hc
          · exact absurd hc hne
          · exact hc
        obtain ⟨x, hx⟩ := Option.isSome_iff_exists.mp (List.getLast?_isSome.mpr hne)
        have hxd : x ≠ d := fun he => hlast (he ▸ hx)
        have hxlt : x < d := lt_of_le_of_ne (hbd x (getLast?_mem l0 x hx)) hxd
        refine ⟨nodup_keys_ainsert _ _ _ hnd, ?_⟩
        intro t l hf
        by_cases ht : t = term
        · subst ht
          rw [afind_ainsert_self] at hf
          cases hf
          refine ⟨by simp, ?_, ?_⟩
          · rw [List.chain'_append]
            refine ⟨hch, List.chain'_singleton d, ?_⟩
            intro a ha b hb
            rw [hx] at ha
            have ha2 : some x = some a := ha
            have hb2 : some d = some b := hb
            injection ha2 with ha3
            injection hb2 with hb3
            omega
          · intro e he
            rcases List.mem_append.mp he with he | he
            · exact hbd e he
            · rcases List.mem_singleton.mp he with rfl
              exact le_refl _
        · rw [afind_ainsert_ne ht] at hf
          exact hl t l hf
      · rw [addTerm_eq_same hfind hc]
        exact ⟨hnd, hl⟩

/-- Membership in a posting list after AddTermToIndex of the current
document: exactly the old members plus the current document on the touched
term. -/
theorem addTerm_mem_iff {d : Nat} {idx : List (Str × List Nat)} (term : Str)
    (h : MidIndexInv d idx) (d' : Nat) (t' : Str) :
    d' ∈ (afind t' (AddTermToIndex idx term d)).getD [] ↔
      d' ∈ (afind t' idx).getD [] ∨ (d' = d ∧ t' = term) := by
  by_cases ht : t' = term
  case neg =>
    have hsame : afind t' (AddTermToIndex idx term d) = afind t' idx := by
      cases hfind : afind term idx with
      | none => rw [addTerm_eq_new hfind]; exact afind_ainsert_ne ht _ _
      | some l0 =>
          by_cases hc : l0 = [] ∨ l0.getLast? ≠ some d
          · rw [addTerm_eq_app hfind hc]; exact afind_ainsert_ne ht _ _
          · rw [addTerm_eq_same hfind hc]
    rw [hsame]
    simp [ht]
  case pos =>
    subst ht
    cases hfind : afind t' idx with
    | none =>
        rw [addTerm_eq_new hfind, afind_ainsert_self]
        simp [hfind]
    | some l0 =>
        by_cases hc : l0 = [] ∨ l0.getLast? ≠ some d
        · rw [addTerm_eq_app hfind hc, afind_ainsert_self]
          simp [hfind, List.mem_append]
        · rw [addTerm_eq_same hfind hc]
          push_neg at hc
          obtain ⟨hne, hlast⟩ := hc
          have hd : d ∈ l0 := getLast?_mem l0 d hlast
          simp [hfind]
          intro hd'
          subst hd'
          exact hd

/-- IncrementTermFrequency of the current document preserves the
mid-ingest frequency-table invariant. -/
theorem incr_tf_inv {d : Nat} {tfs : List (Nat × List (Str × Nat))}
    (term : Str) (h : MidTfInv d tfs) :
    MidTfInv d (IncrementTermFrequency tfs d term) := by
  obtain ⟨hnd, hm⟩ := h
  cases hfind : afind d tfs with
  | none =>
      rw [incr_eq_nodoc hfind]
      refine ⟨nodup_keys_ainsert _ _ _ hnd, ?_⟩
      intro d' m hf
      by_cases hd : d' = d
      · subst hd
        rw [afind_ainsert_self] at hf
        cases hf
        refine ⟨le_refl _, by simp, ?_⟩
        intro t c hc
        simp only [afind] at hc
        by_cases htt : term = t
        · rw [if_pos htt] at hc
          injection hc with h1
          omega
        · rw [if_neg htt] at hc
          cases hc
      · rw [afind_ainsert_ne hd] at hf
        exact hm d' m hf
  | some termMap =>
      obtain ⟨hdd, hmn, hpos⟩ := hm d termMap hfind
      cases hfind2 : afind term termMap with
      | none =>
          rw [incr_eq_noterm hfind hfind2]
          refine ⟨nodup_keys_ainsert _ _ _ hnd, ?_⟩
          intro d' m hf
          by_cases hd : d' = d
          · subst hd
            rw [afind_ainsert_self] at hf
            cases hf
            refine ⟨le_refl _, nodup_keys_ainsert _ _ _ hmn, ?_⟩
            intro t c hc
            by_cases htt : t = term
            · subst htt
              rw [afind_ainsert_self] at hc
              injection hc with h1
              omega
            · rw [afind_ainsert_ne htt] at hc
              exact hpos t c hc
          · rw [afind_ainsert_ne hd] at hf
            exact hm d' m hf
      | some c0 =>
          rw [incr_eq_hit hfind hfind2]
          refine ⟨nodup_keys_ainsert _ _ _ hnd, ?_⟩
          intro d' m hf
          by_cases hd : d' = d
          · subst hd
            rw [afind_ainsert_self] at hf
            cases hf
            refine ⟨le_refl _, nodup_keys_ainsert _ _ _ hmn, ?_⟩
            intro t c hc
            by_cases htt : t = term
            · subst htt
              rw [afind_ainsert_self] at hc
              injection hc with h1
              omega
            · rw [afind_ainsert_ne htt] at hc
              exact hpos t c hc
          · rw [afind_ainsert_ne hd] at hf
            exact hm d' m hf

/-- IncrementTermFrequency adds exactly one to the stored frequency sum of
the touched document. -/
theorem incr_sum_self (tfs : List (Nat × List (Str × Nat))) (d : Nat)
    (term : Str) :
    sumOf (IncrementTermFrequency tfs d term) d = sumOf tfs d + 1 := by
  unfold sumOf
  cases hfind : afind d tfs with
  | none =>
      rw [incr_eq_nodoc hfind, afind_ainsert_self]
      simp
  | some termMap =>
      cases hfind2 : afind term termMap with
      | none =>
          rw [incr_eq_noterm hfind hfind2, afind_ainsert_self]
          simp only [Option.getD_some]
          have := sum_ainsert_new 1 hfind2
          omega
      | some c =>
          rw [incr_eq_hit hfind hfind2, afind_ainsert_self]
          simp only [Option.getD_some]
          have := sum_ainsert_some (c + 1) hfind2
          omega

/-- IncrementTermFrequency leaves every other document entry unchanged. -/
theorem incr_other {d' d : Nat} (h : d' ≠ d)
    (tfs : List (Nat × List (Str × Nat))) (term : Str) :
    afind d' (IncrementTermFrequency tfs d term) = afind d' tfs := by
  cases hfind : afind d tfs with
  | none => rw [incr_eq_nodoc hfind]; exact afind_ainsert_ne h _ _
  | some termMap =>
      cases hfind2 : afind term termMap with
      | none => rw [incr_eq_noterm hfind hfind2]; exact afind_ainsert_ne h _ _
      | some c => rw [incr_eq_hit hfind hfind2]; exact afind_ainsert_ne h _ _

/-- Positivity of a stored frequency after IncrementTermFrequency: exactly
the old positive entries plus the touched document-term pair. -/
theorem incr_tf_pos_iff (tfs : List (Nat × List (Str × Nat))) (d : Nat)
    (term : Str) (d' : Nat) (t' : Str) :
    0 < tfOf (IncrementTermFrequency tfs d term) d' t' ↔
      0 < tfOf tfs d' t' ∨ (d' = d ∧ t' = term) := by
  rw [tfOf_def, tfOf_def]
  by_cases hd : d' = d
  case neg =>
    rw [incr_other hd]
    simp [hd]
  case pos =>
    subst hd
    cases hfind : afind d' tfs with
    | none =>
        rw [incr_eq_nodoc hfind, afind_ainsert_self]
        simp only [hfind, Option.getD_some, Option.getD_none]
        simp only [afind]
        by_cases htt : term = t'
        · rw [if_pos htt]
          simp [htt]
        · rw [if_neg htt]
          simp
          exact fun he => htt he.symm
    | some termMap =>
        cases hfind2 : afind term termMap with
        | none =>
            rw [incr_eq_noterm hfind hfind2, afind_ainsert_self]
            simp only [hfind, Option.getD_some]
            by_cases htt : t' = term
            · subst htt
              rw [afind_ainsert_self]
              simp [hfind2]
            · rw [afind_ainsert_ne htt]
              simp [htt]
        | some c =>
            rw [incr_eq_hit hfind hfind2, afind_ainsert_self]
            simp only [hfind, Option.getD_some]
            by_cases htt : t' = term
            · subst htt
              rw [afind_ainsert_self]
              simp [hfind2]
            · rw [afind_ainsert_ne htt]
              simp [htt]

/-- One per-term step of AddDocument preserves the frequency-membership
correspondence. -/
theorem addTermStep_link {d : Nat} {idx : List (Str × List Nat)}
    {tfs : List (Nat × List (Str × Nat))} (term : Str)
    (hi : MidIndexInv d idx) (hlink : MidLink idx tfs) :
    MidLink (AddTermToIndex idx term d) (IncrementTermFrequency tfs d term) := by
  intro d' t'
  rw [incr_tf_pos_iff, addTerm_mem_iff term hi d' t', hlink d' t']

/-- The per-term fold of AddDocument preserves all mid-ingest invariants,
adds the number of processed terms to the frequency sum of the current
document, and leaves every other document entry of the frequency table
unchanged. -/
theorem addFold_inv (d : Nat) (terms : List Str) :
    ∀ (idx : List (Str × List Nat)) (tfs : List (Nat × List (Str × Nat))),
      MidIndexInv d idx → MidTfInv d tfs → MidLink idx tfs →
      MidIndexInv d (terms.foldl (addTermStep d) (idx, tfs)).1
      ∧ MidTfInv d (terms.foldl (addTermStep d) (idx, tfs)).2
      ∧ MidLink (terms.foldl (addTermStep d) (idx, tfs)).1
          (terms.foldl (addTermStep d) (idx, tfs)).2
      ∧ sumOf (terms.foldl (addTermStep d) (idx, tfs)).2 d
          = sumOf tfs d + terms.length
      ∧ ∀ d', d' ≠ d →
          afind d' (terms.foldl (addTermStep d) (idx, tfs)).2 = afind d' tfs := by
  induction terms with
  | nil =>
      intro idx tfs hi ht hl
      exact ⟨hi, ht, hl, by simp, fun _ _ => rfl⟩
  | cons t rest ih =>
      intro idx tfs hi ht hl
      have hstep : (t :: rest).foldl (addTermStep d) (idx, tfs)
          = rest.foldl (addTermStep d)
              (AddTermToIndex idx t d, IncrementTermFrequency tfs d t) := rfl
      rw [hstep]
      obtain ⟨f1, f2, f3, f4, f5⟩ :=
        ih (AddTermToIndex idx t d) (IncrementTermFrequency tfs d t)
          (addTerm_index_inv t hi) (incr_tf_inv t ht) (addTermStep_link t hi hl)
      refine ⟨f1, f2, f3, ?_, ?_⟩
      · rw [f4, incr_sum_self]
        simp only [List.length_cons]
        omega
      · intro d' hd'
        rw [f5 d' hd', incr_other hd']

/-- The fresh index satisfies every structural invariant. -/
theorem wf_empty : WellFormed empty := by
  unfold WellFormed
  refine ⟨List.nodup_nil, List.nodup_nil, List.nodup_nil, ?_, ?_, ?_, ?_, ?_⟩
  · intro t l hf
    simp [empty, afind] at hf
  · intro d m hf
    simp [empty, afind] at hf
  · intro d c hf
    simp [empty, afind] at hf
  · intro d' t'
    rw [tfOf_def]
    simp [empty, afind]
  · intro d
    rfl

/-- Every reachable index state is well formed. -/
theorem reachable_wf : ∀ s : State, Reachable s → WellFormed s := by
  intro s h
  induction h with
  | empty => exact wf_empty
  | clear s hs ih => exact wf_empty
  | add s terms hs ih =>
      obtain ⟨h1, h2, h3, h4, h5, h6, h7, h8⟩ := ih
      have hmi : MidIndexInv s.NextDocId s.Index := by
        refine ⟨h1, ?_⟩
        intro t l hf
        obtain ⟨ha, hb, hc⟩ := h4 t l hf
        exact ⟨ha, hb, fun e he => le_of_lt (hc e he)⟩
      have hmt : MidTfInv s.NextDocId s.TermFrequencies := by
        refine ⟨h2, ?_⟩
        intro d' m hf
        obtain ⟨ha, hb, hc⟩ := h5 d' m hf
        exact ⟨le_of_lt ha, hb, hc⟩
      have hnone : afind s.NextDocId s.TermFrequencies = none := by
        cases hf : afind s.NextDocId s.TermFrequencies with
        | none => rfl
        | some m => exact absurd (h5 _ m hf).1 (lt_irrefl _)
      obtain ⟨f1, f2, f3, f4, f5⟩ :=
        addFold_inv s.NextDocId terms s.Index s.TermFrequencies hmi hmt h7
      have eIdx : (AddDocument s terms).Index
          = (terms.foldl (addTermStep s.NextDocId)
              (s.Index, s.TermFrequencies)).1 := rfl
      have eTf : (AddDocument s terms).TermFrequencies
          = (terms.foldl (addTermStep s.NextDocId)
              (s.Index, s.TermFrequencies)).2 := rfl
      have eDc : (AddDocument s terms).DocTermCounts
          = ainsert s.NextDocId terms.length s.DocTermCounts := rfl
      have eNd : (AddDocument s terms).NextDocId = s.NextDocId + 1 := rfl
      unfold WellFormed
      refine ⟨?_, ?_, ?_, ?_, ?_, ?_, ?_, ?_⟩
      · rw [eIdx]; exact f1.1
      · rw [eTf]; exact f2.1
      · rw [eDc]; exact nodup_keys_ainsert _ _ _ h3
      · intro t l hf
        rw [eIdx] at hf
        obtain ⟨ha, hb, hc⟩ := f1.2 t l hf
        refine ⟨ha, hb, ?_⟩
        intro e he
        rw [eNd]
        exact Nat.lt_succ_of_le (hc e he)
      · intro d' m hf
        rw [eTf] at hf
        obtain ⟨ha, hb, hc⟩ := f2.2 d' m hf
        rw [eNd]
        exact ⟨Nat.lt_succ_of_le ha, hb, hc⟩
      · intro d' c hf
        rw [eDc] at hf
        rw [eNd]
        by_cases hd : d' = s.NextDocId
        · omega
        · rw [afind_ainsert_ne hd] at hf
          exact Nat.lt_succ_of_lt (h6 d' c hf)
      · rw [eIdx, eTf]
        exact f3
      · intro d'
        rw [eTf]
        unfold GetDocumentLength
        rw [eDc]
        by_cases hd : d' = s.NextDocId
        · subst hd
          rw [afind_ainsert_self]
          have h0 : sumOf s.TermFrequencies s.NextDocId = 0 := by
            unfold sumOf
            rw [hnone]
            rfl
          rw [f4, h0]
          simp
        · unfold sumOf
          rw [f5 d' hd, afind_ainsert_ne hd]
          have h8' := h8 d'
          unfold sumOf GetDocumentLength at h8'
          exact h8'

end TInvertedIndex

/-- Claim C2: in every index state reachable by AddDocument calls on a
fresh or cleared TInvertedIndex, every posting list is strictly
monotonically increasing, a document has a positive stored term frequency
exactly when it is on the posting list of the term, and the per-document
term-frequency sum equals the stored document length. -/
theorem C2_index_invariants (s : TInvertedIndex.State)
    (h : TInvertedIndex.Reachable s) :
    (∀ t, List.Chain' (· < ·) (TInvertedIndex.GetPostingList s t))
    ∧ (∀ d t, 0 < TInvertedIndex.GetTermFrequency s d t ↔
        d ∈ TInvertedIndex.GetPostingList s t)
    ∧ ∀ d, TInvertedIndex.docTermSum s d
        = TInvertedIndex.GetDocumentLength s d := by
  obtain ⟨h1, h2, h3, h4, h5, h6, h7, h8⟩ := TInvertedIndex.reachable_wf s h
  refine ⟨?_, ?_, ?_⟩
  · intro t
    unfold TInvertedIndex.GetPostingList
    cases hf : afind t s.Index with
    | none => exact List.chain'_nil
    | some l => exact (h4 t l hf).2.1
  · intro d t
    exact h7 d t
  · intro d
    exact h8 d

/-- Claim C2 witness: the invariants evaluated on the concrete reachable
state built by adding the documents "a b" and "b b". -/
theorem C2_witness :
    (List.Chain' (· < ·)
      (TInvertedIndex.GetPostingList
        (TInvertedIndex.AddDocument
          (TInvertedIndex.AddDocument TInvertedIndex.empty
            [ofStr "a", ofStr "b"]) [ofStr "b", ofStr "b"]) (ofStr "b")))
    ∧ (0 < TInvertedIndex.GetTermFrequency
        (TInvertedIndex.AddDocument
          (TInvertedIndex.AddDocument TInvertedIndex.empty
            [ofStr "a", ofStr "b"]) [ofStr "b", ofStr "b"]) 1 (ofStr "b") ↔
        1 ∈ TInvertedIndex.GetPostingList
          (TInvertedIndex.AddDocument
            (TInvertedIndex.AddDocument TInvertedIndex.empty
              [ofStr "a", ofStr "b"]) [ofStr "b", ofStr "b"]) (ofStr "b"))
    ∧ TInvertedIndex.docTermSum
        (TInvertedIndex.AddDocument
          (TInvertedIndex.AddDocument TInvertedIndex.empty
            [ofStr "a", ofStr "b"]) [ofStr "b", ofStr "b"]) 1
      = TInvertedIndex.GetDocumentLength
          (TInvertedIndex.AddDocument
            (TInvertedIndex.AddDocument TInvertedIndex.empty
              [ofStr "a", ofStr "b"]) [ofStr "b", ofStr "b"]) 1 := by
  have h := C2_index_invariants
    (TInvertedIndex.AddDocument
      (TInvertedIndex.AddDocument TInvertedIndex.empty
        [ofStr "a", ofStr "b"]) [ofStr "b", ofStr "b"])
    (TInvertedIndex.Reachable.add _ [ofStr "b", ofStr "b"]
      (TInvertedIndex.Reachable.add _ [ofStr "a", ofStr "b"]
        TInvertedIndex.Reachable.empty))
  exact ⟨h.1 _, h.2.1 _ _, h.2.2 _⟩

/-- Lower-casing a byte twice equals lower-casing it once. -/
theorem toLowerChar_idem (c : Nat) : toLowerChar (toLowerChar c) = toLowerChar c := by
  unfold toLowerChar
  split_ifs <;> omega

/-- Lower-casing a byte string is idempotent. -/
theorem toLowerStr_idem (s : Str) : toLowerStr (toLowerStr s) = toLowerStr s := by
  induction s with
  | nil => rfl
  | cons c rest ih => simp [toLowerStr, toLowerChar_idem]

/-- Claim C5 (amended): NormalizeTerm is idempotent when both lemmatization
and stemming are disabled (it is then optional lower-casing only). -/
theorem C5_normalize_idempotent_plain (opts : TTextPipeline.TOptions) (t : Str)
    (hL : opts.UseLemmatization = false) (hS : opts.UseStemming = false) :
    TTextPipeline.NormalizeTerm opts (TTextPipeline.NormalizeTerm opts t)
      = TTextPipeline.NormalizeTerm opts t := by
  cases hC : opts.LowerCase <;>
    simp [TTextPipeline.NormalizeTerm, hL, hS, hC, toLowerStr_idem]

theorem C5_witness :
    TTextPipeline.NormalizeTerm { UseStemming := false }
        (TTextPipeline.NormalizeTerm { UseStemming := false } (ofStr "AbC"))
      = TTextPipeline.NormalizeTerm { UseStemming := false } (ofStr "AbC") :=
  C5_normalize_idempotent_plain { UseStemming := false } (ofStr "AbC") rfl rfl

/-- Claim C5 (counterexample). -/
theorem C5_counterexample :
    TTextPipeline.NormalizeTerm lemmaOpts (ofStr "analyses") = ofStr "analysis"
    ∧ TTextPipeline.NormalizeTerm lemmaOpts
        (TTextPipeline.NormalizeTerm lemmaOpts (ofStr "analyses")) = ofStr "analysi"
    ∧ TTextPipeline.NormalizeTerm lemmaOpts
        (TTextPipeline.NormalizeTerm lemmaOpts (ofStr "analyses"))
      ≠ TTextPipeline.NormalizeTerm lemmaOpts (ofStr "analyses")
    ∧ TTextPipeline.NormalizeTerm {} (ofStr "beee") = ofStr "bee"
    ∧ TTextPipeline.NormalizeTerm {}
        (TTextPipeline.NormalizeTerm {} (ofStr "beee")) = ofStr "be"
    ∧ TTextPipeline.NormalizeTerm {}
        (TTextPipeline.NormalizeTerm {} (ofStr "beee"))
      ≠ TTextPipeline.NormalizeTerm {} (ofStr "beee") := by
  refine ⟨by decide, by decide, by decide, by decide, by decide, by decide⟩

/-- Claim C4 (counterexample). -/
theorem C4_counterexample :
    TSearchDatabase.IsOp (ofStr "And") = false
    ∧ TSearchDatabase.BooleanQuery catDogDb (ofStr "cat And cat") = []
    ∧ TSearchDatabase.BooleanQuery catDogDb (ofStr "cat AND cat") = [0] := by
  refine ⟨by decide, by decide, by decide⟩

/-- Claim C4 (amended). -/
theorem C4_operator_spellings :
    TSearchDatabase.IsOp (ofStr "and") = true
    ∧ TSearchDatabase.IsOp (ofStr "or") = true
    ∧ TSearchDatabase.IsOp (ofStr "not") = true
    ∧ TSearchDatabase.IsOp (ofStr "AND") = true
    ∧ TSearchDatabase.IsOp (ofStr "OR") = true
    ∧ TSearchDatabase.IsOp (ofStr "NOT") = true
    ∧ TSearchDatabase.IsOp (ofStr "And") = false
    ∧ TSearchDatabase.IsOp (ofStr "oR") = false
    ∧ TSearchDatabase.IsOp (ofStr "Not") = false
    ∧ TSearchDatabase.BooleanQuery catDogDb (ofStr "cat AND cat") = [0]
    ∧ TSearchDatabase.BooleanQuery catDogDb (ofStr "cat And cat") = []
    ∧ TSearchDatabase.BooleanQuery catDogDb (ofStr "cat OR dog") = [0, 1]
    ∧ TSearchDatabase.BooleanQuery catDogDb (ofStr "cat oR dog") = [] := by
  refine ⟨by decide, by decide, by decide, by decide, by decide, by decide,
    by decide, by decide, by decide, by decide, by decide, by decide, by decide⟩

/-- Claim C6 (counterexample). -/
theorem C6_counterexample :
    TPorterStemmer.step4Suffixes.find?
        (fun suf => TPorterStemmer.EndsWith (ofStr "batement") suf)
      = some (ofStr "ement")
    ∧ TPorterStemmer.MeasureM (TPorterStemmer.RemoveSuffix (ofStr "batement") 5) = 1
    ∧ TPorterStemmer.Step4 (ofStr "batement") = ofStr "bate"
    ∧ TPorterStemmer.Step4 (ofStr "batement") ≠ ofStr "batement" := by
  refine ⟨by decide, by decide, by decide, by decide⟩

/-- Claim C6 (amended): the Step4 scan applies the first suffix that both
matches and passes its guard; guard failure does not stop the scan. -/
theorem C6_step4_first_passing_suffix :
    (∀ (sufs : List Str) (s : Str),
       TPorterStemmer.step4Scan sufs s
         = ((sufs.find? (TPorterStemmer.step4Fires s)).map
             (fun suf => TPorterStemmer.RemoveSuffix s suf.length)).getD s)
    ∧ TPorterStemmer.Step4 (ofStr "element") = ofStr "element"
    ∧ TPorterStemmer.Step4 (ofStr "batement") = ofStr "bate" := by
  refine ⟨?_, by decide, by decide⟩
  intro sufs s
  induction sufs with
  | nil => rfl
  | cons suffix rest ih =>
      by_cases hE : TPorterStemmer.EndsWith s suffix
      · by_cases hIon : suffix = ofStr "ion"
        · subst hIon
          by_cases hG : TPorterStemmer.step4IonGuard
              (TPorterStemmer.RemoveSuffix s (ofStr "ion").length)
          · simp [TPorterStemmer.step4Scan, TPorterStemmer.step4Fires, hE, hG]
          · simp [TPorterStemmer.step4Scan, TPorterStemmer.step4Fires, hE, hG, ih]
        · by_cases hG : TPorterStemmer.MeasureM (TPorterStemmer.RemoveSuffix s suffix.length) > 1
          · simp [TPorterStemmer.step4Scan, TPorterStemmer.step4Fires, hE, hIon, hG]
          · simp [TPorterStemmer.step4Scan, TPorterStemmer.step4Fires, hE, hIon, hG, ih]
      · simp [TPorterStemmer.step4Scan, TPorterStemmer.step4Fires, hE, ih]

/-- Claim C9. -/
theorem C9_absent_yields_empty :
    (∀ (s : TSearchDatabase.State) (docId : Nat),
       (s.Options.StoreDocuments = false → TSearchDatabase.GetDocument s docId = [])
       ∧ (afind docId s.CompressedDocs = none → afind docId s.RawDocs = none →
            TSearchDatabase.GetDocument s docId = [])
       ∧ (s.Options.StoreTitles = false → TSearchDatabase.GetTitle s docId = [])
       ∧ (afind docId s.Titles = none → TSearchDatabase.GetTitle s docId = []))
    ∧ TSearchDatabase.GetDocument
        (TSearchDatabase.AddDocument (TSearchDatabase.mkState {}) [] []) 0 = []
    ∧ TSearchDatabase.GetDocument (TSearchDatabase.mkState {}) 0 = []
    ∧ TSearchDatabase.GetTitle
        (TSearchDatabase.AddDocument (TSearchDatabase.mkState {}) (ofStr "cat") []) 0 = []
    ∧ TSearchDatabase.GetTitle (TSearchDatabase.mkState {}) 0 = [] := by
  refine ⟨fun s docId => ⟨?_, ?_, ?_, ?_⟩, by decide, by decide, by decide, by decide⟩
  · intro h; simp [TSearchDatabase.GetDocument, h]
  · intro h1 h2
    by_cases hS : s.Options.StoreDocuments <;>
      by_cases hC : s.Options.CompressDocuments <;>
        simp [TSearchDatabase.GetDocument, hS, hC, h1, h2]
  · intro h; simp [TSearchDatabase.GetTitle, h]
  · intro h; by_cases hT : s.Options.StoreTitles <;>
      simp [TSearchDatabase.GetTitle, hT, h]

theorem C9_witness :
    (TSearchDatabase.GetDocument
        (TSearchDatabase.mkState { StoreDocuments := false }) 3 = [])
    ∧ TSearchDatabase.GetTitle (TSearchDatabase.mkState {}) 7 = [] :=
  ⟨(C9_absent_yields_empty.1 (TSearchDatabase.mkState { StoreDocuments := false }) 3).1
      rfl,
   (C9_absent_yields_empty.1 (TSearchDatabase.mkState {}) 7).2.2.2 rfl⟩

/-- The RPN evaluation loop keeps only the top of the final stack: over a
token list free of operator spellings it pushes one posting list per token
and returns the last one pushed. -/
theorem evalRpnLoop_operands (s : TSearchDatabase.State) :
    ∀ (rpn : List Str) (st : List (List Nat)) (t : Str),
      (∀ tok ∈ rpn, TSearchDatabase.IsOp tok = false) →
      rpn.getLast? = some t →
      TSearchDatabase.evalRpnLoop s rpn st
        = TInvertedIndex.GetPostingList s.Index t := by
  intro rpn
  induction rpn with
  | nil => intro st t _ h; cases h
  | cons a rest ih =>
      intro st t hops hlast
      have ha : TSearchDatabase.IsOp a = false := hops a (List.mem_cons_self a rest)
      match rest with
      | [] =>
          have : a = t := by simpa using hlast
          subst this
          simp [TSearchDatabase.evalRpnLoop, ha]
      | b :: rest' =>
          have hlast' : (b :: rest').getLast? = some t := by
            simpa [List.getLast?_cons_cons] using hlast
          have hops' : ∀ tok ∈ b :: rest', TSearchDatabase.IsOp tok = false :=
            fun tok htok => hops tok (List.mem_cons_of_mem a htok)
          simp only [TSearchDatabase.evalRpnLoop, ha, Bool.false_eq_true, if_false]
          exact ih _ t hops' hlast'

/-- Claim C10. -/
theorem C10_last_operand_wins :
    (∀ (s : TSearchDatabase.State) (rpn : List Str) (t : Str),
       (∀ tok ∈ rpn, TSearchDatabase.IsOp tok = false) →
       rpn.getLast? = some t →
       TSearchDatabase.EvalRpn s rpn = TInvertedIndex.GetPostingList s.Index t)
    ∧ TSearchDatabase.BooleanQuery catDogDb (ofStr "cat dog") = [1]
    ∧ TInvertedIndex.GetPostingList catDogDb.Index (ofStr "dog") = [1]
    ∧ TInvertedIndex.GetPostingList catDogDb.Index (ofStr "cat") = [0] := by
  refine ⟨fun s rpn t hops hlast => evalRpnLoop_operands s rpn [] t hops hlast,
    by decide, by decide, by decide⟩

theorem C10_witness :
    TSearchDatabase.EvalRpn catDogDb [ofStr "cat", ofStr "dog"]
      = TInvertedIndex.GetPostingList catDogDb.Index (ofStr "dog") :=
  C10_last_operand_wins.1 catDogDb [ofStr "cat", ofStr "dog"] (ofStr "dog")
    (by decide) (by decide)

set_option maxRecDepth 10000

/-- Underflow of the RPN stack, tracked by size, forces the evaluation loop
to return the empty posting list. -/
theorem evalRpnLoop_underflow (s : TSearchDatabase.State) :
    ∀ (rpn : List Str) (st : List (List Nat)),
      TSearchDatabase.rpnUnderflows st.length rpn = true →
      TSearchDatabase.evalRpnLoop s rpn st = [] := by
  intro rpn
  induction rpn with
  | nil => intro st h; simp [TSearchDatabase.rpnUnderflows] at h
  | cons tok rest ih =>
      intro st h
      by_cases hop : TSearchDatabase.IsOp tok
      · by_cases hnot : tok = ofStr "not" ∨ tok = ofStr "NOT"
        · match st with
          | [] =>
              simp [TSearchDatabase.evalRpnLoop, hop, hnot]
          | a :: st' =>
              have h' : TSearchDatabase.rpnUnderflows (a :: st').length rest = true := by
                simp [TSearchDatabase.rpnUnderflows, hop, hnot] at h
                simpa using h
              simp only [TSearchDatabase.evalRpnLoop, hop, if_true, hnot]
              simpa using ih (TSearchDatabase.NotList s a :: st') (by simpa using h')
        · match st with
          | [] => simp [TSearchDatabase.evalRpnLoop, hop, hnot]
          | [a] => simp [TSearchDatabase.evalRpnLoop, hop, hnot]
          | b :: a :: st' =>
              simp only [TSearchDatabase.rpnUnderflows, hop, if_true, hnot,
                if_false] at h
              simp only [List.length_cons] at h
              have h' : TSearchDatabase.rpnUnderflows (st'.length + 1) rest = true := by
                rcases (by simpa using h :
                    st'.length + 1 + 1 < 2
                      ∨ TSearchDatabase.rpnUnderflows (st'.length + 1) rest = true)
                  with hlt | hok
                · omega
                · exact hok
              by_cases hand : tok = ofStr "and" ∨ tok = ofStr "AND"
              · simp only [TSearchDatabase.evalRpnLoop, hop, if_true, hnot, hand]
                simpa using ih (TSearchDatabase.Intersect a b :: st') (by simpa using h')
              · simp only [TSearchDatabase.evalRpnLoop, hop, if_true, hnot, hand]
                simpa [hand] using ih (TSearchDatabase.Union a b :: st') (by simpa using h')
      · have h' : TSearchDatabase.rpnUnderflows (st.length + 1) rest = true := by
          simpa [TSearchDatabase.rpnUnderflows, hop] using h
        simp only [TSearchDatabase.evalRpnLoop, hop, Bool.false_eq_true, if_false]
        exact ih (TInvertedIndex.GetPostingList s.Index tok :: st) (by simpa using h')

/-- An abort inside the decompression loop makes it return none. -/
theorem decompressLoop_aborts :
    ∀ (codes : List Nat) (dict : List Str) (nextCode : Nat) (w : Str),
      TLzw.loopAborts dict nextCode w codes = true →
      TLzw.decompressLoop dict nextCode w codes = none := by
  intro codes
  induction codes with
  | nil => intro dict nextCode w h; simp [TLzw.loopAborts] at h
  | cons k rest ih =>
      intro dict nextCode w h
      by_cases hEnd : k = TLzw.EndCode
      · simp [TLzw.loopAborts, hEnd] at h
      · simp only [TLzw.loopAborts, hEnd, if_false] at h
        simp only [TLzw.decompressLoop, hEnd, if_false]
        cases hEo : (if k < dict.length then some (dict.getD k [])
            else if k = nextCode ∧ w ≠ [] then some (w ++ [w.getD 0 0]) else none) with
        | none => simp only [hEo] at h ⊢
        | some entry =>
            simp only [hEo] at h ⊢
            rw [ih _ _ _ h]

/-- The initial decoder dictionary holds the 256 single-byte strings. -/
theorem initialDecDict_length : TLzw.initialDecDict.length = 256 := by
  simp [TLzw.initialDecDict]

/-- Claim C7: malformed inputs yield empty results and leave the state
untouched. -/
theorem C7_malformed_empty_no_mutation :
    (∀ (s : TSearchDatabase.State) (query : Str),
       TSearchDatabase.rpnUnderflows 0
           (TSearchDatabase.ToRpn s.Options.Pipeline
             (TSearchDatabase.TokenizeBooleanQuery query)) = true →
       TSearchDatabase.BooleanQueryStep s query = ([], s))
    ∧ (∀ (s : TSearchDatabase.State) (data : List Nat) (k : Nat) (rest : List Nat),
         TLzw.UnpackCodes data = k :: rest → k ≠ TLzw.EndCode → ¬(k < 256) →
         TSearchDatabase.DecompressStep s data = ([], s))
    ∧ (∀ (s : TSearchDatabase.State) (data : List Nat),
         TLzw.decompressAborts data = true →
         TSearchDatabase.DecompressStep s data = ([], s)) := by
  refine ⟨?_, ?_, ?_⟩
  · intro s query h
    have : TSearchDatabase.EvalRpn s
        (TSearchDatabase.ToRpn s.Options.Pipeline
          (TSearchDatabase.TokenizeBooleanQuery query)) = [] := by
      have := evalRpnLoop_underflow s
        (TSearchDatabase.ToRpn s.Options.Pipeline
          (TSearchDatabase.TokenizeBooleanQuery query)) []
      exact this (by simpa using h)
    simp [TSearchDatabase.BooleanQueryStep, TSearchDatabase.BooleanQuery, this]
  · intro s data k rest hun hEnd hlt
    have h256 : ¬ k < TLzw.initialDecDict.length := by
      rw [initialDecDict_length]; exact hlt
    simp [TSearchDatabase.DecompressStep, TLzw.Decompress, TLzw.decompressCodes,
      hun, hEnd, h256]
  · intro s data h
    simp only [TLzw.decompressAborts] at h
    simp only [TSearchDatabase.DecompressStep, TLzw.Decompress,
      TLzw.decompressCodes]
    match hun : TLzw.UnpackCodes data with
    | [] => simp [hun] at h
    | firstCode :: rest =>
        rw [hun] at h
        by_cases hEnd : firstCode = TLzw.EndCode
        · simp [hEnd] at h
        · by_cases hIn : firstCode < TLzw.initialDecDict.length
          · simp only [hEnd, if_false, hIn, if_true] at h ⊢
            rw [decompressLoop_aborts _ _ _ _ h]
          · simp [hEnd, hIn]

theorem C7_witness :
    TSearchDatabase.BooleanQueryStep (TSearchDatabase.mkState {}) (ofStr "cat or")
        = ([], TSearchDatabase.mkState {})
    ∧ TSearchDatabase.DecompressStep (TSearchDatabase.mkState {}) [44, 1]
        = ([], TSearchDatabase.mkState {})
    ∧ TSearchDatabase.DecompressStep (TSearchDatabase.mkState {})
        [97, 44, 1, 255, 15] = ([], TSearchDatabase.mkState {}) :=
  ⟨C7_malformed_empty_no_mutation.1 (TSearchDatabase.mkState {}) (ofStr "cat or")
      (by decide),
   C7_malformed_empty_no_mutation.2.1 (TSearchDatabase.mkState {}) [44, 1] 300 []
      (by decide) (by decide) (by decide),
   C7_malformed_empty_no_mutation.2.2 (TSearchDatabase.mkState {}) [97, 44, 1, 255, 15]
      (by decide)⟩

/-- Claim C8: the lemmatizer lower-cases, returns the stored lemma on a
dictionary hit and the Porter stem of the lower-cased word on a miss; the
three spec values hold under the lemmatizing pipeline. -/
theorem C8_lemmatizer_contract :
    (∀ w : Str, TLemmatizer.Lemmatize w = TLemmatizer.Lemmatize (toLowerStr w))
    ∧ (∀ (w : Str) (base : Str),
         TLemmatizer.dictFind (TLemmatizer.fnvHash (toLowerStr w)) = some base →
         TLemmatizer.Lemmatize w = base)
    ∧ (∀ w : Str,
         TLemmatizer.dictFind (TLemmatizer.fnvHash (toLowerStr w)) = none →
         TLemmatizer.Lemmatize w = TPorterStemmer.Stem (toLowerStr w))
    ∧ TTextPipeline.NormalizeTerm lemmaOpts (ofStr "children") = ofStr "child"
    ∧ TTextPipeline.NormalizeTerm lemmaOpts (ofStr "were") = ofStr "be"
    ∧ TTextPipeline.NormalizeTerm lemmaOpts (ofStr "analyses") = ofStr "analysis" := by
  refine ⟨?_, ?_, ?_, by decide, by decide, by decide⟩
  · intro w
    simp [TLemmatizer.Lemmatize, toLowerStr_idem]
  · intro w base h
    simp [TLemmatizer.Lemmatize, h]
  · intro w h
    simp [TLemmatizer.Lemmatize, h]

theorem C8_witness :
    TLemmatizer.Lemmatize (ofStr "CHILDREN") = TLemmatizer.Lemmatize (ofStr "children")
    ∧ TLemmatizer.Lemmatize (ofStr "children") = ofStr "child"
    ∧ TLemmatizer.Lemmatize (ofStr "analysis")
        = TPorterStemmer.Stem (toLowerStr (ofStr "analysis")) := by
  refine ⟨?_, ?_, ?_⟩
  · have := C8_lemmatizer_contract.1 (ofStr "CHILDREN")
    simpa using this
  · exact C8_lemmatizer_contract.2.1 (ofStr "children") (ofStr "child") (by decide)
  · exact C8_lemmatizer_contract.2.2.1 (ofStr "analysis") (by decide)

/-- The cross-multiplied comparison is irreflexive. -/
theorem Q.blt_irrefl (a : Q) : Q.blt a a = false := by
  simp [Q.blt]

/-- The cross-multiplied comparison is asymmetric. -/
theorem Q.blt_asymm {a b : Q} (h : Q.blt a b = true) : Q.blt b a = false := by
  simp only [Q.blt, decide_eq_true_eq] at h
  simp only [Q.blt, decide_eq_false_iff_not, not_lt]
  have key : (a.num * b.den - b.num * a.den) * (b.den * a.den)
      = -((b.num * a.den - a.num * b.den) * (a.den * b.den)) := by ring
  omega

/-- Transitivity of the non-strict comparison (c at most b, b at most a)
when the middle denominator is nonzero. -/
theorem Q.blt_false_trans {a b c : Q} (hb : b.den ≠ 0)
    (h1 : Q.blt a b = false) (h2 : Q.blt b c = false) : Q.blt a c = false := by
  simp only [Q.blt, decide_eq_false_iff_not, not_lt] at h1 h2 ⊢
  have key : (c.num * a.den - a.num * c.den) * (a.den * c.den) * b.den ^ 2
      = (c.num * b.den - b.num * c.den) * (b.den * c.den) * a.den ^ 2
        + (b.num * a.den - a.num * b.den) * (a.den * b.den) * c.den ^ 2 := by ring
  have t1 : (c.num * b.den - b.num * c.den) * (b.den * c.den) * a.den ^ 2 ≤ 0 :=
    mul_nonpos_of_nonpos_of_nonneg h2 (sq_nonneg _)
  have t2 : (b.num * a.den - a.num * b.den) * (a.den * b.den) * c.den ^ 2 ≤ 0 :=
    mul_nonpos_of_nonpos_of_nonneg h1 (sq_nonneg _)
  have hsum : (c.num * a.den - a.num * c.den) * (a.den * c.den) * b.den ^ 2 ≤ 0 := by
    rw [key]; exact add_nonpos t1 t2
  have hbsq : (0 : ℤ) < b.den ^ 2 := by
    have := sq_nonneg b.den
    have hne : b.den ^ 2 ≠ 0 := pow_ne_zero 2 hb
    omega
  by_contra hpos
  push_neg at hpos
  exact absurd (mul_pos hpos hbsq) (not_lt.mpr hsum)

/-- sortInner returns an element of its inputs, a suffix drawn from its
inputs, and preserves the suffix length. -/
theorem sortInner_mem :
    ∀ (l : List TTfIdf.TSearchResult) (cur : TTfIdf.TSearchResult),
      (TTfIdf.sortInner cur l).1 ∈ cur :: l
      ∧ (∀ y ∈ (TTfIdf.sortInner cur l).2, y ∈ cur :: l)
      ∧ (TTfIdf.sortInner cur l).2.length = l.length := by
  intro l
  induction l with
  | nil => intro cur; simp [TTfIdf.sortInner]
  | cons x xs ih =>
      intro cur
      by_cases h : Q.blt cur.Score x.Score
      · have ihx := ih x
        simp only [TTfIdf.sortInner, h, if_true]
        refine ⟨?_, ?_, ?_⟩
        · rcases List.mem_cons.mp ihx.1 with hm | hm
          · simp [hm]
          · simp [List.mem_cons_of_mem _ (List.mem_cons_of_mem _ hm)]
        · intro y hy
          rcases List.mem_cons.mp hy with hy | hy
          · simp [hy]
          · rcases List.mem_cons.mp (ihx.2.1 y hy) with hz | hz
            · simp [hz]
            · simp [List.mem_cons_of_mem _ (List.mem_cons_of_mem _ hz)]
        · simpa using ihx.2.2
      · have ihc := ih cur
        simp only [TTfIdf.sortInner, h, if_false]
        refine ⟨?_, ?_, ?_⟩
        · rcases List.mem_cons.mp ihc.1 with hm | hm
          · simp [hm]
          · simp [List.mem_cons_of_mem _ (List.mem_cons_of_mem _ hm)]
        · intro y hy
          rcases List.mem_cons.mp hy with hy | hy
          · simp [hy]
          · rcases List.mem_cons.mp (ihc.2.1 y hy) with hz | hz
            · simp [hz]
            · simp [List.mem_cons_of_mem _ (List.mem_cons_of_mem _ hz)]
        · simpa using ihc.2.2

/-- sortInner picks a maximal element: nothing in the original input (the
initial element or the returned suffix) is strictly greater, given nonzero
denominators throughout. -/
theorem sortInner_max :
    ∀ (l : List TTfIdf.TSearchResult) (cur : TTfIdf.TSearchResult),
      (∀ x ∈ cur :: l, x.Score.den ≠ 0) →
      Q.blt (TTfIdf.sortInner cur l).1.Score cur.Score = false
      ∧ (∀ y ∈ (TTfIdf.sortInner cur l).2,
          Q.blt (TTfIdf.sortInner cur l).1.Score y.Score = false) := by
  intro l
  induction l with
  | nil => intro cur _; simp [TTfIdf.sortInner, Q.blt_irrefl]
  | cons x xs ih =>
      intro cur hgood
      have hx : x.Score.den ≠ 0 := hgood x (by simp)
      have hcur : cur.Score.den ≠ 0 := hgood cur (by simp)
      by_cases h : Q.blt cur.Score x.Score
      · have ihx := ih x (fun z hz => hgood z (by
          rcases List.mem_cons.mp hz with hz | hz
          · simp [hz]
          · simp [List.mem_cons_of_mem _ (List.mem_cons_of_mem _ hz)]))
        simp only [TTfIdf.sortInner, h, if_true]
        have hmx : Q.blt (TTfIdf.sortInner x xs).1.Score x.Score = false := ihx.1
        have hxc : Q.blt x.Score cur.Score = false := Q.blt_asymm h
        refine ⟨Q.blt_false_trans hx hmx hxc, ?_⟩
        intro y hy
        rcases List.mem_cons.mp hy with hy | hy
        · rw [hy]; exact Q.blt_false_trans hx hmx hxc
        · exact ihx.2 y hy
      · have ihc := ih cur (fun z hz => hgood z (by
          rcases List.mem_cons.mp hz with hz | hz
          · simp [hz]
          · simp [List.mem_cons_of_mem _ (List.mem_cons_of_mem _ hz)]))
        simp only [TTfIdf.sortInner, h, if_false]
        have hxcur : Q.blt cur.Score x.Score = false := by
          simpa using h
        have hmc : Q.blt (TTfIdf.sortInner cur xs).1.Score cur.Score = false := ihc.1
        refine ⟨hmc, ?_⟩
        intro y hy
        rcases List.mem_cons.mp hy with hy | hy
        · rw [hy]; exact Q.blt_false_trans hcur hmc hxcur
        · exact ihc.2 y hy

/-- Elements of the sort output come from the input. -/
theorem sortLoop_mem :
    ∀ (fuel : Nat) (l : List TTfIdf.TSearchResult) (y : TTfIdf.TSearchResult),
      y ∈ TTfIdf.sortLoop fuel l → y ∈ l := by
  intro fuel
  induction fuel with
  | zero => intro l y hy; simpa [TTfIdf.sortLoop] using hy
  | succ fuel ih =>
      intro l y hy
      match l with
      | [] => simp [TTfIdf.sortLoop] at hy
      | x :: xs =>
          simp only [TTfIdf.sortLoop] at hy
          rcases List.mem_cons.mp hy with hy | hy
          · rw [hy]; exact (sortInner_mem xs x).1
          · exact (sortInner_mem xs x).2.1 y (ih _ y hy)

/-- The swap sort produces a non-increasing sequence of scores (pairwise,
under nonzero denominators). -/
theorem sortLoop_sorted :
    ∀ (fuel : Nat) (l : List TTfIdf.TSearchResult),
      (∀ x ∈ l, x.Score.den ≠ 0) → l.length ≤ fuel →
      List.Pairwise (fun x y => Q.blt x.Score y.Score = false)
        (TTfIdf.sortLoop fuel l) := by
  intro fuel
  induction fuel with
  | zero =>
      intro l _ hlen
      have : l = [] := List.length_eq_zero.mp (Nat.le_zero.mp hlen)
      simp [this, TTfIdf.sortLoop]
  | succ fuel ih =>
      intro l hgood hlen
      match l with
      | [] => simp [TTfIdf.sortLoop]
      | x :: xs =>
          simp only [TTfIdf.sortLoop]
          have hmem := sortInner_mem xs x
          have hmax := sortInner_max xs x hgood
          have hgood' : ∀ z ∈ (TTfIdf.sortInner x xs).2, z.Score.den ≠ 0 :=
            fun z hz => hgood z (hmem.2.1 z hz)
          have hlen' : (TTfIdf.sortInner x xs).2.length ≤ fuel := by
            rw [hmem.2.2]
            simpa using hlen
          refine List.pairwise_cons.mpr ⟨?_, ih _ hgood' hlen'⟩
          intro y hy
          exact hmax.2 y (sortLoop_mem fuel _ y hy)

/-- Taking a prefix preserves pairwise sortedness. -/
theorem pairwise_take {α : Type} (R : α → α → Prop) (n : Nat) (l : List α)
    (h : List.Pairwise R l) : List.Pairwise R (l.take n) :=
  h.sublist (List.take_sublist n l)

/-- The first range-reduction loop preserves positivity of the argument and
keeps a nonzero counter denominator. -/
theorem logShrink_pos :
    ∀ (fuel : Nat) (x : Q), 0 < x.num → 0 < x.den →
      0 < (TTfIdf.logShrink fuel x).1.num ∧ 0 < (TTfIdf.logShrink fuel x).1.den
      ∧ (TTfIdf.logShrink fuel x).2.den ≠ 0 := by
  intro fuel
  induction fuel with
  | zero => intro x h1 h2; simp [TTfIdf.logShrink, Q.zero, Q.ofNat, h1, h2]
  | succ fuel ih =>
      intro x h1 h2
      by_cases h : Q.blt TTfIdf.eApprox x
      · have hn : 0 < (x.div TTfIdf.eApprox).num := by
          simp only [Q.div, TTfIdf.eApprox]
          positivity
        have hd : 0 < (x.div TTfIdf.eApprox).den := by
          simp only [Q.div, TTfIdf.eApprox]
          positivity
        have := ih (x.div TTfIdf.eApprox) hn hd
        simp only [TTfIdf.logShrink, h, if_true]
        exact ⟨this.1, this.2.1, by simp [Q.add, Q.ofNat, this.2.2]⟩
      · simp [TTfIdf.logShrink, h, Q.zero, Q.ofNat, h1, h2]

/-- The second range-reduction loop likewise. -/
theorem logGrow_pos :
    ∀ (fuel : Nat) (x : Q), 0 < x.num → 0 < x.den →
      0 < (TTfIdf.logGrow fuel x).1.num ∧ 0 < (TTfIdf.logGrow fuel x).1.den
      ∧ (TTfIdf.logGrow fuel x).2.den ≠ 0 := by
  intro fuel
  induction fuel with
  | zero => intro x h1 h2; simp [TTfIdf.logGrow, Q.zero, Q.ofNat, h1, h2]
  | succ fuel ih =>
      intro x h1 h2
      by_cases h : Q.blt x TTfIdf.eInvApprox
      · have hn : 0 < (x.mul TTfIdf.eApprox).num := by
          simp only [Q.mul, TTfIdf.eApprox]
          positivity
        have hd : 0 < (x.mul TTfIdf.eApprox).den := by
          simp only [Q.mul, TTfIdf.eApprox]
          positivity
        have := ih (x.mul TTfIdf.eApprox) hn hd
        simp only [TTfIdf.logGrow, h, if_true]
        exact ⟨this.1, this.2.1, by simp [Q.sub, Q.ofNat, this.2.2]⟩
      · simp [TTfIdf.logGrow, h, Q.zero, Q.ofNat, h1, h2]

/-- The reimplemented logarithm of a positive rational argument has a
nonzero denominator. -/
theorem Log_den {x : Q} (h1 : 0 < x.num) (h2 : 0 < x.den) :
    (TTfIdf.Log x).den ≠ 0 := by
  unfold TTfIdf.Log
  split
  · obtain ⟨hs1, hs2, hs3⟩ := logShrink_pos 256 x h1 h2
    obtain ⟨hg1, hg2, hg3⟩ := logGrow_pos 256 (TTfIdf.logShrink 256 x).1 hs1 hs2
    set x' := (TTfIdf.logGrow 256 (TTfIdf.logShrink 256 x).1).1 with hx'
    have haddnum : (x'.add (Q.ofNat 1)).num = x'.num * 1 + 1 * x'.den := rfl
    have hynum : 0 < (x'.add (Q.ofNat 1)).num := by rw [haddnum]; omega
    have hyden : ((x'.sub (Q.ofNat 1)).div (x'.add (Q.ofNat 1))).den ≠ 0 := by
      show (x'.sub (Q.ofNat 1)).den * (x'.add (Q.ofNat 1)).num ≠ 0
      have hsden : (x'.sub (Q.ofNat 1)).den = x'.den * 1 := rfl
      rw [hsden]
      have : (0 : ℤ) < x'.den * 1 * (x'.add (Q.ofNat 1)).num := by positivity
      omega
    set y := (x'.sub (Q.ofNat 1)).div (x'.add (Q.ofNat 1)) with hy
    have hy2 : (y.mul y).den ≠ 0 := mul_ne_zero hyden hyden
    have d3 : ((y.mul y).div (Q.ofNat 3)).den ≠ 0 := by
      show (y.mul y).den * (Q.ofNat 3).num ≠ 0
      exact mul_ne_zero hy2 (by simp [Q.ofNat])
    have hy4 : ((y.mul y).mul (y.mul y)).den ≠ 0 := mul_ne_zero hy2 hy2
    have d5 : (((y.mul y).mul (y.mul y)).div (Q.ofNat 5)).den ≠ 0 := by
      show ((y.mul y).mul (y.mul y)).den * (Q.ofNat 5).num ≠ 0
      exact mul_ne_zero hy4 (by simp [Q.ofNat])
    have hy6 : (((y.mul y).mul (y.mul y)).mul (y.mul y)).den ≠ 0 :=
      mul_ne_zero hy4 hy2
    have d7 : ((((y.mul y).mul (y.mul y)).mul (y.mul y)).div (Q.ofNat 7)).den ≠ 0 := by
      show (((y.mul y).mul (y.mul y)).mul (y.mul y)).den * (Q.ofNat 7).num ≠ 0
      exact mul_ne_zero hy6 (by simp [Q.ofNat])
    have hone : (Q.ofNat 1).den ≠ 0 := by simp [Q.ofNat]
    have s1 : ((Q.ofNat 1).add ((y.mul y).div (Q.ofNat 3))).den ≠ 0 :=
      mul_ne_zero hone d3
    have s2 : (((Q.ofNat 1).add ((y.mul y).div (Q.ofNat 3))).add
        (((y.mul y).mul (y.mul y)).div (Q.ofNat 5))).den ≠ 0 :=
      mul_ne_zero s1 d5
    have s3 : ((((Q.ofNat 1).add ((y.mul y).div (Q.ofNat 3))).add
        (((y.mul y).mul (y.mul y)).div (Q.ofNat 5))).add
          ((((y.mul y).mul (y.mul y)).mul (y.mul y)).div (Q.ofNat 7))).den ≠ 0 :=
      mul_ne_zero s2 d7
    have htwo : ((Q.ofNat 2).mul y).den ≠ 0 :=
      mul_ne_zero (by simp [Q.ofNat]) hyden
    have hcnt : ((TTfIdf.logShrink 256 x).2.add
        (TTfIdf.logGrow 256 (TTfIdf.logShrink 256 x).1).2).den ≠ 0 :=
      mul_ne_zero hs3 hg3
    exact mul_ne_zero hcnt (mul_ne_zero htwo s3)
  · simp [Q.zero, Q.ofNat]

/-- Every TF value has a nonzero denominator. -/
theorem ComputeTF_den (s : TInvertedIndex.State) (docId : Nat) (term : Str) :
    (TTfIdf.ComputeTF s docId term).den ≠ 0 := by
  by_cases h : TInvertedIndex.GetDocumentLength s docId = 0
  · simp [TTfIdf.ComputeTF, h, Q.zero, Q.ofNat]
  · simp only [TTfIdf.ComputeTF, h, if_false]
    show (Q.ofNat (TInvertedIndex.GetTermFrequency s docId term)).den
        * (Q.ofNat (TInvertedIndex.GetDocumentLength s docId)).num ≠ 0
    simp only [Q.ofNat]
    have : (TInvertedIndex.GetDocumentLength s docId : ℤ) ≠ 0 := by exact_mod_cast h
    simpa using this

/-- Every IDF value has a nonzero denominator. -/
theorem ComputeIDF_den (s : TInvertedIndex.State) (term : Str) :
    (TTfIdf.ComputeIDF s term).den ≠ 0 := by
  by_cases h : TInvertedIndex.GetDocumentCount s = 0
      ∨ TInvertedIndex.GetDocumentFrequency s term = 0
  · simp [TTfIdf.ComputeIDF, h, Q.zero, Q.ofNat]
  · simp only [TTfIdf.ComputeIDF, h, if_false]
    have hl : (TTfIdf.Log ((Q.ofNat (TInvertedIndex.GetDocumentCount s + 1)).div
        (Q.ofNat (TInvertedIndex.GetDocumentFrequency s term + 1)))).den ≠ 0 := by
      apply Log_den
      · show (0 : ℤ) < (TInvertedIndex.GetDocumentCount s + 1 : Nat)
          * (Q.ofNat (TInvertedIndex.GetDocumentFrequency s term + 1)).den
        simp only [Q.ofNat]
        positivity
      · show (0 : ℤ) < (Q.ofNat (TInvertedIndex.GetDocumentCount s + 1)).den
          * (TInvertedIndex.GetDocumentFrequency s term + 1 : Nat)
        simp only [Q.ofNat]
        positivity
    show (TTfIdf.Log _).den * (Q.ofNat 1).den ≠ 0
    exact mul_ne_zero hl (by simp [Q.ofNat])

/-- Every accumulated document score has a nonzero denominator. -/
theorem ComputeDocumentScore_den (s : TInvertedIndex.State) (docId : Nat)
    (queryTerms : List Str) :
    (TTfIdf.ComputeDocumentScore s docId queryTerms).den ≠ 0 := by
  suffices h : ∀ (terms : List Str) (acc : Q), acc.den ≠ 0 →
      (terms.foldl (fun score term => score.add (TTfIdf.ComputeTfIdf s docId term))
        acc).den ≠ 0 by
    exact h queryTerms Q.zero (by simp [Q.zero, Q.ofNat])
  intro terms
  induction terms with
  | nil => intro acc hacc; simpa using hacc
  | cons t rest ih =>
      intro acc hacc
      apply ih
      show (acc.den * (TTfIdf.ComputeTfIdf s docId t).den) ≠ 0
      refine mul_ne_zero hacc ?_
      show ((TTfIdf.ComputeTF s docId t).den * (TTfIdf.ComputeIDF s t).den) ≠ 0
      exact mul_ne_zero (ComputeTF_den s docId t) (ComputeIDF_den s t)

/-- Claim C3 (amended): every search result list is sorted by non-increasing
score (no later result has a strictly greater score than an earlier one). -/
theorem C3_search_sorted_nonincreasing
    (s : TInvertedIndex.State) (queryTerms : List Str) (topK : Nat) :
    List.Pairwise (fun x y => Q.blt x.Score y.Score = false)
      (TTfIdf.Search s queryTerms topK) := by
  unfold TTfIdf.Search
  dsimp only
  set results := ((TTfIdf.candidateSet s queryTerms).toList).filterMap
    (fun docId =>
      if Q.blt Q.zero (TTfIdf.ComputeDocumentScore s docId queryTerms) then
        some (⟨docId, TTfIdf.ComputeDocumentScore s docId queryTerms⟩ :
          TTfIdf.TSearchResult)
      else none) with hres
  have hgood : ∀ x ∈ results, x.Score.den ≠ 0 := by
    intro x hx
    rw [hres] at hx
    obtain ⟨d, hdm, hd⟩ := List.mem_filterMap.mp hx
    by_cases hp : Q.blt Q.zero (TTfIdf.ComputeDocumentScore s d queryTerms) = true
    · rw [if_pos hp] at hd
      have := Option.some.inj hd
      rw [← this]
      exact ComputeDocumentScore_den s d queryTerms
    · rw [if_neg hp] at hd
      cases hd
  have hsorted := sortLoop_sorted results.length results hgood (le_refl _)
  simp only [TTfIdf.SortResults]
  by_cases hlen : (TTfIdf.sortLoop results.length results).length > topK
  · rw [if_pos hlen]
    exact pairwise_take _ topK _ hsorted
  · rw [if_neg hlen]
    exact hsorted

/-- Claim C3 (counterexample): on a three-document index where documents 1
and 2 tie, the search returns them as [2, 1] with equal scores: the result
is neither strictly descending nor tie-broken by ascending id. -/
theorem C3_counterexample :
    (TTfIdf.Search tieState [ofStr "t"] 10).map TTfIdf.TSearchResult.DocId = [2, 1]
    ∧ Q.beq ((TTfIdf.Search tieState [ofStr "t"] 10).getD 0 ⟨0, Q.zero⟩).Score
        ((TTfIdf.Search tieState [ofStr "t"] 10).getD 1 ⟨0, Q.zero⟩).Score = true := by
  exact ⟨by decide, by decide⟩

namespace TLzw

/-- Masking with 255 is reduction modulo 256. -/
theorem and255 (x : Nat) : x &&& 255 = x % 256 :=
  Nat.and_pow_two_sub_one_eq_mod x 8

/-- Masking with 4095 is reduction modulo 4096. -/
theorem and4095 (x : Nat) : x &&& 4095 = x % 4096 :=
  Nat.and_pow_two_sub_one_eq_mod x 12

/-- Shifting right by 8 is division by 256. -/
theorem shr8 (x : Nat) : x >>> 8 = x / 256 :=
  Nat.shiftRight_eq_div_pow x 8

/-- Shifting right by 12 is division by 4096. -/
theorem shr12 (x : Nat) : x >>> 12 = x / 4096 :=
  Nat.shiftRight_eq_div_pow x 12

/-- Bitwise or of disjoint ranges is addition: a value below 2 ^ n ored
with a value shifted left by n. -/
theorem lor_shift_add : ∀ (n a b : Nat), a < 2 ^ n →
    a ||| (b <<< n) = a + 2 ^ n * b := by
  intro n
  induction n with
  | zero =>
      intro a b h
      have ha : a = 0 := by omega
      subst ha
      rw [Nat.zero_or, Nat.shiftLeft_zero]
      omega
  | succ n ih =>
      intro a b h
      have hs : (b <<< (n + 1)) / 2 = b <<< n := by
        rw [Nat.shiftLeft_eq, Nat.shiftLeft_eq, pow_succ, ← Nat.mul_assoc]
        exact Nat.mul_div_cancel _ (by omega)
      have hpow : (2 : Nat) ^ (n + 1) = 2 * 2 ^ n := by
        rw [pow_succ]
        ring
      have hdiv : (a ||| (b <<< (n + 1))) / 2 = a / 2 + 2 ^ n * b := by
        rw [Nat.or_div_two, hs]
        apply ih
        omega
      have hb0 : (b <<< (n + 1)) % 2 = 0 := by
        rw [Nat.shiftLeft_eq, pow_succ, ← Nat.mul_assoc]
        exact Nat.mul_mod_left _ 2
      have hiff := @Nat.or_mod_two_eq_one a (b <<< (n + 1))
      have hmod : (a ||| (b <<< (n + 1))) % 2 = a % 2 := by omega
      have hx := Nat.div_add_mod (a ||| (b <<< (n + 1))) 2
      have ha2 := Nat.div_add_mod a 2
      have h2t : 2 ^ (n + 1) * b = 2 * (2 ^ n * b) := by
        rw [hpow]
        ring
      omega

/-- Oring a fresh 4-bit-aligned value into a 4-bit buffer. -/
theorem lor4 {a : Nat} (b : Nat) (h : a < 16) : a ||| (b <<< 4) = a + 16 * b :=
  lor_shift_add 4 a b h

/-- Oring a fresh byte-aligned value into an 8-bit buffer. -/
theorem lor8 {a : Nat} (b : Nat) (h : a < 256) : a ||| (b <<< 8) = a + 256 * b :=
  lor_shift_add 8 a b h

/-- Oring into the empty buffer. -/
theorem lor0 (b : Nat) : 0 ||| (b <<< 0) = b := by
  rw [Nat.zero_or, Nat.shiftLeft_zero]

/-- One 12-bit drain starting with exactly 12 buffered bits. -/
theorem packDrain_c12 (b : Nat) : packDrain 12 b 12 = ([b % 256], b / 256, 4) := by
  have h : packDrain 12 b 12 = ([b &&& 255], b >>> 8, 4) := rfl
  rw [h, and255, shr8]

/-- One 12-bit drain starting with exactly 16 buffered bits. -/
theorem packDrain_c16 (b : Nat) :
    packDrain 16 b 16 = ([b % 256, b / 256 % 256], b / 256 / 256, 0) := by
  have h : packDrain 16 b 16
      = ([b &&& 255, (b >>> 8) &&& 255], (b >>> 8) >>> 8, 0) := rfl
  rw [h, and255, shr8, and255, shr8]

/-- The byte-consuming drain on 8 buffered bits extracts nothing. -/
theorem unpackDrain_c8 (b : Nat) : unpackDrain 8 b 8 = ([], b, 8) := rfl

/-- The byte-consuming drain on 16 buffered bits extracts one code. -/
theorem unpackDrain_c16 (b : Nat) :
    unpackDrain 16 b 16 = ([b % 4096], b / 4096, 4) := by
  have h : unpackDrain 16 b 16 = ([b &&& 4095], b >>> 12, 4) := rfl
  rw [h, and4095, shr12]

/-- The byte-consuming drain on 12 buffered bits extracts one code. -/
theorem unpackDrain_c12 (b : Nat) :
    unpackDrain 12 b 12 = ([b % 4096], b / 4096, 0) := by
  have h : unpackDrain 12 b 12 = ([b &&& 4095], b >>> 12, 0) := rfl
  rw [h, and4095, shr12]

/-- Packing a code into the empty buffer: one byte out, four bits kept. -/
theorem packLoop_s0 {c : Nat} (hc : c < 4096) (rest : List Nat) :
    packLoop (c :: rest) 0 0 = (c % 256) :: packLoop rest (c / 256) 4 := by
  show (packDrain 12 (0 ||| ((c &&& 4095) <<< 0)) 12).1
      ++ packLoop rest (packDrain 12 (0 ||| ((c &&& 4095) <<< 0)) 12).2.1
        (packDrain 12 (0 ||| ((c &&& 4095) <<< 0)) 12).2.2
      = (c % 256) :: packLoop rest (c / 256) 4
  rw [lor0, and4095, Nat.mod_eq_of_lt hc, packDrain_c12]
  rfl

/-- Packing a code over a 4-bit buffer: two bytes out, buffer emptied. -/
theorem packLoop_s4 {c b : Nat} (hc : c < 4096) (hb : b < 16) (rest : List Nat) :
    packLoop (c :: rest) b 4
      = ((b + 16 * c) % 256) :: ((b + 16 * c) / 256) :: packLoop rest 0 0 := by
  show (packDrain 16 (b ||| ((c &&& 4095) <<< 4)) 16).1
      ++ packLoop rest (packDrain 16 (b ||| ((c &&& 4095) <<< 4)) 16).2.1
        (packDrain 16 (b ||| ((c &&& 4095) <<< 4)) 16).2.2
      = ((b + 16 * c) % 256) :: ((b + 16 * c) / 256) :: packLoop rest 0 0
  rw [and4095, Nat.mod_eq_of_lt hc, lor4 c hb, packDrain_c16]
  have h1 : (b + 16 * c) / 256 % 256 = (b + 16 * c) / 256 := by omega
  have h2 : (b + 16 * c) / 256 / 256 = 0 := by omega
  rw [h1, h2]
  rfl

/-- Flushing a 4-bit tail emits one final byte. -/
theorem packLoop_nil4 {b : Nat} (hb : b < 16) : packLoop [] b 4 = [b] := by
  have h : packLoop [] b 4 = [b &&& 255] := rfl
  rw [h, and255, Nat.mod_eq_of_lt (by omega)]

/-- An empty code list with an empty buffer packs to nothing. -/
theorem packLoop_nil0 : packLoop [] 0 0 = [] := rfl

/-- Unpacking a byte into the empty buffer extracts nothing yet. -/
theorem unpackLoop_s0 {x : Nat} (hx : x < 256) (rest : List Nat) :
    unpackLoop (x :: rest) 0 0 = unpackLoop rest x 8 := by
  show (unpackDrain 8 (0 ||| ((x % 256) <<< 0)) 8).1
      ++ unpackLoop rest (unpackDrain 8 (0 ||| ((x % 256) <<< 0)) 8).2.1
        (unpackDrain 8 (0 ||| ((x % 256) <<< 0)) 8).2.2
      = unpackLoop rest x 8
  rw [lor0, Nat.mod_eq_of_lt hx, unpackDrain_c8]
  rfl

/-- Unpacking a byte over an 8-bit buffer extracts one code. -/
theorem unpackLoop_s8 {x b : Nat} (hb : b < 256) (rest : List Nat) :
    unpackLoop (x :: rest) b 8
      = ((b + 256 * (x % 256)) % 4096)
        :: unpackLoop rest ((b + 256 * (x % 256)) / 4096) 4 := by
  show (unpackDrain 16 (b ||| ((x % 256) <<< 8)) 16).1
      ++ unpackLoop rest (unpackDrain 16 (b ||| ((x % 256) <<< 8)) 16).2.1
        (unpackDrain 16 (b ||| ((x % 256) <<< 8)) 16).2.2
      = ((b + 256 * (x % 256)) % 4096)
        :: unpackLoop rest ((b + 256 * (x % 256)) / 4096) 4
  rw [lor8 (x % 256) hb, unpackDrain_c16]
  rfl

/-- Unpacking a byte over a 4-bit buffer extracts one code and empties the
buffer. -/
theorem unpackLoop_s4 {x b : Nat} (hx : x < 256) (hb : b < 16) (rest : List Nat) :
    unpackLoop (x :: rest) b 4 = (b + 16 * x) :: unpackLoop rest 0 0 := by
  show (unpackDrain 12 (b ||| ((x % 256) <<< 4)) 12).1
      ++ unpackLoop rest (unpackDrain 12 (b ||| ((x % 256) <<< 4)) 12).2.1
        (unpackDrain 12 (b ||| ((x % 256) <<< 4)) 12).2.2
      = (b + 16 * x) :: unpackLoop rest 0 0
  rw [lor4 (x % 256) hb, unpackDrain_c12, Nat.mod_eq_of_lt hx]
  have h1 : (b + 16 * x) % 4096 = b + 16 * x := by omega
  have h2 : (b + 16 * x) / 4096 = 0 := by omega
  rw [h1, h2]
  rfl

/-- Twelve-bit codes survive the byte packing and unpacking round trip. -/
theorem unpack_pack : ∀ (n : Nat) (codes : List Nat), codes.length ≤ n →
    (∀ c ∈ codes, c < 4096) → UnpackCodes (PackCodes codes) = codes := by
  intro n
  induction n with
  | zero =>
      intro codes hlen h
      match codes with
      | [] => rfl
  | succ n ih =>
      intro codes hlen h
      match codes with
      | [] => rfl
      | [c] =>
          have hc : c < 4096 := h c (by simp)
          show unpackLoop (packLoop [c] 0 0) 0 0 = [c]
          rw [packLoop_s0 hc, packLoop_nil4 (by omega)]
          rw [unpackLoop_s0 (by omega)]
          rw [unpackLoop_s8 (by omega)]
          have h1 : (c % 256 + 256 * (c / 256 % 256)) % 4096 = c := by omega
          rw [h1]
          rfl
      | c1 :: c2 :: rest =>
          have hc1 : c1 < 4096 := h c1 (by simp)
          have hc2 : c2 < 4096 := h c2 (by simp)
          show unpackLoop (packLoop (c1 :: c2 :: rest) 0 0) 0 0 = c1 :: c2 :: rest
          rw [packLoop_s0 hc1, packLoop_s4 hc2 (by omega)]
          rw [unpackLoop_s0 (by omega)]
          rw [unpackLoop_s8 (by omega)]
          have e1 : (c1 % 256 + 256 * ((c1 / 256 + 16 * c2) % 256 % 256)) % 4096
              = c1 := by omega
          have e2 : (c1 % 256 + 256 * ((c1 / 256 + 16 * c2) % 256 % 256)) / 4096
              = c2 % 16 := by omega
          rw [e1, e2]
          rw [unpackLoop_s4 (by omega) (by omega)]
          have e3 : c2 % 16 + 16 * ((c1 / 256 + 16 * c2) / 256) = c2 := by omega
          rw [e3]
          have hr : UnpackCodes (PackCodes rest) = rest := by
            apply ih rest (by simp at hlen; omega)
            intro c hcm
            exact h c (by simp [hcm])
          show c1 :: c2 :: unpackLoop (packLoop rest 0 0) 0 0 = c1 :: c2 :: rest
          rw [show unpackLoop (packLoop rest 0 0) 0 0 = rest from hr]

end TLzw

section AfindMore

variable {α β : Type} [DecidableEq α]

/-- Lookup distributes over list append. -/
theorem afind_append (k : α) (xs ys : List (α × β)) :
    afind k (xs ++ ys) = match afind k xs with
      | some v => some v
      | none => afind k ys := by
  induction xs with
  | nil => simp [afind]
  | cons p rest ih =>
      obtain ⟨k', v'⟩ := p
      by_cases h : k' = k
      · subst h; simp [afind]
      · simp [afind, h, ih]

/-- A found value is a stored value. -/
theorem afind_mem_values {k : α} {m : List (α × β)} {v : β}
    (h : afind k m = some v) : v ∈ m.map Prod.snd := by
  induction m with
  | nil => simp [afind] at h
  | cons p rest ih =>
      obtain ⟨k', v'⟩ := p
      by_cases h2 : k' = k
      · subst h2
        simp [afind] at h
        simp [h]
      · simp only [afind, h2, if_false] at h
        simp [ih h]

end AfindMore

namespace TLzw

/-- A position found by posOf is in range and holds the sought string. -/
theorem posOf_get {w : Str} : ∀ {l : List Str} {i : Nat},
    posOf w l = some i → i < l.length ∧ l.getD i [] = w := by
  intro l
  induction l with
  | nil => intro i h; simp [posOf] at h
  | cons x rest ih =>
      intro i h
      by_cases hx : x = w
      · simp [posOf, hx] at h
        subst h
        simp [hx]
      · simp only [posOf, hx, if_false] at h
        cases hp : posOf w rest with
        | none => rw [hp] at h; simp at h
        | some j =>
            rw [hp] at h
            simp at h
            obtain ⟨h1, h2⟩ := ih hp
            subst h
            constructor
            · simp only [List.length_cons]
              omega
            · rw [List.getD_cons_succ]
              exact h2

/-- Membership makes posOf succeed. -/
theorem posOf_isSome {w : Str} : ∀ {l : List Str}, w ∈ l →
    ∃ i, posOf w l = some i := by
  intro l
  induction l with
  | nil => intro h; cases h
  | cons x rest ih =>
      intro h
      by_cases hx : x = w
      · exact ⟨0, by simp [posOf, hx]⟩
      · rcases List.mem_cons.mp h with h | h
        · exact absurd h.symm hx
        · obtain ⟨i, hi⟩ := ih h
          exact ⟨i + 1, by simp [posOf, hx, hi]⟩

/-- A failing posOf means absence. -/
theorem posOf_none {w : Str} : ∀ {l : List Str},
    posOf w l = none → w ∉ l := by
  intro l h hmem
  obtain ⟨i, hi⟩ := posOf_isSome hmem
  rw [h] at hi
  cases hi

/-- posOf over an append searches left first. -/
theorem posOf_append (w : Str) (xs ys : List Str) :
    posOf w (xs ++ ys) = match posOf w xs with
      | some i => some i
      | none => (posOf w ys).map (· + xs.length) := by
  induction xs with
  | nil =>
      simp only [List.nil_append, posOf, List.length_nil]
      cases posOf w ys with
      | none => rfl
      | some i => simp
  | cons x rest ih =>
      by_cases hx : x = w
      · simp [posOf, hx]
      · have step : posOf w ((x :: rest) ++ ys)
            = (posOf w (rest ++ ys)).map (· + 1) := by
          simp [posOf, hx]
        have hcons : posOf w (x :: rest) = (posOf w rest).map (· + 1) := by
          simp [posOf, hx]
        rw [step, ih, hcons]
        cases hpr : posOf w rest with
        | some i => simp
        | none =>
            cases hys : posOf w ys with
            | none => simp
            | some j =>
                simp [List.length_cons]
                omega

/-- Appending a phrase that was absent registers it at the end. -/
theorem dictRepr_grow {dictE : List (Str × Nat)} {phrases : List Str}
    (h : DictRepr dictE phrases) {wc : Str}
    (hnew : afind wc dictE = none) :
    DictRepr (ainsert wc phrases.length dictE) (phrases ++ [wc]) := by
  intro w
  by_cases hw : w = wc
  · subst hw
    rw [afind_ainsert_self, posOf_append]
    have hp : posOf w phrases = none := by rw [← h w]; exact hnew
    rw [hp]
    simp [posOf]
  · rw [afind_ainsert_ne hw, h w, posOf_append]
    cases hp : posOf w phrases with
    | some i => rfl
    | none =>
        have hne : ¬ wc = w := fun he => hw he.symm
        have hz : posOf w [wc] = none := by
          simp [posOf, hne]
        rw [hz]
        rfl

/-- The initial encoder dictionary represents the initial phrase table. -/
theorem dictRepr_initial : DictRepr initialDict initialDecDict := by
  have main : ∀ (n : Nat) (w : Str),
      afind w ((List.range n).map fun i => ([i], i))
        = posOf w ((List.range n).map fun i => [i]) := by
    intro n
    induction n with
    | zero => intro w; simp [afind, posOf]
    | succ n ih =>
        intro w
        rw [List.range_succ]
        simp only [List.map_append, List.map_cons, List.map_nil]
        rw [afind_append, posOf_append, ih w]
        cases hp : posOf w ((List.range n).map fun i => [i]) with
        | some i => rfl
        | none =>
            by_cases hw : [n] = w
            · simp [afind, posOf, hw]
            · simp [afind, posOf, hw]
  exact main 256

/-- The position of a singleton in the initial phrase table is its byte. -/
theorem posOf_initial : ∀ (n c : Nat),
    posOf [c] ((List.range n).map fun i => [i])
      = if c < n then some c else none := by
  intro n
  induction n with
  | zero => intro c; simp [posOf]
  | succ n ih =>
      intro c
      rw [List.range_succ]
      simp only [List.map_append, List.map_cons, List.map_nil]
      rw [posOf_append, ih c]
      by_cases hc : c < n
      · rw [if_pos hc, if_pos (by omega)]
      · rw [if_neg hc]
        by_cases he : c = n
        · subst he
          simp [posOf, if_pos (by omega : c < c + 1)]
        · have : ([n] : Str) ≠ [c] := by
            intro h
            cases h
            exact he rfl
          simp [posOf, this, if_neg (by omega : ¬ c < n + 1)]

/-- End of input with an empty prefix emits nothing. -/
theorem compressLoop_nil_stop {dict : List (Str × Nat)} {nc : Nat} :
    compressLoop dict nc [] [] = [] := by
  unfold compressLoop
  simp

/-- End of input flushes the pending prefix as one code. -/
theorem compressLoop_nil_emit {dict : List (Str × Nat)} {nc : Nat} {w : Str}
    {cw : Nat} (hw : w ≠ []) (hf : afind w dict = some cw) :
    compressLoop dict nc w [] = [cw] := by
  unfold compressLoop
  rw [if_pos hw]
  simp only [hf]

/-- The first input byte only seeds the prefix. -/
theorem compressLoop_cons_start {dict : List (Str × Nat)} {nc : Nat}
    {c : Nat} {rest : Str} :
    compressLoop dict nc [] (c :: rest) = compressLoop dict nc [c] rest := by
  conv_lhs => unfold compressLoop
  rw [if_pos rfl]

/-- A known extension grows the prefix without emitting. -/
theorem compressLoop_cons_ext {dict : List (Str × Nat)} {nc : Nat} {w : Str}
    {c : Nat} {rest : Str} {x : Nat} (hw : w ≠ [])
    (hf : afind (w ++ [c]) dict = some x) :
    compressLoop dict nc w (c :: rest)
      = compressLoop dict nc (w ++ [c]) rest := by
  conv_lhs => unfold compressLoop
  rw [if_neg hw]
  simp only [hf]

/-- An unknown extension emits the prefix code and restarts from the new
byte, inserting the extension while the dictionary is not full. -/
theorem compressLoop_cons_emit {dict : List (Str × Nat)} {nc : Nat} {w : Str}
    {c : Nat} {rest : Str} (hw : w ≠ [])
    (hmiss : afind (w ++ [c]) dict = none) :
    compressLoop dict nc w (c :: rest)
      = (match afind w dict with | some cw => [cw] | none => [])
        ++ (if nc < EndCode
            then compressLoop (ainsert (w ++ [c]) nc dict) (nc + 1) [c] rest
            else compressLoop dict nc [c] rest) := by
  conv_lhs => unfold compressLoop
  rw [if_neg hw]
  simp only [hmiss]
  by_cases hnc : nc < EndCode
  · rw [if_pos hnc, if_pos hnc]
  · rw [if_neg hnc, if_neg hnc]

/-- The END code stops the decoder with an empty tail. -/
theorem decompressLoop_end {dictD : List Str} {nD : Nat} {wD : Str}
    {rest : List Nat} :
    decompressLoop dictD nD wD (EndCode :: rest) = some [] := by
  unfold decompressLoop
  rw [if_pos rfl]

/-- One decoder step in the growing regime. -/
theorem decompressLoop_step_grow {dictD : List Str} {nD : Nat} {wD : Str}
    {k : Nat} {rest : List Nat} {entry : Str} (hk : k ≠ EndCode)
    (he : (if k < dictD.length then some (dictD.getD k [])
           else if k = nD ∧ wD ≠ [] then some (wD ++ [wD.getD 0 0])
           else none) = some entry)
    (hg : nD < EndCode ∧ wD ≠ [] ∧ entry ≠ []) :
    decompressLoop dictD nD wD (k :: rest)
      = match decompressLoop (dictD ++ [wD ++ [entry.getD 0 0]]) (nD + 1)
          entry rest with
        | none => none
        | some out => some (entry ++ out) := by
  conv_lhs => unfold decompressLoop
  rw [if_neg hk]
  simp only [he, if_pos hg]

/-- One decoder step in the frozen regime. -/
theorem decompressLoop_step_nogrow {dictD : List Str} {nD : Nat} {wD : Str}
    {k : Nat} {rest : List Nat} {entry : Str} (hk : k ≠ EndCode)
    (he : (if k < dictD.length then some (dictD.getD k [])
           else if k = nD ∧ wD ≠ [] then some (wD ++ [wD.getD 0 0])
           else none) = some entry)
    (hg : ¬ (nD < EndCode ∧ wD ≠ [] ∧ entry ≠ [])) :
    decompressLoop dictD nD wD (k :: rest)
      = match decompressLoop dictD nD entry rest with
        | none => none
        | some out => some (entry ++ out) := by
  conv_lhs => unfold decompressLoop
  rw [if_neg hk]
  simp only [he, if_neg hg]

/-- Every code the compression loop emits is below the END marker, as long
as every stored dictionary code is. -/
theorem compressLoop_codes_lt : ∀ (rest : Str) (dict : List (Str × Nat))
    (nc : Nat) (w : Str),
    (∀ p c, afind p dict = some c → c < EndCode) →
    ∀ k ∈ compressLoop dict nc w rest, k < EndCode := by
  intro rest
  induction rest with
  | nil =>
      intro dict nc w hd k hk
      by_cases hw : w = []
      · subst hw
        rw [compressLoop_nil_stop] at hk
        cases hk
      · cases hf : afind w dict with
        | none =>
            have : compressLoop dict nc w [] = [] := by
              unfold compressLoop
              rw [if_pos hw]
              simp only [hf]
            rw [this] at hk
            cases hk
        | some cw =>
            rw [compressLoop_nil_emit hw hf] at hk
            rcases List.mem_singleton.mp hk with rfl
            exact hd w k hf
  | cons c rest ih =>
      intro dict nc w hd k hk
      by_cases hw : w = []
      · subst hw
        rw [compressLoop_cons_start] at hk
        exact ih dict nc [c] hd k hk
      · cases hf : afind (w ++ [c]) dict with
        | some x =>
            rw [compressLoop_cons_ext hw hf] at hk
            exact ih dict nc (w ++ [c]) hd k hk
        | none =>
            rw [compressLoop_cons_emit hw hf] at hk
            rcases List.mem_append.mp hk with hk | hk
            · cases hfw : afind w dict with
              | none => rw [hfw] at hk; cases hk
              | some cw =>
                  rw [hfw] at hk
                  rcases List.mem_singleton.mp hk with rfl
                  exact hd w k hfw
            · by_cases hnc : nc < EndCode
              · rw [if_pos hnc] at hk
                refine ih _ _ _ ?_ k hk
                intro p c' hp
                by_cases hpw : p = w ++ [c]
                · subst hpw
                  rw [afind_ainsert_self] at hp
                  injection hp with hp1
                  omega
                · rw [afind_ainsert_ne hpw] at hp
                  exact hd p c' hp
              · rw [if_neg hnc] at hk
                exact ih dict nc [c] hd k hk

/-- The initial decoder dictionary has one entry per byte value. -/
theorem initialDecDict_len : initialDecDict.length = 256 := by
  simp [initialDecDict]

/-- Every byte names an initial singleton phrase. -/
theorem mem_initialDecDict {c : Nat} (hc : c < 256) : [c] ∈ initialDecDict := by
  simp only [initialDecDict, List.mem_map]
  exact ⟨c, List.mem_range.mpr hc, rfl⟩

/-- Initial phrases are nonempty. -/
theorem initialDecDict_ne_nil {p : Str} (hp : p ∈ initialDecDict) : p ≠ [] := by
  simp only [initialDecDict, List.mem_map] at hp
  obtain ⟨i, _, hi⟩ := hp
  rw [← hi]
  simp

end TLzw

namespace TLzw

/-- The head of a nonempty prefix survives appending. -/
theorem getD0_append {w : Str} (hw : w ≠ []) (l : Str) :
    (w ++ l).getD 0 0 = w.getD 0 0 := by
  have h : 0 < w.length := List.length_pos.mpr hw
  rw [List.getD_append w l 0 0 h]

/-- A string found by posOf is a member. -/
theorem posOf_some_mem {w : Str} {l : List Str} {i : Nat}
    (h : posOf w l = some i) : w ∈ l := by
  obtain ⟨h1, h2⟩ := posOf_get h
  rw [← h2, List.getD_eq_getElem l [] h1]
  exact List.getElem_mem h1

/-- Under the simulation invariant, one decoder step on the code of the
pending encoder prefix resolves to that prefix and resynchronizes the
decoder dictionary with the phrase table. -/
theorem sim_decode_one {dictE : List (Str × Nat)} {nextCode : Nat} {w : Str}
    {phrases dictD : List Str} {nextD : Nat} {wD : Str}
    (hinv : SimInv dictE nextCode w phrases dictD nextD wD)
    {cw : Nat} (hcw : posOf w phrases = some cw) (tail : List Nat) :
    decompressLoop dictD nextD wD (cw :: tail)
      = match decompressLoop phrases nextCode w tail with
        | none => none
        | some out => some (w ++ out) := by
  obtain ⟨hrepr, hlen, hle, hext, hne, hw, hmem, hwD, hshape⟩ := hinv
  have hEnd : EndCode = 4095 := rfl
  obtain ⟨hcwlt, hget⟩ := posOf_get hcw
  have hkEnd : cw ≠ EndCode := by omega
  rcases hshape with ⟨hd, hn, hfull⟩ | ⟨hph, hn, hsan⟩
  · have he : (if cw < dictD.length then some (dictD.getD cw [])
        else if cw = nextD ∧ wD ≠ [] then some (wD ++ [wD.getD 0 0])
        else none) = some w := by
      rw [hd, if_pos hcwlt, hget]
    have hg : ¬ (nextD < EndCode ∧ wD ≠ [] ∧ w ≠ []) := by
      intro hcon
      omega
    rw [decompressLoop_step_nogrow hkEnd he hg, hd, hn]
  · by_cases hlt : cw < dictD.length
    · have hentry : dictD.getD cw [] = w := by
        rw [← hget, hph, List.getD_append dictD _ [] cw hlt]
      have he : (if cw < dictD.length then some (dictD.getD cw [])
          else if cw = nextD ∧ wD ≠ [] then some (wD ++ [wD.getD 0 0])
          else none) = some w := by
        rw [if_pos hlt, hentry]
      have hg : nextD < EndCode ∧ wD ≠ [] ∧ w ≠ [] := ⟨by omega, hwD, hw⟩
      rw [decompressLoop_step_grow hkEnd he hg, ← hph, ← hsan]
    · have hplen : phrases.length = dictD.length + 1 := by
        rw [hph]
        simp
      have hcweq : cw = dictD.length := by omega
      have hpend : phrases.getD cw [] = wD ++ [w.getD 0 0] := by
        rw [hph, hcweq, List.getD_append_right dictD _ [] dictD.length (le_refl _)]
        simp
      have hwpend : w = wD ++ [w.getD 0 0] := by
        have h1 := hget
        rw [hpend] at h1
        exact h1.symm
      have hhead : wD.getD 0 0 = w.getD 0 0 := by
        conv_rhs => rw [hwpend]
        rw [getD0_append hwD]
      have he : (if cw < dictD.length then some (dictD.getD cw [])
          else if cw = nextD ∧ wD ≠ [] then some (wD ++ [wD.getD 0 0])
          else none) = some w := by
        rw [if_neg hlt, if_pos ⟨by omega, hwD⟩]
        congr 1
        rw [hhead]
        exact hwpend.symm
      have hg : nextD < EndCode ∧ wD ≠ [] ∧ w ≠ [] := ⟨by omega, hwD, hw⟩
      rw [decompressLoop_step_grow hkEnd he hg, ← hph, ← hsan]

/-- The decompression loop inverts the compression loop from any pair of
states related by the simulation invariant: it reproduces the pending
prefix followed by the unread input. -/
theorem simLoop : ∀ (rest : Str) (dictE : List (Str × Nat)) (nextCode : Nat)
    (w : Str) (phrases dictD : List Str) (nextD : Nat) (wD : Str),
    (∀ b ∈ rest, b < 256) →
    SimInv dictE nextCode w phrases dictD nextD wD →
    decompressLoop dictD nextD wD
      (compressLoop dictE nextCode w rest ++ [EndCode]) = some (w ++ rest) := by
  intro rest
  induction rest with
  | nil =>
      intro dictE nextCode w phrases dictD nextD wD hb hinv
      obtain ⟨hrepr, hlen, hle, hext, hne, hw, hmem, hwD, hshape⟩ := hinv
      obtain ⟨cw, hcw⟩ := posOf_isSome hmem
      have hfind : afind w dictE = some cw := by rw [hrepr w]; exact hcw
      rw [compressLoop_nil_emit hw hfind]
      show decompressLoop dictD nextD wD (cw :: [EndCode]) = some (w ++ [])
      rw [sim_decode_one ⟨hrepr, hlen, hle, hext, hne, hw, hmem, hwD, hshape⟩
        hcw [EndCode]]
      rw [decompressLoop_end]
  | cons c rest ih =>
      intro dictE nextCode w phrases dictD nextD wD hb hinv
      obtain ⟨hrepr, hlen, hle, hext, hne, hw, hmem, hwD, hshape⟩ := hinv
      have hEnd : EndCode = 4095 := rfl
      have hc : c < 256 := hb c (by simp)
      have hbr : ∀ b ∈ rest, b < 256 := fun b hb2 => hb b (by simp [hb2])
      cases hfwc : afind (w ++ [c]) dictE with
      | some x =>
          rw [compressLoop_cons_ext hw hfwc]
          have hgoal : w ++ (c :: rest) = (w ++ [c]) ++ rest := by simp
          rw [hgoal]
          apply ih dictE nextCode (w ++ [c]) phrases dictD nextD wD hbr
      -- the extended prefix is in the dictionary, every other part is as before
          have hwcmem : (w ++ [c]) ∈ phrases := by
            have hpos : posOf (w ++ [c]) phrases = some x := by
              rw [← hrepr]
              exact hfwc
            exact posOf_some_mem hpos
          refine ⟨hrepr, hlen, hle, hext, hne, by simp, hwcmem, hwD, ?_⟩
          rcases hshape with hB | ⟨hph, hn, hsan⟩
          · exact Or.inl hB
          · refine Or.inr ⟨?_, hn, hsan⟩
            rw [getD0_append hw [c]]
            exact hph
      | none =>
          obtain ⟨cw, hcw⟩ := posOf_isSome hmem
          have hfind : afind w dictE = some cw := by rw [hrepr w]; exact hcw
          rw [compressLoop_cons_emit hw hfwc, hfind]
          by_cases hnc : nextCode < EndCode
          · rw [if_pos hnc]
            show decompressLoop dictD nextD wD
                (cw :: (compressLoop (ainsert (w ++ [c]) nextCode dictE)
                  (nextCode + 1) [c] rest ++ [EndCode])) = some (w ++ (c :: rest))
            rw [sim_decode_one ⟨hrepr, hlen, hle, hext, hne, hw, hmem, hwD, hshape⟩
              hcw _]
            have hIH : decompressLoop phrases nextCode w
                (compressLoop (ainsert (w ++ [c]) nextCode dictE)
                  (nextCode + 1) [c] rest ++ [EndCode]) = some ([c] ++ rest) := by
              apply ih _ _ _ (phrases ++ [w ++ [c]]) _ _ _ hbr
              obtain ⟨extra, hextra⟩ := hext
              refine ⟨?_, by simp [hlen], by omega, ⟨extra ++ [w ++ [c]], by simp [hextra]⟩,
                ?_, by simp, ?_, hw, ?_⟩
              · have hg := dictRepr_grow hrepr hfwc
                rw [hlen] at hg
                exact hg
              · intro p hp
                rcases List.mem_append.mp hp with hp | hp
                · exact hne p hp
                · rcases List.mem_singleton.mp hp with rfl
                  simp
              · refine List.mem_append.mpr (Or.inl ?_)
                rw [hextra]
                exact List.mem_append.mpr (Or.inl (mem_initialDecDict hc))
              · refine Or.inr ⟨?_, hlen.symm, rfl⟩
                simp
            rw [hIH]
            simp
          · rw [if_neg hnc]
            have hful : nextCode = EndCode := by omega
            show decompressLoop dictD nextD wD
                (cw :: (compressLoop dictE nextCode [c] rest ++ [EndCode]))
              = some (w ++ (c :: rest))
            rw [sim_decode_one ⟨hrepr, hlen, hle, hext, hne, hw, hmem, hwD, hshape⟩
              hcw _]
            have hIH : decompressLoop phrases nextCode w
                (compressLoop dictE nextCode [c] rest ++ [EndCode])
                = some ([c] ++ rest) := by
              apply ih _ _ _ phrases _ _ _ hbr
              obtain ⟨extra, hextra⟩ := hext
              refine ⟨hrepr, hlen, hle, ⟨extra, hextra⟩, hne, by simp, ?_, hw,
                Or.inl ⟨rfl, rfl, hful⟩⟩
              rw [hextra]
              exact List.mem_append.mpr (Or.inl (mem_initialDecDict hc))
            rw [hIH]
            simp

end TLzw

namespace TLzw

/-- Values stored in the initial encoder dictionary are bytes. -/
theorem initialDict_values {p : Str} {v : Nat}
    (h : afind p initialDict = some v) : v < 256 := by
  have hm := afind_mem_values h
  simp only [initialDict, List.map_map] at hm
  have : v ∈ List.range 256 := by
    simpa using hm
  exact List.mem_range.mp this

/-- The initial encoder dictionary maps each single byte to itself. -/
theorem initialDict_single {c : Nat} (hc : c < 256) :
    afind [c] initialDict = some c := by
  rw [dictRepr_initial]
  show posOf [c] ((List.range 256).map fun i => [i]) = some c
  rw [posOf_initial 256 c, if_pos hc]

/-- The singleton table position of a byte. -/
theorem initialDecDict_getD {c : Nat} (hc : c < 256) :
    initialDecDict.getD c [] = [c] := by
  have hp : posOf [c] initialDecDict = some c := by
    show posOf [c] ((List.range 256).map fun i => [i]) = some c
    rw [posOf_initial 256 c, if_pos hc]
  exact (posOf_get hp).2

/-- No two-byte string is an initial dictionary key. -/
theorem initialDict_no_pair (c c2 : Nat) :
    afind ([c] ++ [c2]) initialDict = none := by
  rw [dictRepr_initial]
  cases hp : posOf ([c] ++ [c2]) initialDecDict with
  | none => rfl
  | some i =>
      obtain ⟨h1, h2⟩ := posOf_get hp
      have hmem : initialDecDict.getD i [] ∈ initialDecDict := by
        rw [List.getD_eq_getElem initialDecDict [] h1]
        exact List.getElem_mem h1
      rw [h2] at hmem
      simp only [initialDecDict, List.mem_map] at hmem
      obtain ⟨j, _, hj⟩ := hmem
      have : ([j] : Str) = [c, c2] := hj
      injection this with ha hb
      cases hb

/-- Every code of a compressed stream fits in twelve bits. -/
theorem compressCodes_lt (x : Str) : ∀ k ∈ compressCodes x, k < 4096 := by
  intro k hk
  unfold compressCodes at hk
  rcases List.mem_append.mp hk with hk | hk
  · have hinit : ∀ p c, afind p initialDict = some c → c < EndCode := by
      intro p c hp
      have := initialDict_values hp
      have hEnd : EndCode = 4095 := rfl
      omega
    have := compressLoop_codes_lt x initialDict 256 [] hinit k hk
    have hEnd : EndCode = 4095 := rfl
    omega
  · rcases List.mem_singleton.mp hk with rfl
    show EndCode < 4096
    have hEnd : EndCode = 4095 := rfl
    omega

/-- Unfolding TLzw::Decompress on a stream led by a single-byte alias. -/
theorem decompressCodes_cons {firstCode : Nat} {rest : List Nat}
    (h1 : firstCode ≠ EndCode) (h2 : firstCode < 256) :
    decompressCodes (firstCode :: rest)
      = match decompressLoop initialDecDict 256
          (initialDecDict.getD firstCode []) rest with
        | none => []
        | some out => initialDecDict.getD firstCode [] ++ out := by
  show (if firstCode = EndCode then []
        else if firstCode < initialDecDict.length then
          match decompressLoop initialDecDict 256
              (initialDecDict.getD firstCode []) rest with
          | none => []
          | some out => initialDecDict.getD firstCode [] ++ out
        else [])
      = match decompressLoop initialDecDict 256
          (initialDecDict.getD firstCode []) rest with
        | none => []
        | some out => initialDecDict.getD firstCode [] ++ out
  rw [if_neg h1, if_pos (by rw [initialDecDict_len]; exact h2)]

/-- Decoding inverts encoding at the code level for byte inputs. -/
theorem decompress_compressCodes (x : Str) (hx : ∀ b ∈ x, b < 256) :
    decompressCodes (compressCodes x) = x := by
  match x with
  | [] => rfl
  | [c] =>
      have hc : c < 256 := hx c (by simp)
      have hEnd : EndCode = 4095 := rfl
      show decompressCodes (compressLoop initialDict 256 [] [c] ++ [EndCode]) = [c]
      rw [compressLoop_cons_start, compressLoop_nil_emit (by simp)
        (initialDict_single hc)]
      show decompressCodes (c :: [EndCode]) = [c]
      rw [decompressCodes_cons (by omega) hc, decompressLoop_end,
        initialDecDict_getD hc]
      rfl
  | c :: c2 :: rest =>
      have hc : c < 256 := hx c (by simp)
      have hc2 : c2 < 256 := hx c2 (by simp)
      have hEnd : EndCode = 4095 := rfl
      show decompressCodes
        (compressLoop initialDict 256 [] (c :: c2 :: rest) ++ [EndCode])
        = c :: c2 :: rest
      rw [compressLoop_cons_start,
        compressLoop_cons_emit (by simp) (initialDict_no_pair c c2),
        initialDict_single hc, if_pos (by omega : (256 : Nat) < EndCode)]
      show decompressCodes
        (c :: (compressLoop (ainsert ([c] ++ [c2]) 256 initialDict) 257 [c2]
          rest ++ [EndCode])) = c :: c2 :: rest
      rw [decompressCodes_cons (by omega) hc, initialDecDict_getD hc]
      have hsim := simLoop rest (ainsert ([c] ++ [c2]) 256 initialDict) 257
        [c2] (initialDecDict ++ [[c] ++ [c2]]) initialDecDict 256 [c]
        (fun b hb => hx b (by simp [hb]))
        ?_
      · rw [hsim]
        simp
      · refine ⟨?_, by simp [initialDecDict_len], by omega,
          ⟨[[c] ++ [c2]], rfl⟩, ?_, by simp, ?_, by simp, ?_⟩
        · have hg := dictRepr_grow dictRepr_initial (initialDict_no_pair c c2)
          rw [initialDecDict_len] at hg
          exact hg
        · intro p hp
          rcases List.mem_append.mp hp with hp | hp
          · exact initialDecDict_ne_nil hp
          · rcases List.mem_singleton.mp hp with rfl
            simp
        · exact List.mem_append.mpr (Or.inl (mem_initialDecDict hc2))
        · exact Or.inr ⟨by simp, by rw [initialDecDict_len], rfl⟩

end TLzw

/-- Claim C1: for every byte string, decompressing the result of
compressing it with the LZW codec at default options (12-bit codes,
END = 4095, first free code 256) returns exactly the input. -/
theorem C1_lzw_roundtrip (x : Str) (h : ∀ b ∈ x, b < 256) :
    TLzw.Decompress (TLzw.Compress x) = x := by
  show TLzw.decompressCodes
    (TLzw.UnpackCodes (TLzw.PackCodes (TLzw.compressCodes x))) = x
  rw [TLzw.unpack_pack (TLzw.compressCodes x).length (TLzw.compressCodes x)
    (le_refl _) (TLzw.compressCodes_lt x)]
  exact TLzw.decompress_compressCodes x h

/-- Claim C1 witness: the round trip evaluated on the concrete byte string
"ababa", which exercises dictionary growth and a repeated phrase. -/
theorem C1_witness :
    (∀ b ∈ ofStr "ababa", b < 256)
    ∧ TLzw.Decompress (TLzw.Compress (ofStr "ababa")) = ofStr "ababa" :=
  ⟨by decide, C1_lzw_roundtrip (ofStr "ababa") (by decide)⟩
